import Mathlib

/-! Verification of the core text engine of lint-gost-tex.

The Python sources (src/lint_gost_tex) are embedded shallowly: strings
become `List Char`, character indexing becomes `l[i]?`, and `while` loops
become fuel-indexed structural recursions.  Every fuel parameter decreases
by exactly one per loop iteration, and each loop advances its cursor by at
least one position per iteration, so the fuel supplied by the top-level
wrappers (`text.length + 1` and similar) is provably sufficient: the
embedded functions compute exactly what the Python loops compute.
Python function and argument names are kept wherever Lean's lexer permits.
-/

namespace LintGost

/-- The opening brace character, written via its code point. -/
def lbrace : Char := Char.ofNat 123

/-- The closing brace character, written via its code point. -/
def rbrace : Char := Char.ofNat 125

/-- Number of consecutive backslash characters immediately before `index`
(the counting loop inside `is_escaped` in `tex.py`). -/
def countBackslash (text : List Char) : Nat → Nat
  | 0 => 0
  | i + 1 => if text[i]? = some '\\' then countBackslash text i + 1 else 0

/-- Embeds `is_escaped` of `tex.py`: a character is escaped iff the number
of consecutive backslashes immediately preceding it is odd. -/
def is_escaped (text : List Char) (index : Nat) : Bool :=
  countBackslash text index % 2 == 1

/-- The inner `while` loop of `strip_comments_keep_length`: blank characters
from `index` until the next newline (exclusive) or the end of the list. -/
def blankComment (fuel : Nat) (chars : List Char) (index : Nat) : List Char × Nat :=
  match fuel with
  | 0 => (chars, index)
  | fuel + 1 =>
    if index < chars.length ∧ chars[index]? ≠ some '\n' then
      blankComment fuel (chars.set index ' ') (index + 1)
    else (chars, index)

/-- The outer loop of `strip_comments_keep_length` in `tex.py`. -/
def stripAux (fuel : Nat) (text chars : List Char) (index : Nat) : List Char :=
  match fuel with
  | 0 => chars
  | fuel + 1 =>
    if index < chars.length then
      if chars[index]? = some '%' ∧ is_escaped text index = false then
        let s := blankComment chars.length (chars.set index ' ') (index + 1)
        stripAux fuel text s.1 s.2
      else stripAux fuel text chars (index + 1)
    else chars

/-- Embeds `strip_comments_keep_length` of `tex.py`. -/
def strip_comments_keep_length (text : List Char) : List Char :=
  stripAux (text.length + 1) text text 0

/-- The elementwise worker behind `_mask_range`: positions in
`[start, stop)` (relative to the running index `j`) whose character is not
a newline are replaced by a space. -/
def maskFrom (start stop j : Nat) : List Char → List Char
  | [] => []
  | c :: rest =>
    (if start ≤ j ∧ j < stop ∧ c ≠ '\n' then ' ' else c) :: maskFrom start stop (j + 1) rest

/-- Embeds `_mask_range` of `tex.py`: blank `[start, stop)` keeping newlines.
The Python loop runs to `min(stop, len(chars))`, which the elementwise
formulation reproduces. -/
def _mask_range (chars : List Char) (start stop : Nat) : List Char :=
  maskFrom start stop 0 chars

/-- Embeds `str.startswith(pat, i)`. -/
def startsWithAt (text pat : List Char) (i : Nat) : Bool :=
  pat.isPrefixOf (text.drop i)

/-- Embeds `str.find(pat, i)`: the first position `≥ i` where `pat` occurs
in full, or `none`. -/
def strFind (fuel : Nat) (text pat : List Char) (i : Nat) : Option Nat :=
  match fuel with
  | 0 => none
  | fuel + 1 =>
    if i + pat.length ≤ text.length then
      if startsWithAt text pat i then some i else strFind fuel text pat (i + 1)
    else none

/-- The loop of `_find_next` in `tex.py`: repeated `str.find`, skipping
escaped occurrences by the needle's length. -/
def findNextAux (fuel : Nat) (text needle : List Char) (start : Nat) : Option Nat :=
  match fuel with
  | 0 => none
  | fuel + 1 =>
    match strFind (text.length + 1) text needle start with
    | none => none
    | some j =>
      if is_escaped text j then findNextAux fuel text needle (j + needle.length)
      else some j

/-- Embeds `_find_next` of `tex.py` (only ever called with the non-empty
needles of one or two dollar signs). -/
def _find_next (text needle : List Char) (start : Nat) : Option Nat :=
  findNextAux (text.length + 1) text needle start

/-- The loop of `mask_math_keep_length` in `tex.py`.  `chars` is the
partially masked list; escape tests, `startswith` and the closer searches
run against the original `text`, exactly as in the Python code. -/
def maskMathAux (fuel : Nat) (text chars : List Char) (index : Nat) : List Char :=
  match fuel with
  | 0 => chars
  | fuel + 1 =>
    if index < chars.length then
      if chars[index]? = some '$' ∧ is_escaped text index = false then
        if index + 1 < chars.length ∧ chars[index + 1]? = some '$' then
          match _find_next text ['$', '$'] (index + 2) with
          | none => chars
          | some e => maskMathAux fuel text (_mask_range chars index (e + 2)) (e + 2)
        else
          match _find_next text ['$'] (index + 1) with
          | none => chars
          | some e => maskMathAux fuel text (_mask_range chars index (e + 1)) (e + 1)
      else if startsWithAt text ['\\', '('] index then
        match strFind (text.length + 1) text ['\\', ')'] (index + 2) with
        | none => chars
        | some e => maskMathAux fuel text (_mask_range chars index (e + 2)) (e + 2)
      else if startsWithAt text ['\\', '['] index then
        match strFind (text.length + 1) text ['\\', ']'] (index + 2) with
        | none => chars
        | some e => maskMathAux fuel text (_mask_range chars index (e + 2)) (e + 2)
      else maskMathAux fuel text chars (index + 1)
    else chars

/-- Embeds `mask_math_keep_length` of `tex.py`. -/
def mask_math_keep_length (text : List Char) : List Char :=
  maskMathAux (text.length + 1) text text 0

/-- Embeds `mask_comments_and_math` of `tex.py`: comments first, then math. -/
def mask_comments_and_math (text : List Char) : List Char :=
  mask_math_keep_length (strip_comments_keep_length text)

theorem blankComment_length (fuel : Nat) :
    ∀ chars index, ((blankComment fuel chars index).1).length = chars.length := by
  induction fuel with
  | zero => intro chars index; rfl
  | succ fuel ih =>
    intro chars index
    rw [blankComment]
    split
    · rw [ih]; simp
    · rfl

theorem blankComment_newline (fuel : Nat) :
    ∀ (chars : List Char) (index j : Nat), ((blankComment fuel chars index).1)[j]? = some '\n' ↔
      chars[j]? = some '\n' := by
  induction fuel with
  | zero => intro chars index j; rfl
  | succ fuel ih =>
    intro chars index j
    rw [blankComment]
    split
    · rename_i h
      rw [ih]
      rcases eq_or_ne j index with rfl | hne
      · rw [List.getElem?_set_self (by omega)]
        constructor
        · intro hc; exact absurd (Option.some.inj hc) (by decide)
        · intro hc; exact absurd hc h.2
      · rw [List.getElem?_set_ne (by omega)]
    · rfl

theorem maskFrom_length (start stop : Nat) :
    ∀ j chars, (maskFrom start stop j chars).length = chars.length := by
  intro j chars
  induction chars generalizing j with
  | nil => rfl
  | cons c rest ih => simp [maskFrom, ih]

theorem maskFrom_getElem? (start stop : Nat) :
    ∀ chars j k, (maskFrom start stop j chars)[k]? =
      (chars[k]?).map
        (fun c => if start ≤ j + k ∧ j + k < stop ∧ c ≠ '\n' then ' ' else c) := by
  intro chars
  induction chars with
  | nil => intro j k; rfl
  | cons c rest ih =>
    intro j k
    cases k with
    | zero => simp [maskFrom]
    | succ k =>
      simp only [maskFrom, List.getElem?_cons_succ, ih (j + 1) k]
      have : j + 1 + k = j + (k + 1) := by omega
      rw [this]

theorem maskFrom_newline (start stop : Nat) (chars : List Char) (j k : Nat) :
    (maskFrom start stop j chars)[k]? = some '\n' ↔ chars[k]? = some '\n' := by
  rw [maskFrom_getElem?]
  cases h : chars[k]? with
  | none => simp
  | some c =>
    by_cases hc : start ≤ j + k ∧ j + k < stop ∧ c ≠ '\n'
    · simp only [Option.map_some', if_pos hc]
      constructor
      · intro hx; exact absurd (Option.some.inj hx) (by decide)
      · intro hx; exact absurd (Option.some.inj hx) hc.2.2
    · simp only [Option.map_some', if_neg hc]

theorem _mask_range_length (chars : List Char) (start stop : Nat) :
    (_mask_range chars start stop).length = chars.length :=
  maskFrom_length start stop 0 chars

theorem _mask_range_newline (chars : List Char) (start stop k : Nat) :
    (_mask_range chars start stop)[k]? = some '\n' ↔ chars[k]? = some '\n' :=
  maskFrom_newline start stop chars 0 k

theorem stripAux_length (fuel : Nat) :
    ∀ text chars index, (stripAux fuel text chars index).length = chars.length := by
  induction fuel with
  | zero => intro text chars index; rfl
  | succ fuel ih =>
    intro text chars index
    rw [stripAux]
    split
    · split
      · rw [ih]
        rw [blankComment_length]
        simp
      · rw [ih]
    · rfl

theorem stripAux_newline (fuel : Nat) :
    ∀ (text chars : List Char) (index j : Nat), (stripAux fuel text chars index)[j]? = some '\n' ↔
      chars[j]? = some '\n' := by
  induction fuel with
  | zero => intro text chars index j; rfl
  | succ fuel ih =>
    intro text chars index j
    rw [stripAux]
    split
    · split
      · rename_i hin hcond
        rw [ih, blankComment_newline]
        rcases eq_or_ne j index with rfl | hne
        · rw [List.getElem?_set_self (by omega)]
          constructor
          · intro hc; exact absurd (Option.some.inj hc) (by decide)
          · intro hc
            rw [hcond.1] at hc
            exact absurd (Option.some.inj hc) (by decide)
        · rw [List.getElem?_set_ne (by omega)]
      · exact ih text chars (index + 1) j
    · rfl

theorem maskMathAux_length (fuel : Nat) :
    ∀ text chars index, (maskMathAux fuel text chars index).length = chars.length := by
  induction fuel with
  | zero => intro text chars index; rfl
  | succ fuel ih =>
    intro text chars index
    rw [maskMathAux]
    split
    · split
      · split
        · split
          · rfl
          · rw [ih, _mask_range_length]
        · split
          · rfl
          · rw [ih, _mask_range_length]
      · split
        · split
          · rfl
          · rw [ih, _mask_range_length]
        · split
          · split
            · rfl
            · rw [ih, _mask_range_length]
          · rw [ih]
    · rfl

theorem maskMathAux_newline (fuel : Nat) :
    ∀ (text chars : List Char) (index j : Nat), (maskMathAux fuel text chars index)[j]? = some '\n' ↔
      chars[j]? = some '\n' := by
  induction fuel with
  | zero => intro text chars index j; rfl
  | succ fuel ih =>
    intro text chars index j
    rw [maskMathAux]
    split
    · split
      · split
        · split
          · rfl
          · rw [ih, _mask_range_newline]
        · split
          · rfl
          · rw [ih, _mask_range_newline]
      · split
        · split
          · rfl
          · rw [ih, _mask_range_newline]
        · split
          · split
            · rfl
            · rw [ih, _mask_range_newline]
          · exact ih text chars (index + 1) j
    · rfl

theorem strip_comments_length (text : List Char) :
    (strip_comments_keep_length text).length = text.length :=
  stripAux_length (text.length + 1) text text 0

theorem strip_comments_newline (text : List Char) (j : Nat) :
    (strip_comments_keep_length text)[j]? = some '\n' ↔ text[j]? = some '\n' :=
  stripAux_newline (text.length + 1) text text 0 j

theorem mask_math_length (text : List Char) :
    (mask_math_keep_length text).length = text.length :=
  maskMathAux_length (text.length + 1) text text 0

theorem mask_math_newline (text : List Char) (j : Nat) :
    (mask_math_keep_length text)[j]? = some '\n' ↔ text[j]? = some '\n' :=
  maskMathAux_newline (text.length + 1) text text 0 j

/-- C1.  Masking preserves length: `strip_comments_keep_length`,
`mask_math_keep_length` and their composition `mask_comments_and_math` all
return a character list of the same length as the input, and every newline
character of the original is left in place (in fact a position holds a
newline in the output exactly when it does in the input). -/
theorem masking_preserves_length (text : List Char) :
    (strip_comments_keep_length text).length = text.length ∧
    (mask_math_keep_length text).length = text.length ∧
    (mask_comments_and_math text).length = text.length ∧
    (∀ (j : Nat), text[j]? = some '\n' → (strip_comments_keep_length text)[j]? = some '\n') ∧
    (∀ (j : Nat), text[j]? = some '\n' → (mask_math_keep_length text)[j]? = some '\n') ∧
    (∀ (j : Nat), text[j]? = some '\n' → (mask_comments_and_math text)[j]? = some '\n') := by
  refine ⟨strip_comments_length text, mask_math_length text, ?_, ?_, ?_, ?_⟩
  · rw [mask_comments_and_math, mask_math_length, strip_comments_length]
  · intro j hj; rw [strip_comments_newline]; exact hj
  · intro j hj; rw [mask_math_newline]; exact hj
  · intro j hj
    rw [mask_comments_and_math, mask_math_newline, strip_comments_newline]
    exact hj

/-- Witness for C1 at the concrete input consisting of a comment, a
newline and an inline math region. -/
theorem masking_preserves_length_witness :
    (strip_comments_keep_length ['a', '%', 'b', '\n', '$', 'x', '$']).length = 7 ∧
    (mask_comments_and_math ['a', '%', 'b', '\n', '$', 'x', '$'])[3]? = some '\n' :=
  ⟨(masking_preserves_length ['a', '%', 'b', '\n', '$', 'x', '$']).1,
   (masking_preserves_length ['a', '%', 'b', '\n', '$', 'x', '$']).2.2.2.2.2 3 rfl⟩

/-- Embeds the shared depth-counting loop of `find_matching_brace` and
`find_matching_bracket` in `tex.py` (`oc` and `cc` are the opening and the
closing delimiter). -/
def matchScan (fuel : Nat) (text : List Char) (oc cc : Char) (index : Nat) (depth : Int) :
    Option Nat :=
  match fuel with
  | 0 => none
  | fuel + 1 =>
    if index < text.length then
      if text[index]? = some oc ∧ is_escaped text index = false then
        matchScan fuel text oc cc (index + 1) (depth + 1)
      else if text[index]? = some cc ∧ is_escaped text index = false then
        if depth - 1 = 0 then some index
        else matchScan fuel text oc cc (index + 1) (depth - 1)
      else matchScan fuel text oc cc (index + 1) depth
    else none

/-- Embeds `find_matching_brace` of `tex.py`. -/
def find_matching_brace (text : List Char) (start : Nat) : Option Nat :=
  if start < text.length ∧ text[start]? = some lbrace then
    matchScan (text.length + 1 - start) text lbrace rbrace start 0
  else none

/-- Embeds `find_matching_bracket` of `tex.py`. -/
def find_matching_bracket (text : List Char) (start : Nat) : Option Nat :=
  if start < text.length ∧ text[start]? = some '[' then
    matchScan (text.length + 1 - start) text '[' ']' start 0
  else none

/-- Specification side: the depth change contributed by position `k` under
the escape-aware depth counting of the matching functions. -/
def braceDelta (text : List Char) (oc cc : Char) (k : Nat) : Int :=
  if text[k]? = some oc ∧ is_escaped text k = false then 1
  else if text[k]? = some cc ∧ is_escaped text k = false then -1
  else 0

/-- Specification side: depth after scanning the `n` positions
`start, …, start + n - 1`. -/
def depthRun (text : List Char) (oc cc : Char) (start : Nat) : Nat → Int
  | 0 => 0
  | n + 1 => depthRun text oc cc start n + braceDelta text oc cc (start + n)

/-- Specification side: position `k` holds an unescaped closing delimiter
that brings the depth count started at `start` back to zero. -/
def closesAt (text : List Char) (oc cc : Char) (start k : Nat) : Prop :=
  text[k]? = some cc ∧ is_escaped text k = false ∧
    depthRun text oc cc start (k + 1 - start) = 0

/-- Specification side: `j` is the matching closing delimiter for the
opening delimiter at `start`: the first position whose unescaped closer
returns the depth count to zero. -/
def IsMatch (text : List Char) (oc cc : Char) (start j : Nat) : Prop :=
  start ≤ j ∧ closesAt text oc cc start j ∧
    ∀ k, k < j → start ≤ k → ¬ closesAt text oc cc start k

theorem depthRun_succ (text : List Char) (oc cc : Char) (start i : Nat) (h : start ≤ i) :
    depthRun text oc cc start (i + 1 - start) =
      depthRun text oc cc start (i - start) + braceDelta text oc cc i := by
  have h1 : i + 1 - start = (i - start) + 1 := by omega
  have h2 : start + (i - start) = i := by omega
  rw [h1, depthRun, h2]

theorem closesAt_lt_length (text : List Char) (oc cc : Char) (start k : Nat)
    (h : closesAt text oc cc start k) : k < text.length := by
  by_contra hk
  have h1 := h.1
  rw [List.getElem?_eq_none (by omega)] at h1
  exact absurd h1 (by simp)

theorem matchScan_some_iff (text : List Char) (oc cc : Char) (hne : oc ≠ cc) (fuel : Nat) :
    ∀ (start i : Nat), start ≤ i → text.length ≤ i + fuel →
      (∀ k, k < i → start ≤ k → ¬ closesAt text oc cc start k) →
      ∀ j, (matchScan fuel text oc cc i (depthRun text oc cc start (i - start)) = some j ↔
        IsMatch text oc cc start j) := by
  induction fuel with
  | zero =>
    intro start i hsi hlen hprev j
    rw [matchScan]
    constructor
    · intro hc; exact absurd hc (by simp)
    · intro hm
      have hj : j < text.length := closesAt_lt_length text oc cc start j hm.2.1
      exact absurd hm.2.1 (hprev j (by omega) hm.1)
  | succ fuel ih =>
    intro start i hsi hlen hprev j
    rw [matchScan]
    by_cases hin : i < text.length
    · rw [if_pos hin]
      by_cases hoc : text[i]? = some oc ∧ is_escaped text i = false
      · rw [if_pos hoc]
        have hδ : braceDelta text oc cc i = 1 := by rw [braceDelta, if_pos hoc]
        have hstep := depthRun_succ text oc cc start i hsi
        rw [hδ] at hstep
        rw [show depthRun text oc cc start (i - start) + 1 =
          depthRun text oc cc start (i + 1 - start) by omega]
        rw [show i + 1 - start = i + 1 - start from rfl]
        refine ih start (i + 1) (by omega) (by omega) ?_ j
        intro k hk2 hk1
        rcases Nat.lt_or_ge k i with hk | hk
        · exact hprev k hk hk1
        · have hki : k = i := by omega
          subst hki
          intro hcon
          exact hne (Option.some.inj (hoc.1.symm.trans hcon.1))
      · rw [if_neg hoc]
        by_cases hcc : text[i]? = some cc ∧ is_escaped text i = false
        · rw [if_pos hcc]
          have hδ : braceDelta text oc cc i = -1 := by
            rw [braceDelta, if_neg hoc, if_pos hcc]
          have hstep := depthRun_succ text oc cc start i hsi
          rw [hδ] at hstep
          by_cases hz : depthRun text oc cc start (i - start) - 1 = 0
          · rw [if_pos hz]
            have hcl : closesAt text oc cc start i := ⟨hcc.1, hcc.2, by omega⟩
            constructor
            · intro hsome
              have hji : i = j := Option.some.inj hsome
              subst hji
              exact ⟨hsi, hcl, hprev⟩
            · intro hm
              have hij : j = i := by
                rcases Nat.lt_trichotomy j i with hlt | heq | hgt
                · exact absurd hm.2.1 (hprev j hlt hm.1)
                · exact heq
                · exact absurd hcl (hm.2.2 i hgt hsi)
              rw [hij]
          · rw [if_neg hz]
            rw [show depthRun text oc cc start (i - start) - 1 =
              depthRun text oc cc start (i + 1 - start) by omega]
            refine ih start (i + 1) (by omega) (by omega) ?_ j
            intro k hk2 hk1
            rcases Nat.lt_or_ge k i with hk | hk
            · exact hprev k hk hk1
            · have hki : k = i := by omega
              subst hki
              intro hcon
              have h3 := hcon.2.2
              exact hz (by omega)
        · rw [if_neg hcc]
          have hδ : braceDelta text oc cc i = 0 := by
            rw [braceDelta, if_neg hoc, if_neg hcc]
          have hstep := depthRun_succ text oc cc start i hsi
          rw [hδ] at hstep
          rw [show depthRun text oc cc start (i - start) =
            depthRun text oc cc start (i + 1 - start) by omega]
          refine ih start (i + 1) (by omega) (by omega) ?_ j
          intro k hk2 hk1
          rcases Nat.lt_or_ge k i with hk | hk
          · exact hprev k hk hk1
          · have hki : k = i := by omega
            subst hki
            intro hcon
            exact hcc ⟨hcon.1, hcon.2.1⟩
    · rw [if_neg hin]
      constructor
      · intro hc; exact absurd hc (by simp)
      · intro hm
        have hj : j < text.length := closesAt_lt_length text oc cc start j hm.2.1
        exact absurd hm.2.1 (hprev j (by omega) hm.1)

/-- C7.  Delimiter matching: `find_matching_brace` (resp.
`find_matching_bracket`) returns `some j` exactly when the scan start is an
in-range opening brace (resp. bracket) and `j` is the matching unescaped
closing delimiter under escape-aware depth counting; when no such position
exists — in particular when the text ends before the depth returns to
zero — it returns `none`. -/
theorem matching_delimiters (text : List Char) (start j : Nat) :
    (find_matching_brace text start = some j ↔
      start < text.length ∧ text[start]? = some lbrace ∧
        IsMatch text lbrace rbrace start j) ∧
    (find_matching_bracket text start = some j ↔
      start < text.length ∧ text[start]? = some '[' ∧
        IsMatch text '[' ']' start j) := by
  constructor
  · rw [find_matching_brace]
    by_cases hg : start < text.length ∧ text[start]? = some lbrace
    · rw [if_pos hg]
      have h0 : depthRun text lbrace rbrace start (start - start) = 0 := by
        rw [Nat.sub_self]; rfl
      have := matchScan_some_iff text lbrace rbrace (by decide)
        (text.length + 1 - start) start start (le_refl start) (by omega)
        (fun k hk2 hk1 => absurd (lt_of_le_of_lt hk1 hk2) (lt_irrefl start)) j
      rw [h0] at this
      rw [this]
      constructor
      · intro hm; exact ⟨hg.1, hg.2, hm⟩
      · intro hm; exact hm.2.2
    · rw [if_neg hg]
      constructor
      · intro hc; exact absurd hc (by simp)
      · intro hm; exact absurd ⟨hm.1, hm.2.1⟩ hg
  · rw [find_matching_bracket]
    by_cases hg : start < text.length ∧ text[start]? = some '['
    · rw [if_pos hg]
      have h0 : depthRun text '[' ']' start (start - start) = 0 := by
        rw [Nat.sub_self]; rfl
      have := matchScan_some_iff text '[' ']' (by decide)
        (text.length + 1 - start) start start (le_refl start) (by omega)
        (fun k hk2 hk1 => absurd (lt_of_le_of_lt hk1 hk2) (lt_irrefl start)) j
      rw [h0] at this
      rw [this]
      constructor
      · intro hm; exact ⟨hg.1, hg.2, hm⟩
      · intro hm; exact hm.2.2
    · rw [if_neg hg]
      constructor
      · intro hc; exact absurd hc (by simp)
      · intro hm; exact absurd ⟨hm.1, hm.2.1⟩ hg

/-- Witness for C7: on an opening brace, one letter and the matching
closing brace, the matching index is 2. -/
theorem matching_delimiters_witness :
    find_matching_brace [lbrace, 'a', rbrace] 0 = some 2 := by
  rw [(matching_delimiters [lbrace, 'a', rbrace] 0 2).1]
  refine ⟨by decide, by decide, ?_⟩
  simp only [IsMatch, closesAt]
  decide

/-- The break condition of the `mask_math_keep_length` loop at position
`index`: an unescaped math opener whose closer search comes back empty, in
exactly the branch order of the Python loop. -/
def unterminatedOpener (text : List Char) (index : Nat) : Prop :=
  (text[index]? = some '$' ∧ is_escaped text index = false ∧
    ((index + 1 < text.length ∧ text[index + 1]? = some '$') ∧
        _find_next text ['$', '$'] (index + 2) = none ∨
      ¬(index + 1 < text.length ∧ text[index + 1]? = some '$') ∧
        _find_next text ['$'] (index + 1) = none)) ∨
  (¬(text[index]? = some '$' ∧ is_escaped text index = false) ∧
    startsWithAt text ['\\', '('] index = true ∧
    strFind (text.length + 1) text ['\\', ')'] (index + 2) = none) ∨
  (¬(text[index]? = some '$' ∧ is_escaped text index = false) ∧
    startsWithAt text ['\\', '('] index = false ∧
    startsWithAt text ['\\', '['] index = true ∧
    strFind (text.length + 1) text ['\\', ']'] (index + 2) = none)

/-- The masking scan stops as soon as it stands at an unescaped math
opener with no closer: the working list is returned unchanged. -/
theorem maskMathAux_break (fuel : Nat) (text chars : List Char) (index : Nat)
    (hlen : chars.length = text.length)
    (hagree : ∀ (j : Nat), index ≤ j → chars[j]? = text[j]?)
    (hopen : unterminatedOpener text index) :
    maskMathAux fuel text chars index = chars := by
  have hmain : maskMathAux fuel text chars index = chars := by
    cases fuel with
    | zero => rfl
    | succ fuel =>
      rw [maskMathAux]
      have hidx : chars[index]? = text[index]? := hagree index (le_refl index)
      have hidx1 : chars[index + 1]? = text[index + 1]? := hagree (index + 1) (by omega)
      rcases hopen with hd | hp | hb
      · have hin : index < text.length := by
          by_contra hcon
          rw [List.getElem?_eq_none (by omega)] at hd
          exact absurd hd.1 (by simp)
        rw [if_pos (by omega)]
        rw [if_pos ⟨hidx.trans hd.1, hd.2.1⟩]
        rcases hd.2.2 with ⟨hdd, hfind⟩ | ⟨hdd, hfind⟩
        · rw [if_pos (by rw [hlen, hidx1]; exact hdd), hfind]
        · rw [if_neg (by rw [hlen, hidx1]; exact hdd), hfind]
      · have hin : index < text.length := by
          by_contra hcon
          have : text.drop index = [] := List.drop_eq_nil_of_le (by omega)
          rw [startsWithAt, this] at hp
          exact absurd hp.2.1 (by decide)
        rw [if_pos (by omega)]
        rw [if_neg (fun hcon => hp.1 ⟨hidx.symm.trans hcon.1, hcon.2⟩)]
        rw [if_pos hp.2.1, hp.2.2]
      · have hin : index < text.length := by
          by_contra hcon
          have hd : text.drop index = [] := List.drop_eq_nil_of_le (by omega)
          simp only [startsWithAt, hd] at hb
          exact absurd hb.2.2.1 (by decide)
        rw [if_pos (by omega)]
        rw [if_neg (fun hcon => hb.1 ⟨hidx.symm.trans hcon.1, hcon.2⟩)]
        have hnp : ¬ (startsWithAt text ['\\', '('] index = true) := by
          rw [hb.2.1]; exact Bool.false_ne_true
        rw [if_neg hnp, if_pos hb.2.2.1, hb.2.2.2]
  exact hmain

/-- C6 (amended).  Unterminated-math degradation: the masking scan stops
at the opener it stands on, returning the partially masked list as is —
every character from the opener to the end of the text unchanged — exactly
when its closer search comes back empty: for `$` and `$$` openers that
search is escape-aware (`_find_next`), but for `\(` and `\[` it is a
plain substring search (`str.find`), so even an escaped `\)` or `\]`
counts as a closer.  (`chars` is the scan's working copy, which agrees
with the original text from the current position on.)  No exception is
raised in any case. -/
theorem unterminated_math_degradation (fuel : Nat) (text chars : List Char) (index : Nat)
    (hlen : chars.length = text.length)
    (hagree : ∀ (j : Nat), index ≤ j → chars[j]? = text[j]?)
    (hopen : unterminatedOpener text index) :
    maskMathAux fuel text chars index = chars ∧
    ∀ (j : Nat), index ≤ j → (maskMathAux fuel text chars index)[j]? = text[j]? := by
  have hmain := maskMathAux_break fuel text chars index hlen hagree hopen
  refine ⟨hmain, ?_⟩
  intro j hj
  rw [hmain]
  exact hagree j hj

/-- Witness for C6: the text consisting of a letter, an unterminated inline
math opener and a letter is returned unchanged from the opener on. -/
theorem unterminated_math_degradation_witness :
    maskMathAux 4 ['a', '$', 'b'] ['a', '$', 'b'] 1 = ['a', '$', 'b'] ∧
    ∀ (j : Nat), 1 ≤ j → (maskMathAux 4 ['a', '$', 'b'] ['a', '$', 'b'] 1)[j]? =
      ['a', '$', 'b'][j]? :=
  unterminated_math_degradation 4 ['a', '$', 'b'] ['a', '$', 'b'] 1 rfl
    (fun j hj => rfl) (by unfold unterminatedOpener; decide)

/-- Word characters for the Python regex word boundary, for the ASCII and
Cyrillic ranges relevant to this code base (Python `\w` additionally
matches other Unicode letter blocks that never occur here). -/
def isWordChar (c : Char) : Bool :=
  decide ((97 ≤ c.toNat ∧ c.toNat ≤ 122) ∨ (65 ≤ c.toNat ∧ c.toNat ≤ 90) ∨
    (48 ≤ c.toNat ∧ c.toNat ≤ 57) ∨ c.toNat = 95 ∨
    (1024 ≤ c.toNat ∧ c.toNat ≤ 1279))

/-- Whether the character at position `j` exists and satisfies `p`. -/
def charSat (text : List Char) (j : Nat) (p : Char → Bool) : Bool :=
  match text[j]? with
  | some c => p c
  | none => false

/-- The Python regex `\b` predicate at string position `e` (between the
characters at `e - 1` and `e`). -/
def boundaryAt (text : List Char) (e : Nat) : Bool :=
  match e with
  | 0 => charSat text 0 isWordChar
  | e + 1 => charSat text e isWordChar != charSat text (e + 1) isWordChar

/-- ASCII whitespace in the sense of Python `str.isspace`: space, tab and
the control characters 10 through 13. -/
def isSpace (c : Char) : Bool :=
  decide (c.toNat = 32 ∨ (9 ≤ c.toNat ∧ c.toNat ≤ 13))

/-- The loop of `_skip_whitespace` in `tex.py`. -/
def skipWsAux (fuel : Nat) (text : List Char) (index : Nat) : Nat :=
  match fuel with
  | 0 => index
  | fuel + 1 =>
    if index < text.length ∧ charSat text index isSpace = true then
      skipWsAux fuel text (index + 1)
    else index

/-- Embeds `_skip_whitespace` of `tex.py`. -/
def _skip_whitespace (text : List Char) (index : Nat) : Nat :=
  skipWsAux (text.length + 1) text index

/-- Embeds the Python slice `text[a:b]`. -/
def slice (text : List Char) (a b : Nat) : List Char :=
  (text.drop a).take (b - a)

/-- The match positions of `re.finditer` for the pattern backslash,
literal command name, word boundary — the scan of `iter_command_spans`.
After a match the search resumes at the end of the matched text, otherwise
it advances one position, exactly as the regex engine scans. -/
def cmdPositions (fuel : Nat) (text cmd : List Char) (i : Nat) : List Nat :=
  match fuel with
  | 0 => []
  | fuel + 1 =>
    if i < text.length then
      if startsWithAt text ('\\' :: cmd) i = true ∧ boundaryAt text (i + 1 + cmd.length) = true then
        i :: cmdPositions fuel text cmd (i + 1 + cmd.length)
      else cmdPositions fuel text cmd (i + 1)
    else []

/-- Embeds the `CommandSpan` dataclass of `tex.py` (`end` is `endPos` here
because `end` is reserved in Lean). -/
structure CommandSpan where
  name : List Char
  start : Nat
  endPos : Nat
  optional : Option (List Char)
  argument : Option (List Char)
  argument_start : Option Nat
  argument_end : Option Nat
deriving DecidableEq

/-- Embeds `_parse_optional` of `tex.py`. -/
def _parse_optional (text : List Char) (index : Nat) : Option (List Char) × Nat :=
  let index := _skip_whitespace text index
  if index < text.length ∧ text[index]? = some '[' then
    match find_matching_bracket text index with
    | none => (none, index)
    | some e => (some (slice text (index + 1) e), e + 1)
  else (none, index)

/-- Embeds `_parse_braced` of `tex.py`. -/
def _parse_braced (text : List Char) (index : Nat) :
    Option (List Char) × Option Nat × Option Nat :=
  let index := _skip_whitespace text index
  if index < text.length ∧ text[index]? = some lbrace then
    match find_matching_brace text index with
    | none => (none, none, none)
    | some e => (some (slice text (index + 1) e), some (index + 1), some e)
  else (none, none, none)

/-- Embeds `iter_command_spans` of `tex.py` (the generator is materialised
as a list). -/
def iter_command_spans (text command : List Char) : List CommandSpan :=
  (cmdPositions (text.length + 1) text command 0).map fun s =>
    let po := _parse_optional text (s + 1 + command.length)
    let pb := _parse_braced text po.2
    { name := command
      start := s
      endPos := match pb.2.2 with
        | some ae => ae + 1
        | none => po.2
      optional := po.1
      argument := pb.1
      argument_start := pb.2.1
      argument_end := pb.2.2 }

/-- Counterexample for C3: on the text backslash-r-e-f-space-z, the span of
command `ref` has no required argument, yet its end is 5 (the position
reached after skipping the whitespace while looking for an optional
argument), not 4 (the position immediately after the command name, as the
claim would have it). -/
theorem command_span_end_counterexample :
    (iter_command_spans ['\\', 'r', 'e', 'f', ' ', 'z'] ['r', 'e', 'f']).map
        (fun sp => (sp.start, sp.argument_end, sp.endPos)) = [(0, none, 5)] ∧
      ¬ (5 = 0 + 1 + (['r', 'e', 'f'] : List Char).length) := by
  decide

/-- C3 (amended).  Command-span end: every span's end is the position
immediately after the required brace argument when that argument is present
and terminated; otherwise it is the position reached after optional-argument
parsing — immediately after the optional bracket argument when one was
parsed, else the first non-whitespace position at or after the end of the
command name.  The scan never aborts: there is one span per regex match of
the command pattern. -/
theorem _parse_optional_spec (text : List Char) (index : Nat) :
    ((_parse_optional text index).1 = none ∧
      (_parse_optional text index).2 = _skip_whitespace text index) ∨
    (∃ e, find_matching_bracket text (_skip_whitespace text index) = some e ∧
      (_parse_optional text index).1 =
        some (slice text (_skip_whitespace text index + 1) e) ∧
      (_parse_optional text index).2 = e + 1) := by
  simp only [_parse_optional]
  by_cases hg : _skip_whitespace text index < text.length ∧
      text[_skip_whitespace text index]? = some '['
  · rw [if_pos hg]
    cases hfb : find_matching_bracket text (_skip_whitespace text index) with
    | none => exact Or.inl ⟨rfl, rfl⟩
    | some e => exact Or.inr ⟨e, rfl, rfl, rfl⟩
  · rw [if_neg hg]
    exact Or.inl ⟨rfl, rfl⟩

/-- C3 (amended).  Command-span end: every span's end is the position
immediately after the required brace argument when that argument is present
and terminated; otherwise it is the position reached after optional-argument
parsing — immediately after the optional bracket argument when one was
parsed, else the first non-whitespace position at or after the end of the
command name.  The scan never aborts: there is one span per regex match of
the command pattern. -/
theorem command_span_end_amended (text command : List Char) :
    ((iter_command_spans text command).map (fun sp => sp.start) =
      cmdPositions (text.length + 1) text command 0) ∧
    ∀ sp ∈ iter_command_spans text command,
      (∀ ae, sp.argument_end = some ae → sp.endPos = ae + 1) ∧
      (sp.argument_end = none →
        (sp.optional = none →
          sp.endPos = _skip_whitespace text (sp.start + 1 + command.length)) ∧
        (∀ o, sp.optional = some o → ∃ e,
          find_matching_bracket text
              (_skip_whitespace text (sp.start + 1 + command.length)) = some e ∧
            sp.endPos = e + 1)) := by
  constructor
  · rw [iter_command_spans, List.map_map]
    generalize cmdPositions (text.length + 1) text command 0 = l
    induction l with
    | nil => rfl
    | cons x xs ih => rw [List.map_cons, ih]; rfl
  · intro sp hsp
    rw [iter_command_spans, List.mem_map] at hsp
    obtain ⟨s, hs, hspdef⟩ := hsp
    have hstart : sp.start = s := by rw [← hspdef]
    have hopt : sp.optional = (_parse_optional text (s + 1 + command.length)).1 := by
      rw [← hspdef]
    have hargend : sp.argument_end =
        (_parse_braced text ((_parse_optional text (s + 1 + command.length)).2)).2.2 := by
      rw [← hspdef]
    have hend2 : sp.argument_end = none →
        sp.endPos = (_parse_optional text (s + 1 + command.length)).2 := by
      intro hae
      rw [hargend] at hae
      rw [← hspdef]
      simp only [hae]
    have hend1 : ∀ ae, sp.argument_end = some ae → sp.endPos = ae + 1 := by
      intro ae hae
      rw [hargend] at hae
      rw [← hspdef]
      simp only [hae]
    refine ⟨hend1, ?_⟩
    intro hae
    have he := hend2 hae
    rw [hstart]
    rcases _parse_optional_spec text (s + 1 + command.length) with ⟨h1, h2⟩ | ⟨e, hfb, h1, h2⟩
    · constructor
      · intro _
        rw [he, h2]
      · intro o ho
        rw [hopt, h1] at ho
        exact absurd ho (by simp)
    · constructor
      · intro ho
        rw [hopt, h1] at ho
        exact absurd ho (by simp)
      · intro o ho
        exact ⟨e, hfb, by rw [he, h2]⟩

/-- Witness for C3 (amended) at the counterexample text: the span end 5 is
the whitespace-skipped position after the command name. -/
theorem command_span_end_amended_witness :
    ({ name := ['r', 'e', 'f'], start := 0, endPos := 5, optional := none,
        argument := none, argument_start := none,
        argument_end := none } : CommandSpan).endPos =
      _skip_whitespace ['\\', 'r', 'e', 'f', ' ', 'z']
        (0 + 1 + (['r', 'e', 'f'] : List Char).length) :=
  (((command_span_end_amended ['\\', 'r', 'e', 'f', ' ', 'z'] ['r', 'e', 'f']).2
    _ (by decide)).2 rfl).1 rfl

/-- Embeds `_build_line_offsets` of `document.py`: offset 0 followed by the
position after each newline, in text order. -/
def _build_line_offsets (text : List Char) : List Nat :=
  0 :: (List.range text.length).filterMap
    (fun index => if text[index]? = some '\n' then some (index + 1) else none)

/-- The loop of `_bisect_line` in `document.py`.  Python integers become
`Int`; Python's floor division `//` and Lean's `/` on `Int` agree.  The
list access is embedded with `getD` — `mid` stays within the list for the
ranges the binary search produces. -/
def bisectAux (fuel : Nat) (offsets : List Nat) (offset : Nat) (low high : Int) : Int :=
  match fuel with
  | 0 => high
  | fuel + 1 =>
    if low ≤ high then
      if (offsets.getD ((low + high) / 2).toNat 0 : Nat) ≤ offset then
        bisectAux fuel offsets offset ((low + high) / 2 + 1) high
      else bisectAux fuel offsets offset low ((low + high) / 2 - 1)
    else high

/-- Embeds `_bisect_line` of `document.py`: binary search for the greatest
line start at or before `offset`, returning `max(high, 0)`. -/
def _bisect_line (offsets : List Nat) (offset : Nat) : Nat :=
  (max (bisectAux (offsets.length + 1) offsets offset 0 ((offsets.length : Int) - 1)) 0).toNat

/-- Embeds `TexFile.line_col` of `document.py` for a non-negative offset
(the Python `offset < 0` early return cannot fire for a `Nat` offset). -/
def line_col (text : List Char) (offset : Nat) : Nat × Nat :=
  (_bisect_line (_build_line_offsets text) offset + 1,
    offset - (_build_line_offsets text).getD (_bisect_line (_build_line_offsets text) offset) 0 + 1)

/-- Embeds `str.rstrip` with a newline argument: drop trailing newlines. -/
def rstripNewline (l : List Char) : List Char :=
  (l.reverse.dropWhile (fun c => c = '\n')).reverse

/-- Embeds `TexFile.line_text` of `document.py` (the list accesses are in
range for every line number `line_col` produces). -/
def line_text (text : List Char) (line : Nat) : List Char :=
  if line < 1 then []
  else if line < (_build_line_offsets text).length then
    rstripNewline (slice text ((_build_line_offsets text).getD (line - 1) 0)
      ((_build_line_offsets text).getD line 0))
  else rstripNewline (text.drop ((_build_line_offsets text).getD (line - 1) 0))

/-- Counterexample for C9: at offset 1 of the text a-newline-b — the offset
of the newline itself — `line_col` answers line 1, column 2, but line 1's
text is the single character a, which has no character at position
`col - 1 = 1`. -/
theorem line_col_round_trip_counterexample :
    line_col ['a', '\n', 'b'] 1 = (1, 2) ∧
    (line_text ['a', '\n', 'b'] 1)[2 - 1]? = none ∧
    (['a', '\n', 'b'] : List Char)[1]? = some '\n' := by
  decide

theorem offsets_length_pos (text : List Char) : 0 < (_build_line_offsets text).length := by
  rw [_build_line_offsets]; simp

theorem offsets_head (text : List Char) : (_build_line_offsets text).getD 0 0 = 0 := rfl

theorem offsets_sorted (text : List Char) :
    List.Pairwise (· < ·) (_build_line_offsets text) := by
  rw [_build_line_offsets]
  constructor
  · intro x hx
    rw [List.mem_filterMap] at hx
    obtain ⟨idx, _, hf⟩ := hx
    split at hf
    · have hx1 : idx + 1 = x := Option.some.inj hf
      omega
    · exact absurd hf (by simp)
  · rw [List.pairwise_filterMap]
    refine List.Pairwise.imp ?_ (List.pairwise_lt_range text.length)
    intro a b hab x hx y hy
    split at hx
    · split at hy
      · have hxa : a + 1 = x := Option.some.inj hx
        have hyb : b + 1 = y := Option.some.inj hy
        omega
      · exact absurd hy (by simp)
    · exact absurd hx (by simp)

theorem offsets_mem (text : List Char) (x : Nat) :
    x ∈ _build_line_offsets text ↔
      x = 0 ∨ (1 ≤ x ∧ x ≤ text.length ∧ text[x - 1]? = some '\n') := by
  rw [_build_line_offsets]
  simp only [List.mem_cons, List.mem_filterMap, List.mem_range]
  constructor
  · rintro (rfl | ⟨idx, hidx, hf⟩)
    · exact Or.inl rfl
    · split at hf
      · rename_i hnl
        have hx : idx + 1 = x := Option.some.inj hf
        right
        refine ⟨by omega, by omega, ?_⟩
        rw [show x - 1 = idx by omega]
        exact hnl
      · exact absurd hf (by simp)
  · rintro (rfl | ⟨h1, h2, h3⟩)
    · exact Or.inl rfl
    · right
      refine ⟨x - 1, by omega, ?_⟩
      rw [if_pos h3]
      congr 1
      omega

theorem offsets_getD_lt (text : List Char) (m n : Nat) (hmn : m < n)
    (hn : n < (_build_line_offsets text).length) :
    (_build_line_offsets text).getD m 0 < (_build_line_offsets text).getD n 0 := by
  have hs := offsets_sorted text
  rw [List.pairwise_iff_getElem] at hs
  have h := hs m n (by omega) hn hmn
  rw [List.getD_eq_getElem?_getD, List.getD_eq_getElem?_getD,
    List.getElem?_eq_getElem (by omega), List.getElem?_eq_getElem hn]
  exact h

theorem offsets_getD_mono (text : List Char) (m n : Nat) (hmn : m ≤ n)
    (hn : n < (_build_line_offsets text).length) :
    (_build_line_offsets text).getD m 0 ≤ (_build_line_offsets text).getD n 0 := by
  rcases Nat.eq_or_lt_of_le hmn with rfl | hlt
  · exact le_refl _
  · exact le_of_lt (offsets_getD_lt text m n hlt hn)

theorem offsets_getD_mem (text : List Char) (m : Nat)
    (hm : m < (_build_line_offsets text).length) :
    (_build_line_offsets text).getD m 0 ∈ _build_line_offsets text := by
  rw [List.getD_eq_getElem?_getD, List.getElem?_eq_getElem hm]
  exact List.getElem_mem hm

theorem bisectAux_correct (offsets : List Nat) (offset : Nat)
    (hmono : ∀ m n : Nat, m ≤ n → n < offsets.length →
      offsets.getD m 0 ≤ offsets.getD n 0) :
    ∀ (fuel : Nat) (low high : Int), 0 ≤ low → low - 1 ≤ high →
      high < (offsets.length : Int) → (high + 1 - low).toNat < fuel →
      (∀ m : Nat, m < offsets.length → (m : Int) < low → offsets.getD m 0 ≤ offset) →
      (∀ m : Nat, m < offsets.length → high < (m : Int) → offset < offsets.getD m 0) →
      (∀ m : Nat, m < offsets.length →
          (m : Int) ≤ bisectAux fuel offsets offset low high → offsets.getD m 0 ≤ offset) ∧
        (∀ m : Nat, m < offsets.length →
          bisectAux fuel offsets offset low high < (m : Int) → offset < offsets.getD m 0) ∧
        bisectAux fuel offsets offset low high < (offsets.length : Int) ∧
        low - 1 ≤ bisectAux fuel offsets offset low high := by
  intro fuel
  induction fuel with
  | zero =>
    intro low high h0 hlh hhl hfuel hlo hhi
    omega
  | succ fuel ih =>
    intro low high h0 hlh hhl hfuel hlo hhi
    rw [bisectAux]
    by_cases hc : low ≤ high
    · rw [if_pos hc]
      have hmid1 : low ≤ (low + high) / 2 := by omega
      have hmid2 : (low + high) / 2 ≤ high := by omega
      by_cases hv : (offsets.getD ((low + high) / 2).toNat 0 : Nat) ≤ offset
      · rw [if_pos hv]
        have hlo2 : ∀ m : Nat, m < offsets.length → (m : Int) < (low + high) / 2 + 1 →
            offsets.getD m 0 ≤ offset := by
          intro m hm hmlt
          have hmn : m ≤ ((low + high) / 2).toNat := by omega
          exact le_trans (hmono m ((low + high) / 2).toNat hmn (by omega)) hv
        obtain ⟨p1, p2, p3, p4⟩ := ih ((low + high) / 2 + 1) high (by omega) (by omega) hhl
          (by omega) hlo2 hhi
        exact ⟨p1, p2, p3, by omega⟩
      · rw [if_neg hv]
        refine ih low ((low + high) / 2 - 1) h0 (by omega) (by omega) (by omega) hlo ?_
        intro m hm hmgt
        have hmn : ((low + high) / 2).toNat ≤ m := by omega
        exact lt_of_lt_of_le (by omega) (hmono ((low + high) / 2).toNat m hmn hm)
    · rw [if_neg hc]
      refine ⟨?_, hhi, hhl, by omega⟩
      intro m hm hmle
      exact hlo m hm (by omega)

theorem _bisect_line_correct (text : List Char) (offset : Nat) :
    _bisect_line (_build_line_offsets text) offset < (_build_line_offsets text).length ∧
    (_build_line_offsets text).getD (_bisect_line (_build_line_offsets text) offset) 0 ≤ offset ∧
    ∀ m, m < (_build_line_offsets text).length →
      _bisect_line (_build_line_offsets text) offset < m →
      offset < (_build_line_offsets text).getD m 0 := by
  have hL := offsets_length_pos text
  have h := bisectAux_correct (_build_line_offsets text) offset
    (offsets_getD_mono text) ((_build_line_offsets text).length + 1) 0
    (((_build_line_offsets text).length : Int) - 1) (by omega) (by omega) (by omega)
    (by omega) (fun m hm hmlt => by omega) (fun m hm hmgt => by omega)
  obtain ⟨hpost1, hpost2, hpost3, hpost4⟩ := h
  set r := bisectAux ((_build_line_offsets text).length + 1) (_build_line_offsets text)
    offset 0 (((_build_line_offsets text).length : Int) - 1) with hr
  have hr0 : 0 ≤ r := by
    by_contra hneg
    have := hpost2 0 (by omega) (by omega)
    rw [offsets_head] at this
    omega
  have hbl : _bisect_line (_build_line_offsets text) offset = r.toNat := by
    rw [_bisect_line, ← hr]
    congr 1
    omega
  rw [hbl]
  refine ⟨by omega, ?_, ?_⟩
  · exact hpost1 r.toNat (by omega) (by omega)
  · intro m hm hmr
    exact hpost2 m hm (by omega)

theorem rstripNewline_append_newline (A : List Char) :
    rstripNewline (A ++ ['\n']) = rstripNewline A := by
  rw [rstripNewline, rstripNewline, List.reverse_append]
  rfl

theorem rstripNewline_of_no_newline (A : List Char) (h : ∀ c ∈ A, c ≠ '\n') :
    rstripNewline A = A := by
  rw [rstripNewline, List.dropWhile_eq_self_iff.2, List.reverse_reverse]
  intro hne
  simp only [decide_eq_true_eq]
  exact h _ (by rw [← List.mem_reverse]; exact List.getElem_mem hne)

/-- C9 (amended).  Line/column round trip: for every offset that is in
range and does not sit on a newline character, converting to (line, column)
with `line_col` and indexing `line_text` of that line at `column - 1` gives
back the character at the offset.  (At a newline offset the line text has
already been stripped, so there is no character at `column - 1`; see the
counterexample.) -/
theorem line_col_round_trip_amended (text : List Char) (offset : Nat)
    (hoff : offset < text.length) (hnl : text[offset]? ≠ some '\n') :
    (line_text text (line_col text offset).1)[(line_col text offset).2 - 1]? =
      text[offset]? := by
  obtain ⟨hli, hstart, hnext⟩ := _bisect_line_correct text offset
  have hcol1 : (line_col text offset).1 = _bisect_line (_build_line_offsets text) offset + 1 :=
    rfl
  have hcol2 : (line_col text offset).2 =
      offset - (_build_line_offsets text).getD (_bisect_line (_build_line_offsets text) offset) 0
        + 1 := rfl
  set li := _bisect_line (_build_line_offsets text) offset with hlidef
  set start := (_build_line_offsets text).getD li 0 with hstartdef
  rw [hcol1, hcol2]
  have hc : offset - start + 1 - 1 = offset - start := by omega
  rw [hc, line_text]
  rw [if_neg (by omega)]
  have hsub : li + 1 - 1 = li := by omega
  by_cases hlast : li + 1 < (_build_line_offsets text).length
  · rw [if_pos hlast, hsub]
    set q := (_build_line_offsets text).getD (li + 1) 0 with hqdef
    have hofq : offset < q := hnext (li + 1) hlast (by omega)
    have hqmem := offsets_getD_mem text (li + 1) hlast
    rw [offsets_mem] at hqmem
    have hq : 1 ≤ q ∧ q ≤ text.length ∧ text[q - 1]? = some '\n' := by
      rcases hqmem with h0 | h
      · omega
      · exact h
    have hone : offset ≠ q - 1 := fun hh => hnl (hh ▸ hq.2.2)
    have hoq1 : offset < q - 1 := by omega
    have hinterior : ∀ k, start ≤ k → k < q - 1 → text[k]? ≠ some '\n' := by
      intro k hk1 hk2 hkn
      have hkmem : k + 1 ∈ _build_line_offsets text := by
        rw [offsets_mem]
        right
        have hklen : k < text.length := by omega
        exact ⟨by omega, by omega, by rw [show k + 1 - 1 = k by omega]; exact hkn⟩
      rw [List.mem_iff_getElem] at hkmem
      obtain ⟨m, hmlen, hmval⟩ := hkmem
      have hmval' : (_build_line_offsets text).getD m 0 = k + 1 := by
        rw [List.getD_eq_getElem?_getD, List.getElem?_eq_getElem hmlen, hmval]
        rfl
      rcases Nat.lt_or_ge m (li + 1) with hm | hm
      · have := offsets_getD_mono text m li (by omega) (by omega)
        omega
      · have := offsets_getD_mono text (li + 1) m hm hmlen
        omega
    have hsq : start ≤ q - 1 := by omega
    have hsplit : slice text start q =
        slice text start (q - 1) ++ ['\n'] := by
      rw [slice, slice, show q - start = (q - 1 - start) + 1 by omega, List.take_succ]
      congr 1
      rw [List.getElem?_drop, show start + (q - 1 - start) = q - 1 by omega, hq.2.2]
      rfl
    rw [hsplit, rstripNewline_append_newline]
    have hA : ∀ c ∈ slice text start (q - 1), c ≠ '\n' := by
      intro c hc hcn
      rw [List.mem_iff_getElem] at hc
      obtain ⟨i, hilen, hival⟩ := hc
      simp only [slice] at hilen hival
      have hi1 : i < q - 1 - start := by
        have := List.length_take (q - 1 - start) (text.drop start)
        omega
      have : (List.take (q - 1 - start) (List.drop start text))[i]? = some c := by
        rw [List.getElem?_eq_getElem hilen, hival]
      rw [List.getElem?_take, if_pos hi1, List.getElem?_drop] at this
      exact hinterior (start + i) (by omega) (by omega) (by rw [this, hcn])
    rw [rstripNewline_of_no_newline _ hA, slice, List.getElem?_take, if_pos (by omega),
      List.getElem?_drop, show start + (offset - start) = offset by omega]
  · rw [if_neg hlast, hsub]
    have htail : ∀ c ∈ text.drop start, c ≠ '\n' := by
      intro c hc hcn
      rw [List.mem_iff_getElem] at hc
      obtain ⟨i, hilen, hival⟩ := hc
      rw [List.length_drop] at hilen
      have hkn : text[start + i]? = some '\n' := by
        have : (List.drop start text)[i]? = some c := by
          rw [List.getElem?_eq_getElem (by rw [List.length_drop]; omega), hival]
        rw [List.getElem?_drop] at this
        rw [this, hcn]
      have hkmem : start + i + 1 ∈ _build_line_offsets text := by
        rw [offsets_mem]
        right
        exact ⟨by omega, by omega, by rw [show start + i + 1 - 1 = start + i by omega]; exact hkn⟩
      rw [List.mem_iff_getElem] at hkmem
      obtain ⟨m, hmlen, hmval⟩ := hkmem
      have hmval' : (_build_line_offsets text).getD m 0 = start + i + 1 := by
        rw [List.getD_eq_getElem?_getD, List.getElem?_eq_getElem hmlen, hmval]
        rfl
      have hmle : m ≤ li := by omega
      have := offsets_getD_mono text m li hmle (by omega)
      omega
    rw [rstripNewline_of_no_newline _ htail, List.getElem?_drop,
      show start + (offset - start) = offset by omega]

/-- Witness for C9 (amended) at the text a-newline-b and offset 2 (the
character b on line 2). -/
theorem line_col_round_trip_amended_witness :
    (line_text ['a', '\n', 'b'] (line_col ['a', '\n', 'b'] 2).1)[(line_col
      ['a', '\n', 'b'] 2).2 - 1]? = (['a', '\n', 'b'] : List Char)[2]? :=
  line_col_round_trip_amended ['a', '\n', 'b'] 2 (by decide) (by decide)

/-- Embeds Python `str.strip()`: drop leading and trailing whitespace. -/
def stripChars (l : List Char) : List Char :=
  ((l.dropWhile isSpace).reverse.dropWhile isSpace).reverse

/-- One attempted match of the regex for environment tokens (backslash,
`begin` or `end`, optional whitespace, brace, non-empty brace-free name,
closing brace) at position `i`: returns the kind (`true` for `begin`), the
raw name and the match end. -/
def envTokenTail (text : List Char) (j : Nat) : Option (List Char × Nat) :=
  let k := _skip_whitespace text j
  if text[k]? = some lbrace then
    let name := (text.drop (k + 1)).takeWhile (fun c => c ≠ rbrace)
    if name ≠ [] ∧ text[k + 1 + name.length]? = some rbrace then
      some (name, k + 1 + name.length + 1)
    else none
  else none

/-- Whether the environment-token regex matches at position `i`. -/
def envTokenAt (text : List Char) (i : Nat) : Option (Bool × List Char × Nat) :=
  if startsWithAt text ['\\', 'b', 'e', 'g', 'i', 'n'] i then
    match envTokenTail text (i + 6) with
    | some (name, e) => some (true, name, e)
    | none => none
  else if startsWithAt text ['\\', 'e', 'n', 'd'] i then
    match envTokenTail text (i + 4) with
    | some (name, e) => some (false, name, e)
    | none => none
  else none

/-- The `finditer` scan for environment tokens: non-overlapping matches in
text order, resuming after each match. -/
def envTokensAux (fuel : Nat) (text : List Char) (i : Nat) :
    List (Bool × List Char × Nat) :=
  match fuel with
  | 0 => []
  | fuel + 1 =>
    if i < text.length then
      match envTokenAt text i with
      | some (kind, name, e) => (kind, stripChars name, i) :: envTokensAux fuel text e
      | none => envTokensAux fuel text (i + 1)
    else []

/-- Embeds `iter_env_tokens` of `tex.py`: `(kind, stripped name, offset)`
triples, with `true` for a `begin` marker. -/
def iter_env_tokens (text : List Char) : List (Bool × List Char × Nat) :=
  envTokensAux (text.length + 1) text 0

/-- The downward search of `_collect_env_blocks` in `illustrations.py`
(`for index in range(len(stack) - 1, -1, -1)` followed by
`stack.pop(index)`).  The stack top is at the head here, so the search
runs from the head; exactly the nearest matching frame is removed. -/
def popNearest (stack : List (List Char × Nat)) (env : List Char) :
    Option ((List Char × Nat) × List (List Char × Nat)) :=
  match stack with
  | [] => none
  | f :: rest =>
    if f.1 = env then some (f, rest)
    else match popNearest rest env with
      | none => none
      | some (g, rest2) => some (g, f :: rest2)

/-- One token step of `_collect_env_blocks` in `illustrations.py`; the
state is the stack (top at head) and the blocks collected so far. -/
def envBlocksStep (envs : List (List Char))
    (st : List (List Char × Nat) × List (List Char × Nat × Nat))
    (tok : Bool × List Char × Nat) :
    List (List Char × Nat) × List (List Char × Nat × Nat) :=
  if tok.2.1 ∈ envs then
    if tok.1 then ((tok.2.1, tok.2.2) :: st.1, st.2)
    else match popNearest st.1 tok.2.1 with
      | none => st
      | some (frame, rest) => (rest, st.2 ++ [(tok.2.1, frame.2, tok.2.2)])
  else st

/-- Embeds `_collect_env_blocks` of `illustrations.py`. -/
def _collect_env_blocks (text : List Char) (envs : List (List Char)) :
    List (List Char × Nat × Nat) :=
  ((iter_env_tokens text).foldl (envBlocksStep envs) ([], [])).2

/-- Modelled from the spec, for comparison: the documented nesting-recovery
policy — on an end marker, search the stack downward for the nearest frame
with the same name and discard that frame and every frame above it as
implicitly closed (the matched frame yields the block). -/
def envBlocksStepPolicy (envs : List (List Char))
    (st : List (List Char × Nat) × List (List Char × Nat × Nat))
    (tok : Bool × List Char × Nat) :
    List (List Char × Nat) × List (List Char × Nat × Nat) :=
  if tok.2.1 ∈ envs then
    if tok.1 then ((tok.2.1, tok.2.2) :: st.1, st.2)
    else if tok.2.1 ∈ st.1.map Prod.fst then
      match st.1.dropWhile (fun f => f.1 ≠ tok.2.1) with
      | [] => st
      | top :: below => (below, st.2 ++ [(tok.2.1, top.2, tok.2.2)])
    else st
  else st

/-- Modelled from the spec, for comparison: the tracked-block collector as
it would behave under the documented discard-everything-above policy. -/
def collectEnvBlocksPolicy (text : List Char) (envs : List (List Char)) :
    List (List Char × Nat × Nat) :=
  ((iter_env_tokens text).foldl (envBlocksStepPolicy envs) ([], [])).2

/-- The demonstration text: begin figure, begin table, end figure,
end table. -/
def envDemoText : List Char :=
  ['\\', 'b', 'e', 'g', 'i', 'n'] ++ [lbrace] ++ ['f', 'i', 'g', 'u', 'r', 'e'] ++ [rbrace] ++
  ['\\', 'b', 'e', 'g', 'i', 'n'] ++ [lbrace] ++ ['t', 'a', 'b', 'l', 'e'] ++ [rbrace] ++
  ['\\', 'e', 'n', 'd'] ++ [lbrace] ++ ['f', 'i', 'g', 'u', 'r', 'e'] ++ [rbrace] ++
  ['\\', 'e', 'n', 'd'] ++ [lbrace] ++ ['t', 'a', 'b', 'l', 'e'] ++ [rbrace]

/-- The tracked environments of the demonstration. -/
def envDemoEnvs : List (List Char) :=
  [['f', 'i', 'g', 'u', 'r', 'e'], ['t', 'a', 'b', 'l', 'e']]

/-- Counterexample for C2: on begin figure, begin table, end figure,
end table, the tracked-block collector keeps the table frame when the
mismatched end-figure closes the figure frame underneath it — it still
emits a table block afterwards — whereas the claimed policy (discard the
matched frame and everything above it) would drop the table frame and
emit no table block. -/
theorem env_stack_recovery_counterexample :
    _collect_env_blocks envDemoText envDemoEnvs =
      [(['f', 'i', 'g', 'u', 'r', 'e'], 0, 27), (['t', 'a', 'b', 'l', 'e'], 14, 39)] ∧
    collectEnvBlocksPolicy envDemoText envDemoEnvs =
      [(['f', 'i', 'g', 'u', 'r', 'e'], 0, 27)] := by
  decide

/-- Embeds the while-pop loop of the end-token branch in
`_collect_list_items` (`lists.py`): pop while the top differs from the
name. -/
def popWhileNot (stack : List (List Char)) (env : List Char) : List (List Char) :=
  match stack with
  | [] => []
  | top :: rest => if top ≠ env then popWhileNot rest env else stack

/-- Embeds the end-token stack update of `_collect_list_items`
(`lists.py`): pop a matching top, else pop down through the nearest
matching frame, else leave the stack alone.  Stack top at the head. -/
def listEndStack (stack : List (List Char)) (env : List Char) : List (List Char) :=
  if stack.head? = some env then stack.tail
  else if env ∈ stack then
    match popWhileNot stack env with
    | [] => []
    | _ :: rest => rest
  else stack

/-- Modelled from the spec, for comparison: discard the nearest same-named
frame and everything above it. -/
def popThroughPolicy (stack : List (List Char)) (env : List Char) : List (List Char) :=
  if env ∈ stack then (stack.dropWhile (fun e => e ≠ env)).tail else stack

theorem popWhileNot_eq_dropWhile (env : List Char) :
    ∀ stack : List (List Char), popWhileNot stack env =
      stack.dropWhile (fun e => e ≠ env) := by
  intro stack
  induction stack with
  | nil => rfl
  | cons top rest ih =>
    rw [popWhileNot, List.dropWhile_cons]
    by_cases h : top = env
    · rw [if_neg (by simp [h]), if_neg (by simp [h])]
    · rw [if_pos (by simp [h]), if_pos (by simp [h])]
      exact ih

/-- C2 (amended).  Environment-nesting recovery: the list-item collector
follows the documented policy — on a mismatched end, the stack is popped
down through the nearest same-named frame, discarding that frame and every
frame above it — but the tracked-block collector of the illustration-order
rule removes only the nearest same-named frame and keeps every frame above
it on the stack. -/
theorem env_stack_recovery_amended :
    (∀ (stack : List (List Char)) (env : List Char),
      listEndStack stack env = popThroughPolicy stack env) ∧
    (∀ (stack : List (List Char × Nat)) (env : List Char),
      (popNearest stack env = none → ∀ f ∈ stack, f.1 ≠ env) ∧
      ∀ frame rest, popNearest stack env = some (frame, rest) →
        frame.1 = env ∧ ∃ above below, stack = above ++ frame :: below ∧
          (∀ f ∈ above, f.1 ≠ env) ∧ rest = above ++ below) := by
  constructor
  · intro stack env
    rw [listEndStack, popThroughPolicy]
    by_cases hh : stack.head? = some env
    · rw [if_pos hh]
      cases stack with
      | nil => exact absurd hh (by simp)
      | cons top rest =>
        have htop : top = env := by
          rw [List.head?_cons] at hh
          exact Option.some.inj hh
        rw [if_pos (by rw [htop]; exact List.mem_cons_self env rest)]
        rw [List.dropWhile_cons, if_neg (by simp [htop])]
    · rw [if_neg hh]
      by_cases hm : env ∈ stack
      · rw [if_pos hm, if_pos hm, popWhileNot_eq_dropWhile]
        cases hdw : stack.dropWhile (fun e => e ≠ env) with
        | nil => rfl
        | cons top rest => rfl
      · rw [if_neg hm, if_neg hm]
  · intro stack env
    induction stack with
    | nil =>
      refine ⟨fun _ f hf => absurd hf (by simp), fun frame rest hcon => ?_⟩
      rw [popNearest] at hcon
      exact absurd hcon (by simp)
    | cons f rest ih =>
      constructor
      · intro hnone g hg
        rw [popNearest] at hnone
        by_cases hf : f.1 = env
        · rw [if_pos hf] at hnone
          exact absurd hnone (by simp)
        · rw [if_neg hf] at hnone
          rcases List.mem_cons.1 hg with rfl | hg2
          · exact hf
          · cases hpn : popNearest rest env with
            | none => exact ih.1 hpn g hg2
            | some pr => rw [hpn] at hnone; exact absurd hnone (by simp)
      · intro frame rest2 hsome
        rw [popNearest] at hsome
        by_cases hf : f.1 = env
        · rw [if_pos hf] at hsome
          have h1 : f = frame ∧ rest = rest2 := by
            have := Option.some.inj hsome
            exact ⟨congrArg Prod.fst this, congrArg Prod.snd this⟩
          obtain ⟨rfl, rfl⟩ := h1
          exact ⟨hf, [], rest, rfl, fun g hg => absurd hg (by simp), rfl⟩
        · rw [if_neg hf] at hsome
          cases hpn : popNearest rest env with
          | none => rw [hpn] at hsome; exact absurd hsome (by simp)
          | some pr =>
            obtain ⟨g, rest3⟩ := pr
            rw [hpn] at hsome
            have h2 := Option.some.inj hsome
            have hfr : g = frame := congrArg Prod.fst h2
            have hrest : f :: rest3 = rest2 := congrArg Prod.snd h2
            have hpr := ih.2 g rest3 hpn
            obtain ⟨habove, hbelow, hsplit, hnotin, hrest2⟩ := hpr.2
            refine ⟨hfr ▸ hpr.1, f :: habove, hbelow, ?_, ?_, ?_⟩
            · rw [List.cons_append, hsplit, hfr]
            · intro g2 hg
              rcases List.mem_cons.1 hg with rfl | hg2
              · exact hf
              · exact hnotin g2 hg2
            · rw [← hrest, hrest2, List.cons_append]

/-- Witness for C2 (amended): removing the figure frame from the stack
table-above-figure keeps the table frame in place above it. -/
theorem env_stack_recovery_amended_witness :
    ((['f', 'i', 'g', 'u', 'r', 'e'], 0) : List Char × Nat).1 = ['f', 'i', 'g', 'u', 'r', 'e'] ∧
    ∃ above below,
      [((['t', 'a', 'b', 'l', 'e'] : List Char), (14 : Nat)), (['f', 'i', 'g', 'u', 'r', 'e'], 0)] =
        above ++ (['f', 'i', 'g', 'u', 'r', 'e'], 0) :: below ∧
      (∀ f ∈ above, f.1 ≠ ['f', 'i', 'g', 'u', 'r', 'e']) ∧
      [((['t', 'a', 'b', 'l', 'e'] : List Char), (14 : Nat))] = above ++ below :=
  (env_stack_recovery_amended.2
    [(['t', 'a', 'b', 'l', 'e'], 14), (['f', 'i', 'g', 'u', 'r', 'e'], 0)]
    ['f', 'i', 'g', 'u', 'r', 'e']).2
    (['f', 'i', 'g', 'u', 'r', 'e'], 0) [(['t', 'a', 'b', 'l', 'e'], 14)] rfl

/-- The recursive enumeration of `_requires_yo` in `spelling.py`, with the
mutated state made explicit: `ps` holds the remaining substitution
positions, `chars` the working character list, `replaced` whether some
position was substituted on this path, and `acc` the pair of the
`found` flag and the `checked` counter. -/
def yoDfs (dict : List (List Char)) : List Nat → List Char → Bool → Bool × Nat → Bool × Nat
  | ps, chars, replaced, acc =>
    if acc.1 = true ∨ 128 ≤ acc.2 then acc
    else
      match ps with
      | [] => if replaced then (decide (chars ∈ dict), acc.2 + 1) else acc
      | p :: rest =>
        yoDfs dict rest (chars.set p 'ё') true (yoDfs dict rest chars replaced acc)

/-- The positions of the plain letter е in the word (the list comprehension
of `_requires_yo`). -/
def yoPositions (word : List Char) : List Nat :=
  (List.range word.length).filter (fun index => decide (word[index]? = some 'е'))

/-- Embeds `_requires_yo` of `spelling.py`. -/
def _requires_yo (word : List Char) (dictionary : List (List Char)) : Bool :=
  if 'е' ∉ word ∨ 'ё' ∈ word then false
  else if yoPositions word = [] then false
  else (yoDfs dictionary (yoPositions word) word false (false, 0)).1

/-- Specification side: the candidates of the skip-then-take enumeration,
in generation order (only paths with at least one substitution yield a
candidate). -/
def yoGen : List Nat → List Char → Bool → List (List Char)
  | [], chars, replaced => if replaced then [chars] else []
  | p :: rest, chars, replaced =>
    yoGen rest chars replaced ++ yoGen rest (chars.set p 'ё') true

/-- Specification side: test the candidates one after the other against the
dictionary, stopping at the first hit or at the 128th test. -/
def yoScan (dict : List (List Char)) : List (List Char) → Bool × Nat → Bool × Nat
  | [], acc => acc
  | c :: cs, acc =>
    if acc.1 = true ∨ 128 ≤ acc.2 then acc
    else yoScan dict cs (decide (c ∈ dict), acc.2 + 1)

theorem yoScan_absorb (dict : List (List Char)) :
    ∀ (L : List (List Char)) (acc : Bool × Nat), (acc.1 = true ∨ 128 ≤ acc.2) →
      yoScan dict L acc = acc := by
  intro L
  induction L with
  | nil => intro acc hacc; rfl
  | cons c cs ih =>
    intro acc hacc
    rw [yoScan, if_pos hacc]

theorem yoScan_append (dict : List (List Char)) :
    ∀ (L1 L2 : List (List Char)) (acc : Bool × Nat),
      yoScan dict (L1 ++ L2) acc = yoScan dict L2 (yoScan dict L1 acc) := by
  intro L1
  induction L1 with
  | nil => intro L2 acc; rfl
  | cons c cs ih =>
    intro L2 acc
    by_cases hacc : acc.1 = true ∨ 128 ≤ acc.2
    · rw [List.cons_append, yoScan, if_pos hacc, yoScan, if_pos hacc, yoScan_absorb dict L2 acc hacc]
    · rw [List.cons_append, yoScan, if_neg hacc, yoScan, if_neg hacc, ih]

theorem yoDfs_eq_scan (dict : List (List Char)) :
    ∀ (ps : List Nat) (chars : List Char) (replaced : Bool) (acc : Bool × Nat),
      yoDfs dict ps chars replaced acc = yoScan dict (yoGen ps chars replaced) acc := by
  intro ps
  induction ps with
  | nil =>
    intro chars replaced acc
    rw [yoDfs, yoGen]
    by_cases hacc : acc.1 = true ∨ 128 ≤ acc.2
    · rw [if_pos hacc, yoScan_absorb dict _ acc hacc]
    · rw [if_neg hacc]
      cases replaced with
      | true => rw [if_pos rfl, if_pos rfl, yoScan, if_neg hacc, yoScan]
      | false =>
        rw [if_neg (by simp), if_neg (by simp)]
        rfl
  | cons p rest ih =>
    intro chars replaced acc
    rw [yoDfs, yoGen, yoScan_append]
    by_cases hacc : acc.1 = true ∨ 128 ≤ acc.2
    · rw [if_pos hacc, yoScan_absorb dict _ acc hacc, yoScan_absorb dict _ acc hacc]
    · rw [if_neg hacc]
      rw [ih chars replaced acc, ih (chars.set p 'ё') true _]

theorem yoScan_fst (dict : List (List Char)) :
    ∀ (L : List (List Char)) (c : Nat), c ≤ 128 →
      (yoScan dict L (false, c)).1 =
        (L.take (128 - c)).any (fun cand => decide (cand ∈ dict)) := by
  intro L
  induction L with
  | nil => intro c hc; simp [yoScan]
  | cons x xs ih =>
    intro c hc
    rw [yoScan]
    by_cases hacc : (false = true ∨ 128 ≤ c)
    · rw [if_pos hacc]
      have hc128 : c = 128 := by
        rcases hacc with h | h
        · exact absurd h (by simp)
        · omega
      rw [hc128, Nat.sub_self, List.take_zero, List.any_nil]
    · rw [if_neg hacc]
      have hlt : c < 128 := by omega
      have hx : 128 - c = (128 - (c + 1)) + 1 := by omega
      rw [hx, List.take_succ_cons, List.any_cons]
      by_cases hxd : x ∈ dict
      · rw [yoScan_absorb dict xs _ (by simp [hxd])]
        simp [hxd]
      · have : (decide (x ∈ dict)) = false := by simp [hxd]
        rw [this, ih (c + 1) (by omega)]
        simp [hxd]

theorem yoGen_length :
    ∀ (ps : List Nat) (chars : List Char) (replaced : Bool),
      (yoGen ps chars replaced).length = 2 ^ ps.length - (if replaced then 0 else 1) := by
  intro ps
  induction ps with
  | nil =>
    intro chars replaced
    cases replaced with
    | true => rfl
    | false => rfl
  | cons p rest ih =>
    intro chars replaced
    rw [yoGen, List.length_append, ih chars replaced, ih (chars.set p 'ё') true]
    have h1 : 1 ≤ 2 ^ rest.length := Nat.one_le_two_pow
    have hpow : 2 ^ (rest.length + 1) = 2 ^ rest.length * 2 := by rw [pow_succ]
    have e0 : (if (true : Bool) = true then (0 : Nat) else 1) = 0 := by simp
    have e1 : (if (false : Bool) = true then (0 : Nat) else 1) = 1 := by simp
    cases replaced with
    | true => rw [List.length_cons, e0]; omega
    | false => rw [List.length_cons, e0, e1]; omega

/-- Specification side: apply the substitution selection `sel` (one flag
per position) to the character list. -/
def yoApply : List Nat → List Bool → List Char → List Char
  | p :: ps, b :: bs, chars => yoApply ps bs (if b then chars.set p 'ё' else chars)
  | _, _, chars => chars

theorem yoGen_mem :
    ∀ (ps : List Nat) (chars : List Char) (replaced : Bool) (cand : List Char),
      cand ∈ yoGen ps chars replaced ↔
        ∃ sel : List Bool, sel.length = ps.length ∧ (replaced = true ∨ true ∈ sel) ∧
          cand = yoApply ps sel chars := by
  intro ps
  induction ps with
  | nil =>
    intro chars replaced cand
    rw [yoGen]
    cases replaced with
    | true =>
      rw [if_pos rfl]
      constructor
      · intro hc
        rcases List.mem_singleton.1 hc with rfl
        exact ⟨[], rfl, Or.inl rfl, rfl⟩
      · rintro ⟨sel, hlen, _, hc⟩
        have hnil : sel = [] := by simpa using hlen
        subst hnil
        rw [hc]
        exact List.mem_singleton.2 rfl
    | false =>
      rw [if_neg (by simp)]
      constructor
      · intro hc; exact absurd hc (by simp)
      · rintro ⟨sel, hlen, hrep, hc⟩
        have hnil : sel = [] := by simpa using hlen
        subst hnil
        rcases hrep with h | h
        · exact absurd h (by simp)
        · exact absurd h (by simp)
  | cons p rest ih =>
    intro chars replaced cand
    rw [yoGen, List.mem_append, ih chars replaced cand, ih (chars.set p 'ё') true cand]
    constructor
    · rintro (⟨sel, hlen, hrep, hc⟩ | ⟨sel, hlen, _, hc⟩)
      · refine ⟨false :: sel, by simp [hlen], ?_, hc⟩
        rcases hrep with h | h
        · exact Or.inl h
        · exact Or.inr (List.mem_cons_of_mem false h)
      · exact ⟨true :: sel, by simp [hlen], Or.inr (List.mem_cons_self true sel), hc⟩
    · rintro ⟨sel, hlen, hrep, hc⟩
      cases sel with
      | nil => exact absurd hlen (by simp)
      | cons b bs =>
        cases b with
        | true =>
          right
          exact ⟨bs, by simpa using hlen, Or.inl rfl, hc⟩
        | false =>
          left
          refine ⟨bs, by simpa using hlen, ?_, hc⟩
          rcases hrep with h | h
          · exact Or.inl h
          · rcases List.mem_cons.1 h with hb | hb
            · exact absurd hb (by simp)
            · exact Or.inr hb

theorem yoPositions_ne_nil (word : List Char) (h : 'е' ∈ word) :
    yoPositions word ≠ [] := by
  rw [List.mem_iff_getElem] at h
  obtain ⟨i, hi, hval⟩ := h
  intro hcon
  have hmem : i ∈ yoPositions word := by
    rw [yoPositions, List.mem_filter, List.mem_range]
    refine ⟨hi, ?_⟩
    rw [List.getElem?_eq_getElem hi, hval]
    simp
  rw [hcon] at hmem
  exact absurd hmem (by simp)

/-- C5.  Bounded morphological search: for a word containing at least one е
and no ё, `_requires_yo` returns true exactly when one of the first 128
candidates of the skip-then-take enumeration (in generation order) is in
the dictionary, and when the word has at most 7 occurrences of е the cap is
never reached, so the answer is equivalent to some non-empty substitution
subset being in the dictionary. -/
theorem bounded_yo_search (word : List Char) (dictionary : List (List Char))
    (hche : 'е' ∈ word) (hnyo : 'ё' ∉ word) :
    (_requires_yo word dictionary = true ↔
      ∃ cand ∈ (yoGen (yoPositions word) word false).take 128, cand ∈ dictionary) ∧
    ((yoPositions word).length ≤ 7 →
      (_requires_yo word dictionary = true ↔
        ∃ sel : List Bool, sel.length = (yoPositions word).length ∧ true ∈ sel ∧
          yoApply (yoPositions word) sel word ∈ dictionary)) := by
  have hbase : _requires_yo word dictionary =
      ((yoGen (yoPositions word) word false).take 128).any
        (fun cand => decide (cand ∈ dictionary)) := by
    rw [_requires_yo, if_neg (by simp [hche, hnyo]),
      if_neg (yoPositions_ne_nil word hche), yoDfs_eq_scan,
      yoScan_fst dictionary _ 0 (by omega)]
  have hiff1 : _requires_yo word dictionary = true ↔
      ∃ cand ∈ (yoGen (yoPositions word) word false).take 128, cand ∈ dictionary := by
    rw [hbase, List.any_eq_true]
    constructor
    · rintro ⟨cand, hc1, hc2⟩
      exact ⟨cand, hc1, of_decide_eq_true hc2⟩
    · rintro ⟨cand, hc1, hc2⟩
      exact ⟨cand, hc1, decide_eq_true hc2⟩
  refine ⟨hiff1, ?_⟩
  intro hlen
  have htake : (yoGen (yoPositions word) word false).take 128 =
      yoGen (yoPositions word) word false := by
    apply List.take_of_length_le
    rw [yoGen_length]
    have h2 : 2 ^ (yoPositions word).length ≤ 2 ^ 7 := Nat.pow_le_pow_right (by omega) hlen
    simp only [if_neg (by simp : ¬ (false = true))] at *
    omega
  rw [hiff1, htake]
  constructor
  · rintro ⟨cand, hc1, hc2⟩
    rw [yoGen_mem] at hc1
    obtain ⟨sel, hsl, hrep, hc⟩ := hc1
    rcases hrep with h | h
    · exact absurd h (by simp)
    · exact ⟨sel, hsl, h, by rw [← hc]; exact hc2⟩
  · rintro ⟨sel, hsl, hsel, hmem⟩
    refine ⟨yoApply (yoPositions word) sel word, ?_, hmem⟩
    rw [yoGen_mem]
    exact ⟨sel, hsl, Or.inr hsel, rfl⟩

/-- Witness for C5 at the word шофер with the dictionary entry шофёр. -/
theorem bounded_yo_search_witness :
    _requires_yo ['ш', 'о', 'ф', 'е', 'р'] [['ш', 'о', 'ф', 'ё', 'р']] = true ↔
      ∃ cand ∈ (yoGen (yoPositions ['ш', 'о', 'ф', 'е', 'р']) ['ш', 'о', 'ф', 'е', 'р']
        false).take 128, cand ∈ [['ш', 'о', 'ф', 'ё', 'р']] :=
  (bounded_yo_search ['ш', 'о', 'ф', 'е', 'р'] [['ш', 'о', 'ф', 'ё', 'р']]
    (by decide) (by decide)).1

/-- Embeds the `TexFile` dataclass of `document.py` (the `line_offsets`
field is a cache of `_build_line_offsets text` and is recomputed here
instead of stored). -/
structure TexFile where
  path : List Char
  text : List Char

/-- Embeds the `Document` dataclass of `document.py` (the `base_dir` field
plays no part in the rules verified here). -/
structure Document where
  files : List TexFile

/-- Embeds the `Issue` dataclass of `issue.py`. -/
structure Issue where
  rule_id : List Char
  message : List Char
  path : List Char
  line : Nat
  col : Nat
  snippet : List Char

/-- The apostrophe used by the Python messages, via its code point. -/
def quoteChar : Char := Char.ofNat 39

/-- Embeds the `_issue` helper of `illustrations.py`. -/
def _issue (tex_file : TexFile) (offset : Nat) (rule_id message : List Char) : Issue :=
  { rule_id := rule_id, message := message, path := tex_file.path,
    line := (line_col tex_file.text offset).1,
    col := (line_col tex_file.text offset).2,
    snippet := line_text tex_file.text (line_col tex_file.text offset).1 }

/-- One attempted match of the label regex (backslash, `label`, optional
whitespace, braced non-empty name) at position `i`; the tail after the
word `label` has the same shape as for environment tokens. -/
def labelTokenAt (text : List Char) (i : Nat) : Option (List Char × Nat) :=
  if startsWithAt text ['\\', 'l', 'a', 'b', 'e', 'l'] i then envTokenTail text (i + 6)
  else none

/-- The `finditer` scan for label tokens. -/
def labelsAux (fuel : Nat) (text : List Char) (i : Nat) : List (List Char) :=
  match fuel with
  | 0 => []
  | fuel + 1 =>
    if i < text.length then
      match labelTokenAt text i with
      | some (name, e) => name :: labelsAux fuel text e
      | none => labelsAux fuel text (i + 1)
    else []

/-- Embeds `_collect_labels` of `illustrations.py`: the stripped label
names, empty ones dropped. -/
def _collect_labels (text : List Char) : List (List Char) :=
  ((labelsAux (text.length + 1) text 0).map stripChars).filter (fun l => decide (l ≠ []))

/-- Embeds the per-argument label extraction of `_collect_ref_positions`:
split on commas, strip, drop empties. -/
def splitLabels (a : List Char) : List (List Char) :=
  ((a.splitOn ',').map stripChars).filter (fun l => decide (l ≠ []))

/-- Python tuple order on (file-order-index, offset) pairs. -/
def posLt (a b : Nat × Nat) : Prop :=
  a.1 < b.1 ∨ (a.1 = b.1 ∧ a.2 < b.2)

instance (a b : Nat × Nat) : Decidable (posLt a b) := by
  rw [posLt]; infer_instance

/-- The stream of (label, position) pairs scanned by
`_collect_ref_positions` of `illustrations.py`, in scan order: files in
document order, then configured commands, then spans, then the comma
pieces of each span's argument. -/
def refEvents (ctx : Document) (commands : List (List Char)) :
    List (List Char × (Nat × Nat)) :=
  ctx.files.enum.bind fun fi_file =>
    commands.bind fun command =>
      (iter_command_spans (mask_comments_and_math fi_file.2.text) command).bind fun span =>
        match span.argument with
        | none => []
        | some a => (splitLabels a).map fun label => (label, (fi_file.1, span.start))

/-- Dictionary lookup in the association-list model of the Python dict. -/
def lookupPos (m : List (List Char × (Nat × Nat))) (label : List Char) :
    Option (Nat × Nat) :=
  match m.find? (fun e => decide (e.1 = label)) with
  | some e => some e.2
  | none => none

/-- The dict update of `_collect_ref_positions`: insert when the label is
absent, overwrite when the new position is strictly smaller. -/
def updatePos (m : List (List Char × (Nat × Nat))) (label : List Char)
    (pos : Nat × Nat) : List (List Char × (Nat × Nat)) :=
  match lookupPos m label with
  | none => (label, pos) :: m
  | some q =>
    if posLt pos q then m.map (fun e => if e.1 = label then (label, pos) else e)
    else m

/-- Embeds `_collect_ref_positions` of `illustrations.py`. -/
def _collect_ref_positions (ctx : Document) (commands : List (List Char)) :
    List (List Char × (Nat × Nat)) :=
  (refEvents ctx commands).foldl (fun m e => updatePos m e.1 e.2) []

/-- Embeds the `IllustrationOrderRule` dataclass (rule ids are
configuration data). -/
structure IllustrationOrderRule where
  envs : List (List Char)
  ref_commands : List (List Char)
  rule_id_missing : List Char
  rule_id_order : List Char

/-- The message text of the missing-reference issue. -/
def msgMissing (label : List Char) : List Char :=
  ['n', 'o', ' ', 'r', 'e', 'f', 'e', 'r', 'e', 'n', 'c', 'e', ' ', 'f', 'o', 'u', 'n',
   'd', ' ', 'f', 'o', 'r', ' ', 'l', 'a', 'b', 'e', 'l', ' ', quoteChar] ++
  label ++ [quoteChar]

/-- The message text of the ordering issue. -/
def msgOrder (label : List Char) : List Char :=
  ['i', 'l', 'l', 'u', 's', 't', 'r', 'a', 't', 'i', 'o', 'n', ' ', 'a', 'p', 'p', 'e',
   'a', 'r', 's', ' ', 'b', 'e', 'f', 'o', 'r', 'e', ' ', 'f', 'i', 'r', 's', 't', ' ',
   'r', 'e', 'f', 'e', 'r', 'e', 'n', 'c', 'e', ' ', 't', 'o', ' ', quoteChar] ++
  label ++ [quoteChar]

/-- Embeds `IllustrationOrderRule.check` of `illustrations.py`.  The
`LintContext` argument is reduced to its document, the only part the
method consults. -/
def IllustrationOrderRule.check (rule : IllustrationOrderRule) (ctx : Document) :
    List Issue :=
  ctx.files.enum.bind fun fi_file =>
    (_collect_env_blocks (mask_comments_and_math fi_file.2.text) rule.envs).bind fun blk =>
      (_collect_labels
          (slice (mask_comments_and_math fi_file.2.text) blk.2.1 blk.2.2)).filterMap
        fun label =>
          match lookupPos (_collect_ref_positions ctx rule.ref_commands) label with
          | none => some (_issue fi_file.2 blk.2.1 rule.rule_id_missing (msgMissing label))
          | some p =>
            if ¬ posLt p (fi_file.1, blk.2.1) then
              some (_issue fi_file.2 blk.2.1 rule.rule_id_order (msgOrder label))
            else none

/-- Specification side: the reference positions of one label, in scan
order. -/
def labelOccurrences (ctx : Document) (commands : List (List Char))
    (label : List Char) : List (Nat × Nat) :=
  (refEvents ctx commands).filterMap fun e => if e.1 = label then some e.2 else none

/-- Specification side: the earliest position under the lexicographic
order on (file-order-index, offset) — ties keep the earlier occurrence. -/
def minPosOpt (l : List (Nat × Nat)) : Option (Nat × Nat) :=
  l.foldl
    (fun acc p =>
      match acc with
      | none => some p
      | some q => if posLt p q then some p else some q)
    none

/-- Specification side: the order-analyzer verdicts exactly as the claim
words them — per tracked block and per collected label, one missing-
reference issue at the block start when the label has no reference
occurrence anywhere, one ordering issue when the earliest reference
position is not strictly less than the block's own position, otherwise
nothing. -/
def specCheck (rule : IllustrationOrderRule) (ctx : Document) : List Issue :=
  ctx.files.enum.bind fun fi_file =>
    (_collect_env_blocks (mask_comments_and_math fi_file.2.text) rule.envs).bind fun blk =>
      (_collect_labels
          (slice (mask_comments_and_math fi_file.2.text) blk.2.1 blk.2.2)).filterMap
        fun label =>
          match minPosOpt (labelOccurrences ctx rule.ref_commands label) with
          | none => some (_issue fi_file.2 blk.2.1 rule.rule_id_missing (msgMissing label))
          | some p =>
            if ¬ posLt p (fi_file.1, blk.2.1) then
              some (_issue fi_file.2 blk.2.1 rule.rule_id_order (msgOrder label))
            else none

theorem lookupPos_cons (k : List Char) (v : Nat × Nat)
    (m : List (List Char × (Nat × Nat))) (label : List Char) :
    lookupPos ((k, v) :: m) label = if k = label then some v else lookupPos m label := by
  by_cases hk : k = label
  · simp [lookupPos, List.find?_cons, hk]
  · simp [lookupPos, List.find?_cons, hk]

theorem lookupPos_map_other (label other : List Char) (pos : Nat × Nat)
    (hne : other ≠ label) :
    ∀ m : List (List Char × (Nat × Nat)),
      lookupPos (m.map (fun e => if e.1 = other then (other, pos) else e)) label =
        lookupPos m label := by
  intro m
  induction m with
  | nil => rfl
  | cons e es ih =>
    obtain ⟨k, v⟩ := e
    rw [List.map_cons]
    by_cases he : k = other
    · simp only [if_pos he, lookupPos_cons, if_neg hne, if_neg (he ▸ hne)]
      exact ih
    · simp only [if_neg he, lookupPos_cons]
      by_cases hl : k = label
      · rw [if_pos hl, if_pos hl]
      · rw [if_neg hl, if_neg hl]
        exact ih

theorem lookupPos_map_self (label : List Char) (pos : Nat × Nat) :
    ∀ (m : List (List Char × (Nat × Nat))) (q : Nat × Nat),
      lookupPos m label = some q →
      lookupPos (m.map (fun e => if e.1 = label then (label, pos) else e)) label =
        some pos := by
  intro m
  induction m with
  | nil => intro q hq; exact absurd hq (by rw [lookupPos]; simp)
  | cons e es ih =>
    intro q hq
    obtain ⟨k, v⟩ := e
    rw [List.map_cons]
    by_cases hl : k = label
    · subst hl
      rw [if_pos rfl, lookupPos_cons, if_pos rfl]
    · rw [if_neg hl, lookupPos_cons, if_neg hl]
      rw [lookupPos_cons, if_neg hl] at hq
      exact ih q hq

theorem lookupPos_updatePos_other (m : List (List Char × (Nat × Nat)))
    (label other : List Char) (pos : Nat × Nat) (hne : other ≠ label) :
    lookupPos (updatePos m other pos) label = lookupPos m label := by
  cases hl : lookupPos m other with
  | none =>
    simp only [updatePos, hl, lookupPos_cons, if_neg hne]
  | some q =>
    by_cases hp : posLt pos q
    · simp only [updatePos, hl, if_pos hp]
      exact lookupPos_map_other label other pos hne m
    · simp only [updatePos, hl, if_neg hp]

/-- The accumulator step of the earliest-position fold. -/
def minStep (acc : Option (Nat × Nat)) (p : Nat × Nat) : Option (Nat × Nat) :=
  match acc with
  | none => some p
  | some q => if posLt p q then some p else some q

theorem lookupPos_updatePos_self (m : List (List Char × (Nat × Nat)))
    (label : List Char) (pos : Nat × Nat) :
    lookupPos (updatePos m label pos) label = minStep (lookupPos m label) pos := by
  cases hl : lookupPos m label with
  | none =>
    simp only [updatePos, hl, minStep, lookupPos_cons, eq_self_iff_true, if_true]
  | some q =>
    by_cases hp : posLt pos q
    · simp only [updatePos, hl, minStep, if_pos hp]
      exact lookupPos_map_self label pos m q hl
    · simp only [updatePos, hl, minStep, if_neg hp]

theorem lookupPos_foldl_updatePos (label : List Char) :
    ∀ (events : List (List Char × (Nat × Nat))) (m : List (List Char × (Nat × Nat))),
      lookupPos (events.foldl (fun m e => updatePos m e.1 e.2) m) label =
        (events.filterMap (fun e => if e.1 = label then some e.2 else none)).foldl
          minStep (lookupPos m label) := by
  intro events
  induction events with
  | nil => intro m; rfl
  | cons e es ih =>
    intro m
    obtain ⟨k, v⟩ := e
    rw [List.foldl_cons, ih (updatePos m k v), List.filterMap_cons]
    by_cases he : k = label
    · subst he
      simp only [eq_self_iff_true, if_true, List.foldl_cons,
        lookupPos_updatePos_self m k v]
    · simp only [if_neg he, lookupPos_updatePos_other m label k v he]

theorem refmap_is_min (ctx : Document) (commands : List (List Char))
    (label : List Char) :
    lookupPos (_collect_ref_positions ctx commands) label =
      minPosOpt (labelOccurrences ctx commands label) := by
  rw [_collect_ref_positions, labelOccurrences,
    lookupPos_foldl_updatePos label (refEvents ctx commands) []]
  rfl

theorem minStep_foldl_some (l : List (Nat × Nat)) :
    ∀ q : Nat × Nat, l.foldl minStep (some q) ≠ none := by
  induction l with
  | nil => intro q h; exact absurd h (by simp)
  | cons p ps ih =>
    intro q
    rw [List.foldl_cons, minStep]
    by_cases hp : posLt p q
    · rw [if_pos hp]; exact ih p
    · rw [if_neg hp]; exact ih q

theorem minPosOpt_eq_none_iff (l : List (Nat × Nat)) :
    minPosOpt l = none ↔ l = [] := by
  constructor
  · intro h
    cases l with
    | nil => rfl
    | cons p ps =>
      rw [minPosOpt, List.foldl_cons] at h
      exact absurd h (minStep_foldl_some ps p)
  · intro h; rw [h]; rfl

/-- C4.  Order-analyzer verdicts: the illustration-order rule behaves
exactly as specified — for every tracked block and every label collected
in its span, one missing-reference issue anchored at the block start when
the label has no reference occurrence anywhere in the document, one
ordering issue when the earliest reference position (lexicographic on
(file-order-index, offset), ties keeping the earlier occurrence) is not
strictly less than the block's own (file-order-index, start-offset) pair,
and otherwise nothing; moreover the reference map has no entry for a label
exactly when the label has no reference occurrence. -/
theorem order_analyzer_verdicts (rule : IllustrationOrderRule) (ctx : Document) :
    IllustrationOrderRule.check rule ctx = specCheck rule ctx ∧
    ∀ label, (lookupPos (_collect_ref_positions ctx rule.ref_commands) label = none ↔
      labelOccurrences ctx rule.ref_commands label = []) := by
  constructor
  · rw [IllustrationOrderRule.check, specCheck]
    simp only [refmap_is_min]
  · intro label
    rw [refmap_is_min]
    exact minPosOpt_eq_none_iff (labelOccurrences ctx rule.ref_commands label)

theorem startsWithAt_one (text : List Char) (a : Char) (p : Nat) :
    startsWithAt text [a] p = true ↔ text[p]? = some a := by
  have h0 : (text.drop p)[0]? = text[p]? := by simp [List.getElem?_drop]
  rw [startsWithAt, ← h0]
  cases text.drop p with
  | nil => simp [List.isPrefixOf]
  | cons c rest =>
    simp [List.isPrefixOf]
    exact eq_comm

theorem startsWithAt_two (text : List Char) (a b : Char) (p : Nat) :
    startsWithAt text [a, b] p = true ↔
      text[p]? = some a ∧ text[p + 1]? = some b := by
  have h0 : (text.drop p)[0]? = text[p]? := by simp [List.getElem?_drop]
  have h1 : (text.drop p)[1]? = text[p + 1]? := by simp [List.getElem?_drop]
  rw [startsWithAt, ← h0, ← h1]
  cases text.drop p with
  | nil => simp [List.isPrefixOf]
  | cons c rest =>
    cases rest with
    | nil => simp [List.isPrefixOf]
    | cons d rest2 =>
      simp [List.isPrefixOf]
      exact and_congr eq_comm eq_comm

theorem strFind_some (fuel : Nat) :
    ∀ (text pat : List Char) (i j : Nat), strFind fuel text pat i = some j →
      i ≤ j ∧ j + pat.length ≤ text.length ∧ startsWithAt text pat j = true := by
  induction fuel with
  | zero => intro text pat i j h; exact absurd h (by rw [strFind]; simp)
  | succ fuel ih =>
    intro text pat i j h
    rw [strFind] at h
    by_cases hg : i + pat.length ≤ text.length
    · rw [if_pos hg] at h
      by_cases hs : startsWithAt text pat i = true
      · rw [if_pos hs] at h
        have : i = j := Option.some.inj h
        subst this
        exact ⟨le_refl i, hg, hs⟩
      · rw [if_neg hs] at h
        have := ih text pat (i + 1) j h
        exact ⟨by omega, this.2.1, this.2.2⟩
    · rw [if_neg hg] at h
      exact absurd h (by simp)

theorem findNextAux_some (fuel : Nat) :
    ∀ (text needle : List Char) (start j : Nat),
      findNextAux fuel text needle start = some j →
      start ≤ j ∧ j + needle.length ≤ text.length ∧
        startsWithAt text needle j = true ∧ is_escaped text j = false := by
  induction fuel with
  | zero => intro text needle start j h; exact absurd h (by rw [findNextAux]; simp)
  | succ fuel ih =>
    intro text needle start j h
    rw [findNextAux] at h
    cases hsf : strFind (text.length + 1) text needle start with
    | none => simp only [hsf] at h; exact absurd h (by simp)
    | some j0 =>
      simp only [hsf] at h
      have hsf2 := strFind_some (text.length + 1) text needle start j0 hsf
      by_cases hesc : is_escaped text j0 = true
      · rw [if_pos hesc] at h
        have := ih text needle (j0 + needle.length) j h
        exact ⟨by omega, this.2.1, this.2.2⟩
      · rw [if_neg hesc] at h
        have : j0 = j := Option.some.inj h
        subst this
        exact ⟨hsf2.1, hsf2.2.1, hsf2.2.2, by simpa using hesc⟩

theorem _find_next_some (text needle : List Char) (start j : Nat)
    (h : _find_next text needle start = some j) :
    start ≤ j ∧ j + needle.length ≤ text.length ∧
      startsWithAt text needle j = true ∧ is_escaped text j = false :=
  findNextAux_some (text.length + 1) text needle start j h

theorem _mask_range_getElem? (chars : List Char) (a b k : Nat) :
    (_mask_range chars a b)[k]? =
      (chars[k]?).map (fun c => if a ≤ k ∧ k < b ∧ c ≠ '\n' then ' ' else c) := by
  rw [_mask_range, maskFrom_getElem?]
  simp only [Nat.zero_add]

/-- A math opener at position `p` of `s`: the three opener shapes tested by
the masking loop. -/
def openerAt (s : List Char) (p : Nat) : Prop :=
  (s[p]? = some '$' ∧ is_escaped s p = false) ∨
    startsWithAt s ['\\', '('] p = true ∨ startsWithAt s ['\\', '['] p = true

/-- The masked-block shape `mask_math_keep_length` maintains over the
source `s`: a changed position holds a space, and at the right edge of a
masked block the source character is a math closer — unless the agreement
one position later is only the coincidence of a source space or newline
with the mask. -/
def MaskedBlocks (s chars : List Char) : Prop :=
  ∀ p : Nat, chars[p]? ≠ s[p]? →
    chars[p]? = some ' ' ∧
      (chars[p + 1]? = s[p + 1]? →
        s[p]? = some '$' ∨ s[p]? = some ')' ∨ s[p]? = some ']' ∨
          s[p + 1]? = some ' ' ∨ s[p + 1]? = some '\n')

theorem countBackslash_eq_of_masked (s chars : List Char)
    (hmb : MaskedBlocks s chars) :
    ∀ j : Nat, chars[j]? = s[j]? → s[j]? ≠ some ' ' → s[j]? ≠ some '\n' →
      countBackslash chars j = countBackslash s j := by
  intro j
  induction j with
  | zero => intro _ _ _; rfl
  | succ j ih =>
    intro hj hsp hnl
    rw [countBackslash, countBackslash]
    by_cases hmask : chars[j]? = s[j]?
    · by_cases hbs : s[j]? = some '\\'
      · rw [if_pos hbs, if_pos (hmask.trans hbs)]
        rw [ih hmask (by rw [hbs]; simp) (by rw [hbs]; simp)]
      · rw [if_neg hbs, if_neg (fun hc => hbs (hmask.symm.trans hc))]
    · have h2 := hmb j hmask
      have h3 := h2.2 hj
      have hcl : s[j]? = some '$' ∨ s[j]? = some ')' ∨ s[j]? = some ']' := by
        rcases h3 with h | h | h | h | h
        · exact Or.inl h
        · exact Or.inr (Or.inl h)
        · exact Or.inr (Or.inr h)
        · exact absurd h hsp
        · exact absurd h hnl
      have hs : s[j]? ≠ some '\\' := by
        rcases hcl with h | h | h <;> rw [h] <;> simp
      have hc : chars[j]? ≠ some '\\' := by rw [h2.1]; simp
      rw [if_neg hs, if_neg hc]

theorem is_escaped_eq_of_masked (s chars : List Char) (hmb : MaskedBlocks s chars)
    (j : Nat) (hj : chars[j]? = s[j]?) (hsp : s[j]? ≠ some ' ')
    (hnl : s[j]? ≠ some '\n') : is_escaped chars j = is_escaped s j := by
  rw [is_escaped, is_escaped, countBackslash_eq_of_masked s chars hmb j hj hsp hnl]

theorem drop_eq_of_suffix_agree (s m : List Char) (B : Nat)
    (hag : ∀ p, B ≤ p → m[p]? = s[p]?) :
    ∀ q, B ≤ q → m.drop q = s.drop q := by
  intro q hq
  apply List.ext_getElem?
  intro n
  rw [List.getElem?_drop, List.getElem?_drop]
  exact hag (q + n) (by omega)

theorem strFind_congr (s m : List Char) (hlen : m.length = s.length) (B : Nat)
    (hag : ∀ p, B ≤ p → m[p]? = s[p]?) (pat : List Char) :
    ∀ (fuel i : Nat), B ≤ i → strFind fuel m pat i = strFind fuel s pat i := by
  intro fuel
  induction fuel with
  | zero => intro i hi; rfl
  | succ fuel ih =>
    intro i hi
    rw [strFind, strFind, hlen,
      startsWithAt, startsWithAt, drop_eq_of_suffix_agree s m B hag i hi]
    by_cases hg : i + pat.length ≤ s.length
    · rw [if_pos hg, if_pos hg]
      by_cases hs : pat.isPrefixOf (s.drop i) = true
      · rw [if_pos hs, if_pos hs]
      · rw [if_neg hs, if_neg hs]
        exact ih (i + 1) (by omega)
    · rw [if_neg hg, if_neg hg]

theorem findNextAux_congr (s m : List Char) (hlen : m.length = s.length) (B : Nat)
    (hag : ∀ p, B ≤ p → m[p]? = s[p]?) (hmb : MaskedBlocks s m) (pat : List Char)
    (hpat : ∀ j, startsWithAt s pat j = true →
      s[j]? ≠ some ' ' ∧ s[j]? ≠ some '\n') :
    ∀ (fuel i : Nat), B ≤ i → findNextAux fuel m pat i = findNextAux fuel s pat i := by
  intro fuel
  induction fuel with
  | zero => intro i hi; rfl
  | succ fuel ih =>
    intro i hi
    have hsf : strFind (m.length + 1) m pat i = strFind (s.length + 1) s pat i := by
      rw [hlen]
      exact strFind_congr s m hlen B hag pat (s.length + 1) i hi
    cases h : strFind (s.length + 1) s pat i with
    | none =>
      simp only [findNextAux, hsf.trans h, h]
    | some j =>
      have hj := strFind_some (s.length + 1) s pat i j h
      have hesc : is_escaped m j = is_escaped s j :=
        is_escaped_eq_of_masked s m hmb j (hag j (by omega)) (hpat j hj.2.2).1
          (hpat j hj.2.2).2
      simp only [findNextAux, hsf.trans h, h, hesc]
      by_cases he : is_escaped s j = true
      · rw [if_pos he, if_pos he]
        exact ih (j + pat.length) (by omega)
      · rw [if_neg he, if_neg he]

theorem dollarPat_one (s : List Char) :
    ∀ j : Nat, startsWithAt s ['$'] j = true →
      s[j]? ≠ some ' ' ∧ s[j]? ≠ some '\n' := by
  intro j hj
  rw [startsWithAt_one] at hj
  rw [hj]
  exact ⟨by simp, by simp⟩

theorem dollarPat_two (s : List Char) :
    ∀ j : Nat, startsWithAt s ['$', '$'] j = true →
      s[j]? ≠ some ' ' ∧ s[j]? ≠ some '\n' := by
  intro j hj
  rw [startsWithAt_two] at hj
  rw [hj.1]
  exact ⟨by simp, by simp⟩

theorem unterminatedOpener_transfer (s m : List Char) (hlen : m.length = s.length)
    (B : Nat) (hag : ∀ p, B ≤ p → m[p]? = s[p]?) (hmb : MaskedBlocks s m)
    (h : unterminatedOpener s B) : unterminatedOpener m B := by
  have hB : m[B]? = s[B]? := hag B (le_refl B)
  have hB1 : m[B + 1]? = s[B + 1]? := hag (B + 1) (by omega)
  have hsw1 : startsWithAt m ['\\', '('] B = startsWithAt s ['\\', '('] B := by
    rw [startsWithAt, startsWithAt, drop_eq_of_suffix_agree s m B hag B (le_refl B)]
  have hsw2 : startsWithAt m ['\\', '['] B = startsWithAt s ['\\', '['] B := by
    rw [startsWithAt, startsWithAt, drop_eq_of_suffix_agree s m B hag B (le_refl B)]
  have hdne : ∀ hd : s[B]? = some '$',
      (m[B]? = some '$' ∧ is_escaped m B = false) ↔
        (s[B]? = some '$' ∧ is_escaped s B = false) := by
    intro hd
    rw [hB, is_escaped_eq_of_masked s m hmb B hB (by rw [hd]; simp) (by rw [hd]; simp)]
  rcases h with hd | hp | hbr
  · left
    have hesc : is_escaped m B = is_escaped s B :=
      is_escaped_eq_of_masked s m hmb B hB (by rw [hd.1]; simp) (by rw [hd.1]; simp)
    refine ⟨hB.trans hd.1, hesc.trans hd.2.1, ?_⟩
    rcases hd.2.2 with ⟨hdd, hfind⟩ | ⟨hdd, hfind⟩
    · left
      refine ⟨⟨by omega, hB1.trans hdd.2⟩, ?_⟩
      rw [_find_next, hlen,
        findNextAux_congr s m hlen B hag hmb ['$', '$'] (dollarPat_two s)
          (s.length + 1) (B + 2) (by omega)]
      exact hfind
    · right
      refine ⟨fun hc => hdd ⟨by omega, hB1.symm.trans hc.2⟩, ?_⟩
      rw [_find_next, hlen,
        findNextAux_congr s m hlen B hag hmb ['$'] (dollarPat_one s)
          (s.length + 1) (B + 1) (by omega)]
      exact hfind
  · right; left
    refine ⟨?_, hsw1.trans hp.2.1, ?_⟩
    · intro hc
      have hd : s[B]? = some '$' := hB.symm.trans hc.1
      exact hp.1 ((hdne hd).1 hc)
    · rw [hlen, strFind_congr s m hlen B hag ['\\', ')'] (s.length + 1) (B + 2) (by omega)]
      exact hp.2.2
  · right; right
    refine ⟨?_, hsw1.trans hbr.2.1, hsw2.trans hbr.2.2.1, ?_⟩
    · intro hc
      have hd : s[B]? = some '$' := hB.symm.trans hc.1
      exact hbr.1 ((hdne hd).1 hc)
    · rw [hlen, strFind_congr s m hlen B hag ['\\', ']'] (s.length + 1) (B + 2) (by omega)]
      exact hbr.2.2.2

theorem mask_range_outside (chars : List Char) (a b j : Nat) (h : ¬ (a ≤ j ∧ j < b)) :
    (_mask_range chars a b)[j]? = chars[j]? := by
  rw [_mask_range_getElem?]
  cases hc : chars[j]? with
  | none => rfl
  | some c =>
    rw [Option.map_some']
    have he : (if a ≤ j ∧ j < b ∧ c ≠ '\n' then ' ' else c) = c := by
      rw [if_neg (fun hcon => h ⟨hcon.1, hcon.2.1⟩)]
    rw [he]

theorem mask_range_inside (chars : List Char) (a b j : Nat) (c : Char)
    (ha : a ≤ j) (hb : j < b) (hc : chars[j]? = some c) :
    (_mask_range chars a b)[j]? = some (if c ≠ '\n' then ' ' else c) := by
  rw [_mask_range_getElem?, hc, Option.map_some']
  by_cases hn : c ≠ '\n'
  · rw [if_pos ⟨ha, hb, hn⟩, if_pos hn]
  · rw [if_neg (fun hcon => hn hcon.2.2), if_neg hn]

theorem ag_extend (s chars : List Char) (i endp : Nat)
    (hag : ∀ j, i ≤ j → chars[j]? = s[j]?) :
    ∀ j, endp ≤ j → i ≤ j → (_mask_range chars i endp)[j]? = s[j]? := by
  intro j hj hij
  rw [mask_range_outside chars i endp j (fun hcon => by omega)]
  exact hag j hij

theorem vis_extend (s chars : List Char) (i endp : Nat)
    (hag : ∀ j, i ≤ j → chars[j]? = s[j]?)
    (hvis : ∀ p, p < i → chars[p]? = s[p]? → ¬ openerAt s p)
    (hend : endp ≤ s.length) :
    ∀ p, p < endp → (_mask_range chars i endp)[p]? = s[p]? → ¬ openerAt s p := by
  intro p hp heq
  by_cases hpi : p < i
  · rw [mask_range_outside chars i endp p (fun hcon => by omega)] at heq
    exact hvis p hpi heq
  · have hple : p < s.length := by omega
    have hsc : s[p]? = some (s[p]) := List.getElem?_eq_getElem hple
    have hcc : chars[p]? = some (s[p]) := (hag p (by omega)).trans hsc
    rw [mask_range_inside chars i endp p (s[p]) (by omega) hp hcc, hsc] at heq
    have hval : (if s[p] ≠ '\n' then ' ' else s[p]) = s[p] := Option.some.inj heq
    have hsp : s[p] = ' ' ∨ s[p] = '\n' := by
      by_cases hn : s[p] = '\n'
      · exact Or.inr hn
      · rw [if_pos hn] at hval
        exact Or.inl hval.symm
    intro hop
    rcases hop with ⟨h1, _⟩ | h2 | h3
    · rw [hsc] at h1
      have := Option.some.inj h1
      rcases hsp with h | h <;> rw [this] at h <;> exact absurd h (by decide)
    · have := ((startsWithAt_two s '\\' '(' p).1 h2).1
      rw [hsc] at this
      have h4 := Option.some.inj this
      rcases hsp with h | h <;> rw [h4] at h <;> exact absurd h (by decide)
    · have := ((startsWithAt_two s '\\' '[' p).1 h3).1
      rw [hsc] at this
      have h4 := Option.some.inj this
      rcases hsp with h | h <;> rw [h4] at h <;> exact absurd h (by decide)

theorem MaskedBlocks_extend (s chars : List Char) (i endp : Nat)
    (hag : ∀ j, i ≤ j → chars[j]? = s[j]?)
    (hmb : MaskedBlocks s chars)
    (hi : i < endp) (hend : endp ≤ s.length)
    (hopen : s[i]? = some '$' ∨ s[i]? = some '\\')
    (hclose : s[endp - 1]? = some '$' ∨ s[endp - 1]? = some ')' ∨
      s[endp - 1]? = some ']') :
    MaskedBlocks s (_mask_range chars i endp) := by
  intro p hne
  by_cases hpin : i ≤ p ∧ p < endp
  · have hple : p < s.length := by omega
    have hsc : s[p]? = some (s[p]) := List.getElem?_eq_getElem hple
    have hcc : chars[p]? = some (s[p]) := (hag p hpin.1).trans hsc
    rw [mask_range_inside chars i endp p (s[p]) hpin.1 hpin.2 hcc] at hne ⊢
    have hn : s[p] ≠ '\n' := by
      intro hcon
      apply hne
      rw [if_neg (fun hx => hx hcon), hsc]
    rw [if_pos hn] at hne ⊢
    refine ⟨rfl, ?_⟩
    intro hedge
    by_cases hlast : p + 1 = endp
    · have : endp - 1 = p := by omega
      rw [this] at hclose
      rcases hclose with h | h | h
      · exact Or.inl h
      · exact Or.inr (Or.inl h)
      · exact Or.inr (Or.inr (Or.inl h))
    · have hp1 : p + 1 < endp := by omega
      have hp1le : p + 1 < s.length := by omega
      have hsc1 : s[p + 1]? = some (s[p + 1]) := List.getElem?_eq_getElem hp1le
      have hcc1 : chars[p + 1]? = some (s[p + 1]) := (hag (p + 1) (by omega)).trans hsc1
      rw [mask_range_inside chars i endp (p + 1) (s[p + 1]) (by omega) hp1 hcc1,
        hsc1] at hedge
      have hval := Option.some.inj hedge
      by_cases hn1 : s[p + 1] = '\n'
      · exact Or.inr (Or.inr (Or.inr (Or.inr (hn1 ▸ hsc1))))
      · rw [if_pos hn1] at hval
        right; right; right; left
        rw [hsc1, ← hval]
  · rw [mask_range_outside chars i endp p hpin] at hne ⊢
    obtain ⟨hval, hedge⟩ := hmb p hne
    refine ⟨hval, ?_⟩
    intro hedge2
    by_cases hpin1 : i ≤ p + 1 ∧ p + 1 < endp
    · have hpi : p + 1 = i := by omega
      have hic : chars[i]? = s[i]? := hag i (le_refl i)
      have hilen : i < s.length := by omega
      have hsci : s[i]? = some (s[i]) := List.getElem?_eq_getElem hilen
      have hni : s[i] ≠ '\n' := by
        rcases hopen with h | h <;> rw [hsci] at h <;>
          rw [Option.some.inj h] <;> decide
      rw [hpi, mask_range_inside chars i endp i (s[i]) (le_refl i) (by omega)
        (hic.trans hsci), if_pos hni, hsci] at hedge2
      have hsp : ' ' = s[i] := Option.some.inj hedge2
      rcases hopen with h | h <;> rw [hsci] at h <;>
        rw [Option.some.inj h] at hsp <;> exact absurd hsp (by decide)
    · rw [mask_range_outside chars i endp (p + 1) hpin1] at hedge2
      exact hedge hedge2


/-- Closing shape of the scan when the cursor has reached or passed the end
of the text: the working list is already a full first-pass result. -/
theorem pass1_done (s chars : List Char) (i : Nat)
    (hlen : chars.length = s.length)
    (hmb : MaskedBlocks s chars)
    (hvis : ∀ p, p < i → chars[p]? = s[p]? → ¬ openerAt s p)
    (hge : s.length ≤ i) :
    MaskedBlocks s chars ∧
    ∃ B, B ≤ s.length ∧ (∀ p, B ≤ p → chars[p]? = s[p]?) ∧
      (∀ p, p < B → chars[p]? = s[p]? → ¬ openerAt s p) ∧
      (B = s.length ∨ unterminatedOpener s B) := by
  refine ⟨hmb, s.length, le_refl _, ?_, ?_, Or.inl rfl⟩
  · intro p hp
    rw [List.getElem?_eq_none (show chars.length ≤ p by omega),
      List.getElem?_eq_none (show s.length ≤ p by omega)]
  · intro p hp
    exact hvis p (by omega)

/-- Closing shape of the scan at an unterminated opener: the cursor
position itself is the break point. -/
theorem pass1_break (s chars : List Char) (i : Nat)
    (hag : ∀ j, i ≤ j → chars[j]? = s[j]?)
    (hmb : MaskedBlocks s chars)
    (hvis : ∀ p, p < i → chars[p]? = s[p]? → ¬ openerAt s p)
    (hi : i ≤ s.length)
    (hop : unterminatedOpener s i) :
    MaskedBlocks s chars ∧
    ∃ B, B ≤ s.length ∧ (∀ p, B ≤ p → chars[p]? = s[p]?) ∧
      (∀ p, p < B → chars[p]? = s[p]? → ¬ openerAt s p) ∧
      (B = s.length ∨ unterminatedOpener s B) :=
  ⟨hmb, i, hi, hag, hvis, Or.inr hop⟩

/-- First-pass invariant of the math-masking loop: started on a working
list that agrees with the source from the cursor on, keeps the
masked-block shape, and whose already-scanned agreement positions hold no
opener, the loop returns a list of the same kind, with a break point `B`
that is either the end of the text or an unterminated opener, full
agreement with the source from `B` on, and no opener at any agreement
position below `B`. -/
theorem maskMathAux_pass1 (fuel : Nat) :
    ∀ (s chars : List Char) (i : Nat),
      chars.length = s.length →
      (∀ j, i ≤ j → chars[j]? = s[j]?) →
      MaskedBlocks s chars →
      (∀ p, p < i → chars[p]? = s[p]? → ¬ openerAt s p) →
      s.length ≤ fuel + i →
      MaskedBlocks s (maskMathAux fuel s chars i) ∧
      ∃ B, B ≤ s.length ∧
        (∀ p, B ≤ p → (maskMathAux fuel s chars i)[p]? = s[p]?) ∧
        (∀ p, p < B → (maskMathAux fuel s chars i)[p]? = s[p]? → ¬ openerAt s p) ∧
        (B = s.length ∨ unterminatedOpener s B) := by
  induction fuel with
  | zero =>
    intro s chars i hlen hag hmb hvis hfuel
    simp only [maskMathAux]
    exact pass1_done s chars i hlen hmb hvis (by omega)
  | succ fuel ih =>
    intro s chars i hlen hag hmb hvis hfuel
    by_cases hin : i < chars.length
    · rw [maskMathAux, if_pos hin]
      by_cases hbr1 : chars[i]? = some '$' ∧ is_escaped s i = false
      · rw [if_pos hbr1]
        have hsi : s[i]? = some '$' := (hag i (le_refl i)).symm.trans hbr1.1
        by_cases hbr2 : i + 1 < chars.length ∧ chars[i + 1]? = some '$'
        · rw [if_pos hbr2]
          cases hf : _find_next s ['$', '$'] (i + 2) with
          | none =>
            simp only [hf]
            refine pass1_break s chars i hag hmb hvis (by omega) ?_
            left
            exact ⟨hsi, hbr1.2,
              Or.inl ⟨⟨by omega, (hag (i + 1) (by omega)).symm.trans hbr2.2⟩, hf⟩⟩
          | some e =>
            simp only [hf]
            have he := _find_next_some s ['$', '$'] (i + 2) e hf
            have hlen2 : e + 2 ≤ s.length := by simpa using he.2.1
            have hse := (startsWithAt_two s '$' '$' e).1 he.2.2.1
            refine ih s (_mask_range chars i (e + 2)) (e + 2) ?_ ?_ ?_ ?_ ?_
            · rw [_mask_range_length]; exact hlen
            · intro j hj
              exact ag_extend s chars i (e + 2) hag j hj (by omega)
            · exact MaskedBlocks_extend s chars i (e + 2) hag hmb (by omega) hlen2
                (Or.inl hsi) (Or.inl hse.2)
            · exact vis_extend s chars i (e + 2) hag hvis hlen2
            · have := he.1; omega
        · rw [if_neg hbr2]
          cases hf : _find_next s ['$'] (i + 1) with
          | none =>
            simp only [hf]
            refine pass1_break s chars i hag hmb hvis (by omega) ?_
            left
            refine ⟨hsi, hbr1.2, Or.inr ⟨?_, hf⟩⟩
            intro hcon
            exact hbr2 ⟨by omega, (hag (i + 1) (by omega)).trans hcon.2⟩
          | some e =>
            simp only [hf]
            have he := _find_next_some s ['$'] (i + 1) e hf
            have hlen1 : e + 1 ≤ s.length := by simpa using he.2.1
            have hse := (startsWithAt_one s '$' e).1 he.2.2.1
            refine ih s (_mask_range chars i (e + 1)) (e + 1) ?_ ?_ ?_ ?_ ?_
            · rw [_mask_range_length]; exact hlen
            · intro j hj
              exact ag_extend s chars i (e + 1) hag j hj (by omega)
            · exact MaskedBlocks_extend s chars i (e + 1) hag hmb (by omega) hlen1
                (Or.inl hsi) (Or.inl hse)
            · exact vis_extend s chars i (e + 1) hag hvis hlen1
            · have := he.1; omega
      · rw [if_neg hbr1]
        by_cases hbp : startsWithAt s ['\\', '('] i = true
        · rw [if_pos hbp]
          have hsw := (startsWithAt_two s '\\' '(' i).1 hbp
          cases hf : strFind (s.length + 1) s ['\\', ')'] (i + 2) with
          | none =>
            simp only [hf]
            refine pass1_break s chars i hag hmb hvis (by omega) ?_
            right; left
            refine ⟨?_, hbp, hf⟩
            intro hcon
            exact hbr1 ⟨(hag i (le_refl i)).trans hcon.1, hcon.2⟩
          | some e =>
            simp only [hf]
            have he := strFind_some (s.length + 1) s ['\\', ')'] (i + 2) e hf
            have hlen2 : e + 2 ≤ s.length := by simpa using he.2.1
            have hse := (startsWithAt_two s '\\' ')' e).1 he.2.2
            refine ih s (_mask_range chars i (e + 2)) (e + 2) ?_ ?_ ?_ ?_ ?_
            · rw [_mask_range_length]; exact hlen
            · intro j hj
              exact ag_extend s chars i (e + 2) hag j hj (by omega)
            · exact MaskedBlocks_extend s chars i (e + 2) hag hmb (by omega) hlen2
                (Or.inr hsw.1) (Or.inr (Or.inl hse.2))
            · exact vis_extend s chars i (e + 2) hag hvis hlen2
            · have := he.1; omega
        · rw [if_neg hbp]
          by_cases hbk : startsWithAt s ['\\', '['] i = true
          · rw [if_pos hbk]
            have hsw := (startsWithAt_two s '\\' '[' i).1 hbk
            cases hf : strFind (s.length + 1) s ['\\', ']'] (i + 2) with
            | none =>
              simp only [hf]
              refine pass1_break s chars i hag hmb hvis (by omega) ?_
              right; right
              refine ⟨?_, by simpa using hbp, hbk, hf⟩
              intro hcon
              exact hbr1 ⟨(hag i (le_refl i)).trans hcon.1, hcon.2⟩
            | some e =>
              simp only [hf]
              have he := strFind_some (s.length + 1) s ['\\', ']'] (i + 2) e hf
              have hlen2 : e + 2 ≤ s.length := by simpa using he.2.1
              have hse := (startsWithAt_two s '\\' ']' e).1 he.2.2
              refine ih s (_mask_range chars i (e + 2)) (e + 2) ?_ ?_ ?_ ?_ ?_
              · rw [_mask_range_length]; exact hlen
              · intro j hj
                exact ag_extend s chars i (e + 2) hag j hj (by omega)
              · exact MaskedBlocks_extend s chars i (e + 2) hag hmb (by omega) hlen2
                  (Or.inr hsw.1) (Or.inr (Or.inr hse.2))
              · exact vis_extend s chars i (e + 2) hag hvis hlen2
              · have := he.1; omega
          · rw [if_neg hbk]
            refine ih s chars (i + 1) hlen (fun j hj => hag j (by omega)) hmb ?_ (by omega)
            intro p hp hpe
            by_cases hpi : p < i
            · exact hvis p hpi hpe
            · have hp0 : p = i := by omega
              subst hp0
              intro hop
              rcases hop with ⟨h1, h2⟩ | h | h
              · exact hbr1 ⟨(hag p (le_refl p)).trans h1, h2⟩
              · exact hbp h
              · exact hbk h
    · rw [maskMathAux, if_neg hin]
      exact pass1_done s chars i hlen hmb hvis (by omega)

/-- The blanking loop never moves its cursor backwards. -/
theorem blankComment_start (fuel : Nat) :
    ∀ (chars : List Char) (index : Nat),
      index ≤ (blankComment fuel chars index).2 := by
  induction fuel with
  | zero => intro chars index; exact le_refl index
  | succ fuel ih =>
    intro chars index
    rw [blankComment]
    by_cases h : index < chars.length ∧ chars[index]? ≠ some '\n'
    · rw [if_pos h]
      exact le_trans (Nat.le_succ index) (ih (chars.set index ' ') (index + 1))
    · rw [if_neg h]

/-- Positions outside the blanked window are left untouched by the
blanking loop. -/
theorem blankComment_outside (fuel : Nat) :
    ∀ (chars : List Char) (index j : Nat),
      ¬(index ≤ j ∧ j < (blankComment fuel chars index).2) →
      (blankComment fuel chars index).1[j]? = chars[j]? := by
  induction fuel with
  | zero => intro chars index j hj; rfl
  | succ fuel ih =>
    intro chars index j hj
    rw [blankComment] at hj ⊢
    by_cases h : index < chars.length ∧ chars[index]? ≠ some '\n'
    · rw [if_pos h] at hj ⊢
      have hstart := blankComment_start fuel (chars.set index ' ') (index + 1)
      have hjne : index ≠ j := by
        intro hcon
        exact hj ⟨by omega, by omega⟩
      rw [ih (chars.set index ' ') (index + 1) j
          (fun hcon => hj ⟨by omega, hcon.2⟩),
        List.getElem?_set_ne hjne]
    · rw [if_neg h]

/-- Positions inside the blanked window hold a space afterwards. -/
theorem blankComment_inside (fuel : Nat) :
    ∀ (chars : List Char) (index j : Nat),
      index ≤ j → j < (blankComment fuel chars index).2 →
      (blankComment fuel chars index).1[j]? = some ' ' := by
  induction fuel with
  | zero =>
    intro chars index j hj1 hj2
    simp only [blankComment] at hj2
    exact absurd hj2 (by omega)
  | succ fuel ih =>
    intro chars index j hj1 hj2
    rw [blankComment] at hj2 ⊢
    by_cases h : index < chars.length ∧ chars[index]? ≠ some '\n'
    · rw [if_pos h] at hj2 ⊢
      by_cases hji : index = j
      · subst hji
        rw [blankComment_outside fuel (chars.set index ' ') (index + 1) index
            (fun hcon => by omega)]
        exact List.getElem?_set_self h.1
      · exact ih (chars.set index ' ') (index + 1) j (by omega) hj2
    · rw [if_neg h] at hj2
      exact absurd hj2 (by omega)

/-- The blanking loop stops inside the list. -/
theorem blankComment_stop_le (fuel : Nat) :
    ∀ (chars : List Char) (index : Nat), index ≤ chars.length →
      (blankComment fuel chars index).2 ≤ chars.length := by
  induction fuel with
  | zero => intro chars index h; exact h
  | succ fuel ih =>
    intro chars index h
    rw [blankComment]
    by_cases hc : index < chars.length ∧ chars[index]? ≠ some '\n'
    · rw [if_pos hc]
      have hres := ih (chars.set index ' ') (index + 1)
        (by rw [List.length_set]; omega)
      rw [List.length_set] at hres
      exact hres
    · rw [if_neg hc]
      exact h

/-- With enough fuel the blanking loop stops at the end of the list or on
a newline. -/
theorem blankComment_stop (fuel : Nat) :
    ∀ (chars : List Char) (index : Nat), index ≤ chars.length →
      chars.length ≤ fuel + index →
      (blankComment fuel chars index).2 = chars.length ∨
        chars[(blankComment fuel chars index).2]? = some '\n' := by
  induction fuel with
  | zero =>
    intro chars index h1 h2
    left
    show index = chars.length
    omega
  | succ fuel ih =>
    intro chars index h1 h2
    rw [blankComment]
    by_cases hc : index < chars.length ∧ chars[index]? ≠ some '\n'
    · rw [if_pos hc]
      have hres := ih (chars.set index ' ') (index + 1)
        (by rw [List.length_set]; omega) (by rw [List.length_set]; omega)
      rw [List.length_set] at hres
      rcases hres with h | h
      · exact Or.inl h
      · right
        have hstart := blankComment_start fuel (chars.set index ' ') (index + 1)
        rw [List.getElem?_set_ne (by omega)] at h
        exact h
    · rw [if_neg hc]
      by_cases hn : chars[index]? = some '\n'
      · right
        show chars[index]? = some '\n'
        exact hn
      · left
        show index = chars.length
        have : ¬ index < chars.length := fun hlt => hc ⟨hlt, hn⟩
        omega

/-- An unescaped comment sign at position `p` of `t`: the blanking trigger
of the comment-stripping loop. -/
def percAt (t : List Char) (p : Nat) : Prop :=
  t[p]? = some '%' ∧ is_escaped t p = false

/-- The stripped-block shape `strip_comments_keep_length` maintains over
the source `t`: a changed position holds a space, and right after a
blanked stretch the source either holds a newline or ends — unless the
agreement one position later is only the coincidence of a source space
with the blank. -/
def StrippedBlocks (t s : List Char) : Prop :=
  ∀ p : Nat, s[p]? ≠ t[p]? →
    s[p]? = some ' ' ∧
      (s[p + 1]? = t[p + 1]? →
        t[p + 1]? = some ' ' ∨ t[p + 1]? = some '\n' ∨ t[p + 1]? = none)

/-- Backslash runs before an agreeing non-space, non-newline, in-range
position are unchanged by comment stripping. -/
theorem countBackslash_eq_of_stripped (t s : List Char)
    (hsb : StrippedBlocks t s) :
    ∀ j : Nat, s[j]? = t[j]? → t[j]? ≠ some ' ' → t[j]? ≠ some '\n' →
      t[j]? ≠ none → countBackslash s j = countBackslash t j := by
  intro j
  induction j with
  | zero => intro _ _ _ _; rfl
  | succ j ih =>
    intro hj hsp hnl hno
    rw [countBackslash, countBackslash]
    by_cases hmask : s[j]? = t[j]?
    · by_cases hbs : t[j]? = some '\\'
      · rw [if_pos hbs, if_pos (hmask.trans hbs)]
        rw [ih hmask (by rw [hbs]; simp) (by rw [hbs]; simp) (by rw [hbs]; simp)]
      · rw [if_neg hbs, if_neg (fun hc => hbs (hmask.symm.trans hc))]
    · have h2 := hsb j hmask
      have h3 := h2.2 hj
      rcases h3 with h | h | h
      · exact absurd h hsp
      · exact absurd h hnl
      · exact absurd h hno

/-- Escapedness transfer for comment stripping. -/
theorem is_escaped_eq_of_stripped (t s : List Char) (hsb : StrippedBlocks t s)
    (j : Nat) (hj : s[j]? = t[j]?) (hsp : t[j]? ≠ some ' ')
    (hnl : t[j]? ≠ some '\n') (hno : t[j]? ≠ none) :
    is_escaped s j = is_escaped t j := by
  rw [is_escaped, is_escaped, countBackslash_eq_of_stripped t s hsb j hj hsp hnl hno]

/-- First-pass invariant of the comment-stripping loop: the result keeps
the stripped-block shape and no agreement position holds an unescaped
comment sign. -/
theorem stripAux_pass1 (fuel : Nat) :
    ∀ (t chars : List Char) (i : Nat),
      chars.length = t.length →
      (∀ j, i ≤ j → chars[j]? = t[j]?) →
      StrippedBlocks t chars →
      (∀ p, p < i → chars[p]? = t[p]? → ¬ percAt t p) →
      t.length ≤ fuel + i →
      StrippedBlocks t (stripAux fuel t chars i) ∧
      ∀ p, (stripAux fuel t chars i)[p]? = t[p]? → ¬ percAt t p := by
  induction fuel with
  | zero =>
    intro t chars i hlen hag hsb hvis hfuel
    simp only [stripAux]
    refine ⟨hsb, ?_⟩
    intro p hpe
    by_cases hp : p < i
    · exact hvis p hp hpe
    · intro hpa
      have h1 := hpa.1
      rw [List.getElem?_eq_none (show t.length ≤ p by omega)] at h1
      exact absurd h1 (by simp)
  | succ fuel ih =>
    intro t chars i hlen hag hsb hvis hfuel
    by_cases hin : i < chars.length
    · rw [stripAux, if_pos hin]
      by_cases hbr : chars[i]? = some '%' ∧ is_escaped t i = false
      · rw [if_pos hbr]
        have hstart := blankComment_start chars.length (chars.set i ' ') (i + 1)
        have hstople := blankComment_stop_le chars.length (chars.set i ' ') (i + 1)
          (by rw [List.length_set]; omega)
        have hstop0 := blankComment_stop chars.length (chars.set i ' ') (i + 1)
          (by rw [List.length_set]; omega) (by rw [List.length_set]; omega)
        rw [List.length_set] at hstople
        have hstop : (blankComment chars.length (chars.set i ' ') (i + 1)).2 =
            chars.length ∨
            chars[(blankComment chars.length (chars.set i ' ') (i + 1)).2]? =
              some '\n' := by
          rcases hstop0 with h | h
          · rw [List.length_set] at h
            exact Or.inl h
          · right
            rw [List.getElem?_set_ne (by omega)] at h
            exact h
        have hlen2 : (blankComment chars.length (chars.set i ' ') (i + 1)).1.length =
            chars.length := by
          rw [blankComment_length, List.length_set]
        have hout : ∀ j,
            ¬(i ≤ j ∧ j < (blankComment chars.length (chars.set i ' ') (i + 1)).2) →
            (blankComment chars.length (chars.set i ' ') (i + 1)).1[j]? =
              chars[j]? := by
          intro j hj
          rw [blankComment_outside chars.length (chars.set i ' ') (i + 1) j
            (fun hcon => hj ⟨by omega, hcon.2⟩)]
          exact List.getElem?_set_ne (by omega)
        have hins : ∀ j, i ≤ j →
            j < (blankComment chars.length (chars.set i ' ') (i + 1)).2 →
            (blankComment chars.length (chars.set i ' ') (i + 1)).1[j]? =
              some ' ' := by
          intro j hj1 hj2
          by_cases hji : i = j
          · subst hji
            rw [blankComment_outside chars.length (chars.set i ' ') (i + 1) i
              (by omega)]
            exact List.getElem?_set_self hin
          · exact blankComment_inside chars.length (chars.set i ' ') (i + 1) j
              (by omega) hj2
        have hti : t[i]? = some '%' := (hag i (le_refl i)).symm.trans hbr.1
        refine ih t (blankComment chars.length (chars.set i ' ') (i + 1)).1
          (blankComment chars.length (chars.set i ' ') (i + 1)).2
          (hlen2.trans hlen) ?_ ?_ ?_ (by omega)
        · intro j hj
          rw [hout j (by omega)]
          exact hag j (by omega)
        · intro p hne
          by_cases hpin : i ≤ p ∧
              p < (blankComment chars.length (chars.set i ' ') (i + 1)).2
          · have hval := hins p hpin.1 hpin.2
            refine ⟨hval, ?_⟩
            intro hedge
            by_cases hpe : p + 1 <
                (blankComment chars.length (chars.set i ' ') (i + 1)).2
            · left
              rw [← hedge, hins (p + 1) (by omega) hpe]
            · have hpe2 : p + 1 =
                  (blankComment chars.length (chars.set i ' ') (i + 1)).2 := by
                omega
              rcases hstop with h | h
              · right; right
                rw [hpe2, h]
                exact List.getElem?_eq_none (by omega)
              · right; left
                rw [hpe2, ← hag _ (by omega)]
                exact h
          · have hval := hout p hpin
            rw [hval] at hne
            obtain ⟨hv, hedge⟩ := hsb p hne
            refine ⟨hval.trans hv, ?_⟩
            intro hedge2
            by_cases hp1 : i ≤ p + 1 ∧
                p + 1 < (blankComment chars.length (chars.set i ' ') (i + 1)).2
            · have hpi : p + 1 = i := by omega
              have hc2i := hins (p + 1) hp1.1 hp1.2
              rw [hc2i, hpi, hti] at hedge2
              exact absurd (Option.some.inj hedge2) (by decide)
            · rw [hout (p + 1) hp1] at hedge2
              exact hedge hedge2
        · intro p hp hpe
          by_cases hpi : p < i
          · rw [hout p (by omega)] at hpe
            exact hvis p hpi hpe
          · rw [hins p (by omega) hp] at hpe
            intro hpa
            rw [hpa.1] at hpe
            exact absurd (Option.some.inj hpe) (by decide)
      · rw [if_neg hbr]
        refine ih t chars (i + 1) hlen (fun j hj => hag j (by omega)) hsb ?_
          (by omega)
        intro p hp hpe
        by_cases hpi : p < i
        · exact hvis p hpi hpe
        · have hp0 : p = i := by omega
          subst hp0
          intro hpa
          exact hbr ⟨(hag p (le_refl p)).trans hpa.1, hpa.2⟩
    · rw [stripAux, if_neg hin]
      refine ⟨hsb, ?_⟩
      intro p hpe
      by_cases hp : p < i
      · exact hvis p hp hpe
      · intro hpa
        have h1 := hpa.1
        rw [List.getElem?_eq_none (show t.length ≤ p by omega)] at h1
        exact absurd h1 (by simp)

/-- Stripping a text leaves the stripped-block shape over it and no
unescaped comment sign at any agreement position. -/
theorem strip_pass1_result (t : List Char) :
    StrippedBlocks t (strip_comments_keep_length t) ∧
    ∀ p, (strip_comments_keep_length t)[p]? = t[p]? → ¬ percAt t p :=
  stripAux_pass1 (t.length + 1) t t 0 rfl (fun j hj => rfl)
    (fun p hp => absurd rfl hp) (fun p hp _ => absurd hp (Nat.not_lt_zero p))
    (by omega)

/-- Masking a text leaves the masked-block shape over it together with a
break point. -/
theorem mask_pass1_result (s : List Char) :
    MaskedBlocks s (mask_math_keep_length s) ∧
    ∃ B, B ≤ s.length ∧
      (∀ p, B ≤ p → (mask_math_keep_length s)[p]? = s[p]?) ∧
      (∀ p, p < B → (mask_math_keep_length s)[p]? = s[p]? → ¬ openerAt s p) ∧
      (B = s.length ∨ unterminatedOpener s B) :=
  maskMathAux_pass1 (s.length + 1) s s 0 rfl (fun j hj => rfl)
    (fun p hp => absurd rfl hp) (fun p hp _ => absurd hp (Nat.not_lt_zero p))
    (by omega)

/-- Agreement with the source at any position whose masked character is
not a space. -/
theorem masked_agree (s m : List Char) (hmb : MaskedBlocks s m) (p : Nat)
    (c : Char) (hc : m[p]? = some c) (hne : c ≠ ' ') : m[p]? = s[p]? := by
  by_cases h : m[p]? = s[p]?
  · exact h
  · have h1 := (hmb p h).1
    rw [hc] at h1
    exact absurd (Option.some.inj h1) hne

/-- Second-pass invariant: re-scanning an already fully masked list is
the identity; the scan walks to the first pass's break point and there
either falls off the end of the list or breaks on the transferred
unterminated opener. -/
theorem maskMathAux_pass2 (fuel : Nat) :
    ∀ (s m : List Char) (i B : Nat),
      m.length = s.length →
      MaskedBlocks s m →
      (∀ p, B ≤ p → m[p]? = s[p]?) →
      (∀ p, p < B → m[p]? = s[p]? → ¬ openerAt s p) →
      i ≤ B → B ≤ s.length →
      (B = s.length ∨ unterminatedOpener s B) →
      B ≤ fuel + i →
      maskMathAux fuel m m i = m := by
  induction fuel with
  | zero =>
    intro s m i B hlen hmb hag hvis hiB hBs hbr hfuel
    rfl
  | succ fuel ih =>
    intro s m i B hlen hmb hag hvis hiB hBs hbr hfuel
    by_cases hiB2 : i = B
    · subst hiB2
      rcases hbr with h | h
      · rw [maskMathAux, if_neg (show ¬ i < m.length by omega)]
      · exact maskMathAux_break (fuel + 1) m m i rfl (fun j hj => rfl)
          (unterminatedOpener_transfer s m hlen i hag hmb h)
    · have hin : i < m.length := by omega
      rw [maskMathAux, if_pos hin]
      have hcond1 : ¬(m[i]? = some '$' ∧ is_escaped m i = false) := by
        intro hcon
        have hagi : m[i]? = s[i]? := masked_agree s m hmb i '$' hcon.1 (by decide)
        have hsi : s[i]? = some '$' := hagi.symm.trans hcon.1
        have hesc : is_escaped m i = is_escaped s i :=
          is_escaped_eq_of_masked s m hmb i hagi (by rw [hsi]; simp)
            (by rw [hsi]; simp)
        exact hvis i (by omega) hagi (Or.inl ⟨hsi, hesc.symm.trans hcon.2⟩)
      rw [if_neg hcond1]
      have hcond2 : ¬(startsWithAt m ['\\', '('] i = true) := by
        intro hsw
        have hmi := (startsWithAt_two m '\\' '(' i).1 hsw
        have hagi : m[i]? = s[i]? := masked_agree s m hmb i '\\' hmi.1 (by decide)
        have hagi1 : m[i + 1]? = s[i + 1]? :=
          masked_agree s m hmb (i + 1) '(' hmi.2 (by decide)
        have hsw2 : startsWithAt s ['\\', '('] i = true :=
          (startsWithAt_two s '\\' '(' i).2
            ⟨hagi.symm.trans hmi.1, hagi1.symm.trans hmi.2⟩
        exact hvis i (by omega) hagi (Or.inr (Or.inl hsw2))
      rw [if_neg hcond2]
      have hcond3 : ¬(startsWithAt m ['\\', '['] i = true) := by
        intro hsw
        have hmi := (startsWithAt_two m '\\' '[' i).1 hsw
        have hagi : m[i]? = s[i]? := masked_agree s m hmb i '\\' hmi.1 (by decide)
        have hagi1 : m[i + 1]? = s[i + 1]? :=
          masked_agree s m hmb (i + 1) '[' hmi.2 (by decide)
        have hsw2 : startsWithAt s ['\\', '['] i = true :=
          (startsWithAt_two s '\\' '[' i).2
            ⟨hagi.symm.trans hmi.1, hagi1.symm.trans hmi.2⟩
        exact hvis i (by omega) hagi (Or.inr (Or.inr hsw2))
      rw [if_neg hcond3]
      exact ih s m (i + 1) B hlen hmb hag hvis (by omega) hBs hbr (by omega)

/-- Masking the math of an already math-masked list changes nothing. -/
theorem mask_math_keep_length_idem (s : List Char) :
    mask_math_keep_length (mask_math_keep_length s) = mask_math_keep_length s := by
  obtain ⟨hmb, B, hB, hag, hvis, hbr⟩ := mask_pass1_result s
  have hlen : (mask_math_keep_length s).length = s.length := mask_math_length s
  show maskMathAux ((mask_math_keep_length s).length + 1) (mask_math_keep_length s)
    (mask_math_keep_length s) 0 = mask_math_keep_length s
  exact maskMathAux_pass2 ((mask_math_keep_length s).length + 1) s
    (mask_math_keep_length s) 0 B hlen hmb hag hvis (Nat.zero_le B) hB hbr
    (by omega)

/-- Every comment sign surviving the stripping pass is escaped in the
stripped text itself. -/
theorem no_unescaped_percent (t : List Char) :
    ∀ j, (strip_comments_keep_length t)[j]? = some '%' →
      is_escaped (strip_comments_keep_length t) j = true := by
  intro j hj
  obtain ⟨hsb, hnop⟩ := strip_pass1_result t
  have hagj : (strip_comments_keep_length t)[j]? = t[j]? := by
    by_cases h : (strip_comments_keep_length t)[j]? = t[j]?
    · exact h
    · have h1 := (hsb j h).1
      rw [hj] at h1
      exact absurd (Option.some.inj h1) (by decide)
  have htj : t[j]? = some '%' := hagj.symm.trans hj
  have hesc : is_escaped (strip_comments_keep_length t) j = is_escaped t j :=
    is_escaped_eq_of_stripped t _ hsb j hagj (by rw [htj]; simp)
      (by rw [htj]; simp) (by rw [htj]; simp)
  rw [hesc]
  by_cases he : is_escaped t j = true
  · exact he
  · exact absurd ⟨htj, by simpa using he⟩ (hnop j hagj)

/-- Every comment sign surviving the full masking pipeline is escaped in
the masked text itself. -/
theorem no_unescaped_percent_masked (t : List Char) :
    ∀ j, (mask_comments_and_math t)[j]? = some '%' →
      is_escaped (mask_comments_and_math t) j = true := by
  intro j hj
  obtain ⟨hmb, _⟩ := mask_pass1_result (strip_comments_keep_length t)
  rw [mask_comments_and_math] at hj ⊢
  have hagj : (mask_math_keep_length (strip_comments_keep_length t))[j]? =
      (strip_comments_keep_length t)[j]? := by
    by_cases h : (mask_math_keep_length (strip_comments_keep_length t))[j]? =
        (strip_comments_keep_length t)[j]?
    · exact h
    · have h1 := (hmb j h).1
      rw [hj] at h1
      exact absurd (Option.some.inj h1) (by decide)
  have hsj : (strip_comments_keep_length t)[j]? = some '%' := hagj.symm.trans hj
  have hesc := is_escaped_eq_of_masked (strip_comments_keep_length t) _ hmb j hagj
    (by rw [hsj]; simp) (by rw [hsj]; simp)
  rw [hesc]
  exact no_unescaped_percent t j hsj

/-- The stripping loop is the identity on a list whose every comment sign
is escaped. -/
theorem stripAux_id (fuel : Nat) :
    ∀ (m : List Char) (i : Nat),
      (∀ j, m[j]? = some '%' → is_escaped m j = true) →
      stripAux fuel m m i = m := by
  induction fuel with
  | zero => intro m i h; rfl
  | succ fuel ih =>
    intro m i h
    rw [stripAux]
    by_cases hin : i < m.length
    · have hcond : ¬(m[i]? = some '%' ∧ is_escaped m i = false) := by
        intro hcon
        have h1 := h i hcon.1
        rw [hcon.2] at h1
        exact absurd h1 (by simp)
      rw [if_pos hin, if_neg hcond]
      exact ih m (i + 1) h
    · rw [if_neg hin]

/-- Stripping a list whose every comment sign is escaped changes
nothing. -/
theorem strip_comments_keep_length_id (m : List Char)
    (h : ∀ j, m[j]? = some '%' → is_escaped m j = true) :
    strip_comments_keep_length m = m :=
  stripAux_id (m.length + 1) m 0 h

/-- C8.  Masking is idempotent: for every text,
`mask_comments_and_math (mask_comments_and_math text)` returns the same
list as `mask_comments_and_math text`. -/
theorem masking_idempotent (text : List Char) :
    mask_comments_and_math (mask_comments_and_math text) =
      mask_comments_and_math text := by
  have h1 : strip_comments_keep_length (mask_comments_and_math text) =
      mask_comments_and_math text :=
    strip_comments_keep_length_id _ (no_unescaped_percent_masked text)
  calc mask_comments_and_math (mask_comments_and_math text)
      = mask_math_keep_length
          (strip_comments_keep_length (mask_comments_and_math text)) := rfl
    _ = mask_math_keep_length (mask_comments_and_math text) := by rw [h1]
    _ = mask_comments_and_math text :=
        mask_math_keep_length_idem (strip_comments_keep_length text)

/-- Letters of the word regex `WORD_RE`: the ASCII ranges `A`-`Z`,
`a`-`z`, the contiguous Cyrillic ranges `А`-`Я` and `а`-`я` (code points
1040 through 1103) and the two yo letters (1025 and 1105). -/
def isWordLetter (c : Char) : Bool :=
  decide ((65 ≤ c.toNat ∧ c.toNat ≤ 90) ∨ (97 ≤ c.toNat ∧ c.toNat ≤ 122) ∨
    (1040 ≤ c.toNat ∧ c.toNat ≤ 1103) ∨ c.toNat = 1025 ∨ c.toNat = 1105)

/-- Python `str.isalpha` for the Latin and Cyrillic scripts this code
base processes (code block 1024 through 1279 is Unicode Cyrillic). -/
def pyAlpha (c : Char) : Bool :=
  decide ((65 ≤ c.toNat ∧ c.toNat ≤ 90) ∨ (97 ≤ c.toNat ∧ c.toNat ≤ 122) ∨
    (1024 ≤ c.toNat ∧ c.toNat ≤ 1279))

/-- No two adjacent hyphens anywhere in the list. -/
def noDoubleHyphen : List Char → Bool
  | [] => true
  | [_] => true
  | a :: b :: rest => (!(a == '-' && b == '-')) && noDoubleHyphen (b :: rest)

/-- Specification side: a word of the shape matched by `WORD_RE` — a
non-empty string of word letters and hyphens that starts and ends with a
letter and has no two adjacent hyphens. -/
def wordPattern (w : List Char) : Bool :=
  (decide (w ≠ [])) &&
  w.all (fun c => isWordLetter c || c == '-') &&
  (match w.head? with | some c => isWordLetter c | none => false) &&
  (match w.getLast? with | some c => isWordLetter c | none => false) &&
  noDoubleHyphen w

/-- End of the maximal run of word letters of `seg` starting at `i` (the
greedy `[...]+` pieces of `WORD_RE`). -/
def letterRun (fuel : Nat) (seg : List Char) (i : Nat) : Nat :=
  match fuel with
  | 0 => i
  | fuel + 1 =>
    match seg[i]? with
    | some c => if isWordLetter c then letterRun fuel seg (i + 1) else i
    | none => i

/-- Greedy extension of a word match past position `i` (just after a
letter run) over the `(?:-[...]+)*` groups of `WORD_RE`. -/
def wordEnd (fuel : Nat) (seg : List Char) (i : Nat) : Nat :=
  match fuel with
  | 0 => i
  | fuel + 1 =>
    match seg[i]?, seg[i + 1]? with
    | some c, some d =>
      if c = '-' ∧ isWordLetter d = true then
        wordEnd fuel seg (letterRun (seg.length + 1) seg (i + 1))
      else i
    | some _, none => i
    | none, _ => i

/-- The scan of `WORD_RE.finditer` over a segment: leftmost matches, each
greedy, resuming after every match. -/
def findWordsAux (fuel : Nat) (seg : List Char) (i : Nat) : List (List Char × Nat) :=
  match fuel with
  | 0 => []
  | fuel + 1 =>
    match seg[i]? with
    | none => []
    | some c =>
      if isWordLetter c then
        (slice seg i (wordEnd (seg.length + 1) seg (letterRun (seg.length + 1) seg (i + 1))), i) ::
          findWordsAux fuel seg
            (wordEnd (seg.length + 1) seg (letterRun (seg.length + 1) seg (i + 1)))
      else findWordsAux fuel seg (i + 1)

/-- All matches of `WORD_RE.finditer` over a segment, with their start
offsets. -/
def findWords (seg : List Char) : List (List Char × Nat) :=
  findWordsAux (seg.length + 1) seg 0

/-- The letters of the LaTeX keyword `begin`. -/
def beginName : List Char := ['b', 'e', 'g', 'i', 'n']

/-- The letters of the LaTeX keyword `end`. -/
def endName : List Char := ['e', 'n', 'd']

/-- The command token for `begin`, backslash included. -/
def beginTok : List Char := '\\' :: beginName

/-- The command token for `end`, backslash included. -/
def endTok : List Char := '\\' :: endName

/-- The configuration sets of `WordScanner.__init__` in `tex.py`. -/
structure ScanParams where
  ignore_envs : List (List Char)
  skip_commands : List (List Char)
  keep_commands : List (List Char)
  skip_two_args : List (List Char)
  second_arg_commands : List (List Char)

/-- The alphabetic run inside `_scan_parse_command` of `tex.py`. -/
def parseCmdRun (fuel : Nat) (text : List Char) (i : Nat) : Nat :=
  match fuel with
  | 0 => i
  | fuel + 1 =>
    match text[i]? with
    | some c => if pyAlpha c then parseCmdRun fuel text (i + 1) else i
    | none => i

/-- Embeds `_scan_parse_command` of `tex.py`: the command name after a
backslash and the position right after it. -/
def _scan_parse_command (text : List Char) (index : Nat) : List Char × Nat :=
  if text[index]? = some '\\' then
    match text[index + 1]? with
    | none => ([], index + 1)
    | some c =>
      if pyAlpha c then
        (slice text (index + 1) (parseCmdRun (text.length + 1) text (index + 1)),
          parseCmdRun (text.length + 1) text (index + 1))
      else ([c], index + 2)
  else ([], index)

/-- Embeds `_scan_skip_optional` of `tex.py`. -/
def _scan_skip_optional (text : List Char) (index : Nat) : Nat :=
  if text[_skip_whitespace text index]? = some '[' then
    match find_matching_bracket text (_skip_whitespace text index) with
    | none => _skip_whitespace text index
    | some e => e + 1
  else _skip_whitespace text index

/-- Embeds `_scan_skip_command_args` of `tex.py`, the two-iteration
argument loop unrolled. -/
def _scan_skip_command_args (text : List Char) (index : Nat) (command : List Char)
    (skip_two : List (List Char)) : Nat :=
  if text[_skip_whitespace text (_scan_skip_optional text index)]? = some lbrace then
    match find_matching_brace text (_skip_whitespace text (_scan_skip_optional text index)) with
    | none => _skip_whitespace text (_scan_skip_optional text index) + 1
    | some e =>
      if command ∈ skip_two then
        if text[_skip_whitespace text (e + 1)]? = some lbrace then
          match find_matching_brace text (_skip_whitespace text (e + 1)) with
          | none => _skip_whitespace text (e + 1) + 1
          | some e2 => e2 + 1
        else e + 1
      else e + 1
  else _skip_whitespace text (_scan_skip_optional text index)

/-- One attempted match at position `i` of the environment regex of
`_scan_skip_environment` (backslash, `begin` or `end`, whitespace, the
braced environment name): the kind and the match end. -/
def matchEnvTok (text env : List Char) (i : Nat) : Option (Bool × Nat) :=
  if startsWithAt text beginTok i then
    (if startsWithAt text (lbrace :: (env ++ [rbrace])) (_skip_whitespace text (i + 6)) then
      some (true, _skip_whitespace text (i + 6) + env.length + 2)
    else none)
  else if startsWithAt text endTok i then
    (if startsWithAt text (lbrace :: (env ++ [rbrace])) (_skip_whitespace text (i + 4)) then
      some (false, _skip_whitespace text (i + 4) + env.length + 2)
    else none)
  else none

/-- The depth loop over the matches of the environment regex inside
`_scan_skip_environment` of `tex.py`. -/
def envSkipAux (fuel : Nat) (text env : List Char) (depth : Int) (i : Nat) : Nat :=
  match fuel with
  | 0 => text.length
  | fuel + 1 =>
    if i < text.length then
      match matchEnvTok text env i with
      | some (b, e) =>
        if b then envSkipAux fuel text env (depth + 1) e
        else if depth - 1 = 0 then e
        else envSkipAux fuel text env (depth - 1) e
      | none => envSkipAux fuel text env depth (i + 1)
    else text.length

/-- Embeds `_scan_skip_environment` of `tex.py`. -/
def _scan_skip_environment (text env : List Char) (index : Nat) : Nat :=
  envSkipAux (text.length + 1) text env 1 index

/-- The loop of `_scan_skip_comment` in `tex.py`. -/
def skipCommentAux (fuel : Nat) (text : List Char) (i : Nat) : Nat :=
  match fuel with
  | 0 => i
  | fuel + 1 =>
    if i < text.length ∧ text[i]? ≠ some '\n' then skipCommentAux fuel text (i + 1)
    else i

/-- Embeds `_scan_skip_comment` of `tex.py`. -/
def _scan_skip_comment (text : List Char) (index : Nat) : Nat :=
  skipCommentAux (text.length + 1) text index

/-- Embeds `_scan_is_math_start` of `tex.py`. -/
def _scan_is_math_start (text : List Char) (index : Nat) : Bool :=
  if text[index]? = some '$' ∧ is_escaped text index = false then true
  else startsWithAt text ['\\', '('] index || startsWithAt text ['\\', '['] index

/-- Embeds `_scan_skip_math` of `tex.py`. -/
def _scan_skip_math (text : List Char) (index : Nat) : Nat :=
  if text[index]? = some '$' ∧ is_escaped text index = false then
    if text[index + 1]? = some '$' then
      match _find_next text ['$', '$'] (index + 2) with
      | some e => e + 2
      | none => text.length
    else
      match _find_next text ['$'] (index + 1) with
      | some e => e + 1
      | none => text.length
  else if startsWithAt text ['\\', '('] index then
    match strFind (text.length + 1) text ['\\', ')'] (index + 2) with
    | some e => e + 2
    | none => text.length
  else if startsWithAt text ['\\', '['] index then
    match strFind (text.length + 1) text ['\\', ']'] (index + 2) with
    | some e => e + 2
    | none => text.length
  else index + 1

/-- Embeds `_scan_skip_first_braced` of `tex.py`. -/
def _scan_skip_first_braced (text : List Char) (index : Nat) : Nat :=
  if text[_skip_whitespace text index]? = some lbrace then
    match find_matching_brace text (_skip_whitespace text index) with
    | none => _skip_whitespace text index + 1
    | some e => e + 1
  else _skip_whitespace text index

/-- The loop of `_scan_next_special` in `tex.py`. -/
def nextSpecialAux (fuel : Nat) (text : List Char) (i endp : Nat) : Nat :=
  match fuel with
  | 0 => endp
  | fuel + 1 =>
    if i < endp then
      if text[i]? = some '\\' ∨ text[i]? = some '%' ∨ text[i]? = some '$' then i
      else nextSpecialAux fuel text (i + 1) endp
    else endp

/-- Embeds `_scan_next_special` of `tex.py`. -/
def _scan_next_special (text : List Char) (index endp : Nat) : Nat :=
  nextSpecialAux (endp + 1 - index) text index endp

/-- Embeds `WordScanner._handle_begin` of `tex.py`. -/
def _handle_begin (P : ScanParams) (text : List Char) (index : Nat) : Nat :=
  if (_scan_parse_command text index).1 = beginName then
    (if text[_scan_skip_optional text (_scan_parse_command text index).2]? = some lbrace then
       match find_matching_brace text
           (_scan_skip_optional text (_scan_parse_command text index).2) with
       | none => _scan_skip_optional text (_scan_parse_command text index).2 + 1
       | some env_end =>
         if stripChars (slice text
             (_scan_skip_optional text (_scan_parse_command text index).2 + 1)
             env_end) ∈ P.ignore_envs then
           _scan_skip_environment text
             (stripChars (slice text
               (_scan_skip_optional text (_scan_parse_command text index).2 + 1)
               env_end))
             (env_end + 1)
         else env_end + 1
     else _scan_skip_optional text (_scan_parse_command text index).2)
  else index

mutual

/-- The shared tail of the command branches of `WordScanner._scan_range`:
at `i1`, an opening brace starts a recursive scan of the braced argument,
a brace with no match advances one position, anything else just moves the
cursor. -/
def scanBraced (P : ScanParams) (fuel : Nat) (text : List Char) (i1 endp : Nat) :
    List (List Char × Nat) :=
  if i1 < endp ∧ text[i1]? = some lbrace then
    match find_matching_brace text i1 with
    | none => scanRange P fuel text (i1 + 1) endp
    | some arg_end =>
      scanRange P fuel text (i1 + 1) arg_end ++
        scanRange P fuel text (arg_end + 1) endp
  else scanRange P fuel text i1 endp

/-- Embeds the generator loop of `WordScanner._scan_range` in `tex.py`:
the yielded `(word, offset)` pairs in order.  Out-of-range character
reads, which cannot happen on the ranges the scanner passes, end the
scan. -/
def scanRange (P : ScanParams) (fuel : Nat) (text : List Char) (index endp : Nat) :
    List (List Char × Nat) :=
  match fuel with
  | 0 => []
  | fuel + 1 =>
    if index < endp then
      match text[index]? with
      | none => []
      | some c =>
        if c = '%' ∧ is_escaped text index = false then
          scanRange P fuel text (_scan_skip_comment text index) endp
        else if _scan_is_math_start text index then
          scanRange P fuel text (_scan_skip_math text index) endp
        else if startsWithAt text beginTok index = true ∧
            _handle_begin P text index ≠ index then
          scanRange P fuel text (_handle_begin P text index) endp
        else if c = '\\' then
          (if (_scan_parse_command text index).1 = [] then
             scanRange P fuel text (_scan_parse_command text index).2 endp
           else if (_scan_parse_command text index).1 = beginName ∨
               (_scan_parse_command text index).1 = endName then
             scanRange P fuel text
               (_scan_skip_command_args text (_scan_parse_command text index).2
                 (_scan_parse_command text index).1 P.skip_two_args) endp
           else if (_scan_parse_command text index).1 ∈ P.skip_commands ∧
               (_scan_parse_command text index).1 ∉ P.keep_commands then
             scanRange P fuel text
               (_scan_skip_command_args text (_scan_parse_command text index).2
                 (_scan_parse_command text index).1 P.skip_two_args) endp
           else if (_scan_parse_command text index).1 ∈ P.second_arg_commands then
             scanBraced P fuel text
               (_scan_skip_first_braced text
                 (_scan_skip_optional text (_scan_parse_command text index).2)) endp
           else
             scanBraced P fuel text
               (_scan_skip_optional text (_scan_parse_command text index).2) endp)
        else
          (findWords (slice text index (_scan_next_special text index endp))).map
              (fun p => (p.1, index + p.2)) ++
            scanRange P fuel text (_scan_next_special text index endp) endp
    else []

end

/-- Embeds `WordScanner.iter_words` of `tex.py` at its default range, the
whole text (`fuel` bounds the loop steps of the embedding). -/
def iter_words (P : ScanParams) (fuel : Nat) (text : List Char) :
    List (List Char × Nat) :=
  scanRange P fuel text 0 text.length

/-- Characters of a true `startswith` read back from the pattern. -/
theorem startsWithAt_getElem (text pat : List Char) (i : Nat)
    (h : startsWithAt text pat i = true) :
    ∀ k, k < pat.length → text[i + k]? = pat[k]? := by
  intro k hk
  have hp : pat <+: text.drop i := List.isPrefixOf_iff_prefix.mp h
  have h1 : (text.drop i)[k]? = pat[k]? := by
    obtain ⟨t, ht⟩ := hp
    rw [← ht, List.getElem?_append, if_pos hk]
  rw [← h1, List.getElem?_drop]

/-- A true `startswith` fits inside the text. -/
theorem startsWithAt_le_length (text pat : List Char) (i : Nat)
    (h : startsWithAt text pat i = true) (hne : pat ≠ []) :
    i + pat.length ≤ text.length := by
  have hp : pat <+: text.drop i := List.isPrefixOf_iff_prefix.mp h
  have h2 := hp.length_le
  rw [List.length_drop] at h2
  have h3 : 0 < pat.length := List.length_pos.mpr hne
  omega

/-- The position right after a non-backslash character is never escaped. -/
theorem is_escaped_after (text : List Char) (i : Nat) (c : Char)
    (h : text[i]? = some c) (hc : c ≠ '\\') : is_escaped text (i + 1) = false := by
  rw [is_escaped, countBackslash,
    if_neg (fun hcon => hc (Option.some.inj (h.symm.trans hcon)))]
  rfl

/-- Stepping over both characters of a backslash-led pair starting at an
unescaped backslash lands unescaped again. -/
theorem is_escaped_after2 (text : List Char) (i : Nat)
    (h : text[i]? = some '\\') (he : is_escaped text i = false) :
    is_escaped text (i + 2) = false := by
  by_cases hc : text[i + 1]? = some '\\'
  · rw [is_escaped] at he ⊢
    rw [show i + 2 = (i + 1) + 1 from rfl, countBackslash, if_pos hc,
      countBackslash, if_pos h]
    rw [beq_eq_false_iff_ne] at he ⊢
    omega
  · rw [is_escaped, show i + 2 = (i + 1) + 1 from rfl, countBackslash, if_neg hc]
    rfl

/-- Positions where the scanner may run an escape-sensitive test: either
not escaped, or past the end of the text. -/
def CleanAt (text : List Char) (i : Nat) : Prop :=
  is_escaped text i = false ∨ text[i]? = none

/-- A clean position holding a backslash is not escaped. -/
theorem cleanAt_ev (text : List Char) (i : Nat) (h : CleanAt text i) :
    text[i]? = some '\\' → is_escaped text i = false := by
  intro hc
  rcases h with h | h
  · exact h
  · rw [h] at hc
    exact absurd hc (by simp)

/-- The position after a known non-backslash character is clean. -/
theorem cleanAt_of_prev (text : List Char) (i : Nat) (c : Char)
    (h : text[i]? = some c) (hc : c ≠ '\\') : CleanAt text (i + 1) :=
  Or.inl (is_escaped_after text i c h hc)

/-- Positions past the end of the text are clean. -/
theorem cleanAt_of_none (text : List Char) (i : Nat) (h : text.length ≤ i) :
    CleanAt text i :=
  Or.inr (List.getElem?_eq_none h)

/-- A successful depth scan returns a closing delimiter inside the text,
at or after the scan position. -/
theorem matchScan_some_facts (fuel : Nat) :
    ∀ (text : List Char) (oc cc : Char) (i : Nat) (d : Int) (j : Nat),
      matchScan fuel text oc cc i d = some j →
      i ≤ j ∧ j < text.length ∧ text[j]? = some cc := by
  induction fuel with
  | zero => intro text oc cc i d j h; exact absurd h (by rw [matchScan]; simp)
  | succ fuel ih =>
    intro text oc cc i d j h
    rw [matchScan] at h
    by_cases hin : i < text.length
    · rw [if_pos hin] at h
      by_cases hoc : text[i]? = some oc ∧ is_escaped text i = false
      · rw [if_pos hoc] at h
        have h2 := ih text oc cc (i + 1) (d + 1) j h
        exact ⟨by omega, h2.2⟩
      · rw [if_neg hoc] at h
        by_cases hcc : text[i]? = some cc ∧ is_escaped text i = false
        · rw [if_pos hcc] at h
          by_cases hz : d - 1 = 0
          · rw [if_pos hz] at h
            have hij : i = j := Option.some.inj h
            subst hij
            exact ⟨le_refl i, hin, hcc.1⟩
          · rw [if_neg hz] at h
            have h2 := ih text oc cc (i + 1) (d - 1) j h
            exact ⟨by omega, h2.2⟩
        · rw [if_neg hcc] at h
          have h2 := ih text oc cc (i + 1) d j h
          exact ⟨by omega, h2.2⟩
    · rw [if_neg hin] at h
      exact absurd h (by simp)

/-- A found matching brace lies strictly after its opener, inside the
text, and holds a closing brace. -/
theorem fmb_facts (text : List Char) (s e : Nat)
    (h : find_matching_brace text s = some e) :
    s < e ∧ e < text.length ∧ text[e]? = some rbrace ∧ text[s]? = some lbrace := by
  rw [find_matching_brace] at h
  by_cases hg : s < text.length ∧ text[s]? = some lbrace
  · rw [if_pos hg] at h
    have h2 := matchScan_some_facts (text.length + 1 - s) text lbrace rbrace s 0 e h
    refine ⟨?_, h2.2.1, h2.2.2, hg.2⟩
    rcases Nat.lt_or_ge s e with h3 | h3
    · exact h3
    · have hse : s = e := by omega
      subst hse
      exact absurd (Option.some.inj (hg.2.symm.trans h2.2.2)) (by decide)
  · rw [if_neg hg] at h
    exact absurd h (by simp)

/-- A found matching bracket lies strictly after its opener, inside the
text, and holds a closing bracket. -/
theorem fmbk_facts (text : List Char) (s e : Nat)
    (h : find_matching_bracket text s = some e) :
    s < e ∧ e < text.length ∧ text[e]? = some ']' ∧ text[s]? = some '[' := by
  rw [find_matching_bracket] at h
  by_cases hg : s < text.length ∧ text[s]? = some '['
  · rw [if_pos hg] at h
    have h2 := matchScan_some_facts (text.length + 1 - s) text '[' ']' s 0 e h
    refine ⟨?_, h2.2.1, h2.2.2, hg.2⟩
    rcases Nat.lt_or_ge s e with h3 | h3
    · exact h3
    · have hse : s = e := by omega
      subst hse
      exact absurd (Option.some.inj (hg.2.symm.trans h2.2.2)) (by decide)
  · rw [if_neg hg] at h
    exact absurd h (by simp)

/-- The whitespace skip never moves backwards. -/
theorem skipWsAux_ge (fuel : Nat) :
    ∀ (text : List Char) (i : Nat), i ≤ skipWsAux fuel text i := by
  induction fuel with
  | zero => intro text i; exact le_refl i
  | succ fuel ih =>
    intro text i
    rw [skipWsAux]
    by_cases h : i < text.length ∧ charSat text i isSpace = true
    · rw [if_pos h]
      exact le_trans (Nat.le_succ i) (ih text (i + 1))
    · rw [if_neg h]

/-- The whitespace skip never moves backwards. -/
theorem skipWs_ge (text : List Char) (i : Nat) : i ≤ _skip_whitespace text i :=
  skipWsAux_ge (text.length + 1) text i

/-- Whitespace characters are not the backslash. -/
theorem isSpace_ne_backslash (c : Char) (h : isSpace c = true) : c ≠ '\\' := by
  intro hcon
  subst hcon
  exact absurd h (by decide)

/-- The whitespace skip preserves cleanliness. -/
theorem skipWsAux_cleanAt (fuel : Nat) :
    ∀ (text : List Char) (i : Nat), CleanAt text i →
      CleanAt text (skipWsAux fuel text i) := by
  induction fuel with
  | zero => intro text i h; exact h
  | succ fuel ih =>
    intro text i h
    rw [skipWsAux]
    by_cases hc : i < text.length ∧ charSat text i isSpace = true
    · rw [if_pos hc]
      refine ih text (i + 1) ?_
      have h2 := hc.2
      cases hsc : text[i]? with
      | none =>
        simp only [charSat, hsc] at h2
        exact absurd h2 (by simp)
      | some c =>
        simp only [charSat, hsc] at h2
        exact cleanAt_of_prev text i c hsc (isSpace_ne_backslash c h2)
    · rw [if_neg hc]
      exact h

/-- The whitespace skip preserves cleanliness. -/
theorem skipWs_cleanAt (text : List Char) (i : Nat) (h : CleanAt text i) :
    CleanAt text (_skip_whitespace text i) :=
  skipWsAux_cleanAt (text.length + 1) text i h

/-- The command-name run never moves backwards. -/
theorem parseCmdRun_ge (fuel : Nat) :
    ∀ (text : List Char) (i : Nat), i ≤ parseCmdRun fuel text i := by
  induction fuel with
  | zero => intro text i; exact le_refl i
  | succ fuel ih =>
    intro text i
    cases hsc : text[i]? with
    | none => simp only [parseCmdRun, hsc]; exact le_refl i
    | some c =>
      simp only [parseCmdRun, hsc]
      by_cases ha : pyAlpha c = true
      · rw [if_pos ha]
        exact le_trans (Nat.le_succ i) (ih text (i + 1))
      · rw [if_neg ha]

/-- Letters are not the backslash. -/
theorem pyAlpha_ne_backslash (c : Char) (h : pyAlpha c = true) : c ≠ '\\' := by
  intro hcon
  subst hcon
  exact absurd h (by decide)

/-- The command-name run keeps a letter right before its end position. -/
theorem parseCmdRun_prev (fuel : Nat) :
    ∀ (text : List Char) (i : Nat),
      (∃ c, text[i - 1]? = some c ∧ pyAlpha c = true) → 1 ≤ i →
      (∃ d, text[parseCmdRun fuel text i - 1]? = some d ∧ pyAlpha d = true) ∧
        1 ≤ parseCmdRun fuel text i := by
  induction fuel with
  | zero => intro text i h h1; exact ⟨h, h1⟩
  | succ fuel ih =>
    intro text i h h1
    cases hsc : text[i]? with
    | none => simp only [parseCmdRun, hsc]; exact ⟨h, h1⟩
    | some c =>
      simp only [parseCmdRun, hsc]
      by_cases ha : pyAlpha c = true
      · rw [if_pos ha]
        exact ih text (i + 1) ⟨c, by simpa using hsc, ha⟩ (by omega)
      · rw [if_neg ha]
        exact ⟨h, h1⟩

/-- A command-name run started on a letter ends clean. -/
theorem parseCmdRun_cleanAt (text : List Char) (i : Nat) (c : Char)
    (hc : text[i]? = some c) (ha : pyAlpha c = true) :
    CleanAt text (parseCmdRun (text.length + 1) text i) := by
  have h1 : parseCmdRun (text.length + 1) text i = parseCmdRun text.length text (i + 1) := by
    simp only [parseCmdRun, hc, if_pos ha]
  rw [h1]
  obtain ⟨⟨d, hd, had⟩, hge⟩ := parseCmdRun_prev text.length text (i + 1)
    ⟨c, by simpa using hc, ha⟩ (by omega)
  have heq : parseCmdRun text.length text (i + 1) - 1 + 1 =
      parseCmdRun text.length text (i + 1) := by omega
  exact Or.inl (heq ▸ is_escaped_after text _ d hd (pyAlpha_ne_backslash d had))

/-- Command parsing never moves backwards. -/
theorem parse_ge (text : List Char) (index : Nat) :
    index ≤ (_scan_parse_command text index).2 := by
  rw [_scan_parse_command]
  by_cases h : text[index]? = some '\\'
  · rw [if_pos h]
    cases hc : text[index + 1]? with
    | none => exact Nat.le_succ index
    | some c =>
      simp only
      by_cases ha : pyAlpha c = true
      · rw [if_pos ha]
        exact le_trans (Nat.le_succ index) (parseCmdRun_ge (text.length + 1) text (index + 1))
      · rw [if_neg ha]
        exact le_trans (Nat.le_succ index) (Nat.le_succ (index + 1))
  · rw [if_neg h]

/-- Parsing a command at an unescaped backslash ends clean. -/
theorem parse_cleanAt (text : List Char) (index : Nat)
    (h : text[index]? = some '\\') (he : is_escaped text index = false) :
    CleanAt text (_scan_parse_command text index).2 := by
  rw [_scan_parse_command, if_pos h]
  cases hc : text[index + 1]? with
  | none =>
    simp only
    exact Or.inr hc
  | some c =>
    simp only
    by_cases ha : pyAlpha c = true
    · rw [if_pos ha]
      exact parseCmdRun_cleanAt text (index + 1) c hc ha
    · rw [if_neg ha]
      exact Or.inl (is_escaped_after2 text index h he)

/-- Optional-argument skipping never moves backwards. -/
theorem skip_optional_ge (text : List Char) (index : Nat) :
    index ≤ _scan_skip_optional text index := by
  rw [_scan_skip_optional]
  by_cases h : text[_skip_whitespace text index]? = some '['
  · rw [if_pos h]
    cases hf : find_matching_bracket text (_skip_whitespace text index) with
    | none => simp only; exact skipWs_ge text index
    | some e =>
      simp only
      have h2 := (fmbk_facts text _ e hf).1
      have h3 := skipWs_ge text index
      omega
  · rw [if_neg h]
    exact skipWs_ge text index

/-- Optional-argument skipping preserves cleanliness. -/
theorem skip_optional_cleanAt (text : List Char) (index : Nat)
    (h : CleanAt text index) : CleanAt text (_scan_skip_optional text index) := by
  rw [_scan_skip_optional]
  by_cases hb : text[_skip_whitespace text index]? = some '['
  · rw [if_pos hb]
    cases hf : find_matching_bracket text (_skip_whitespace text index) with
    | none => simp only; exact skipWs_cleanAt text index h
    | some e =>
      simp only
      exact cleanAt_of_prev text e ']' (fmbk_facts text _ e hf).2.2.1 (by decide)
  · rw [if_neg hb]
    exact skipWs_cleanAt text index h

/-- First-braced-argument skipping never moves backwards. -/
theorem skip_first_braced_ge (text : List Char) (index : Nat) :
    index ≤ _scan_skip_first_braced text index := by
  rw [_scan_skip_first_braced]
  by_cases h : text[_skip_whitespace text index]? = some lbrace
  · rw [if_pos h]
    cases hf : find_matching_brace text (_skip_whitespace text index) with
    | none =>
      simp only
      exact le_trans (skipWs_ge text index) (Nat.le_succ _)
    | some e =>
      simp only
      have h2 := (fmb_facts text _ e hf).1
      have h3 := skipWs_ge text index
      omega
  · rw [if_neg h]
    exact skipWs_ge text index

/-- First-braced-argument skipping preserves cleanliness. -/
theorem skip_first_braced_cleanAt (text : List Char) (index : Nat)
    (h : CleanAt text index) : CleanAt text (_scan_skip_first_braced text index) := by
  rw [_scan_skip_first_braced]
  by_cases hb : text[_skip_whitespace text index]? = some lbrace
  · rw [if_pos hb]
    cases hf : find_matching_brace text (_skip_whitespace text index) with
    | none =>
      simp only
      exact cleanAt_of_prev text _ lbrace hb (by decide)
    | some e =>
      simp only
      exact cleanAt_of_prev text e rbrace (fmb_facts text _ e hf).2.2.1 (by decide)
  · rw [if_neg hb]
    exact skipWs_cleanAt text index h

/-- Command-argument skipping never moves backwards. -/
theorem skip_command_args_ge (text : List Char) (index : Nat) (command : List Char)
    (skip_two : List (List Char)) :
    index ≤ _scan_skip_command_args text index command skip_two := by
  have h0 : index ≤ _skip_whitespace text (_scan_skip_optional text index) :=
    le_trans (skip_optional_ge text index) (skipWs_ge text _)
  rw [_scan_skip_command_args]
  by_cases h : text[_skip_whitespace text (_scan_skip_optional text index)]? = some lbrace
  · rw [if_pos h]
    cases hf : find_matching_brace text (_skip_whitespace text (_scan_skip_optional text index)) with
    | none => simp only; omega
    | some e =>
      simp only
      have h2 := (fmb_facts text _ e hf).1
      by_cases hc : command ∈ skip_two
      · rw [if_pos hc]
        have h3 : e + 1 ≤ _skip_whitespace text (e + 1) := skipWs_ge text (e + 1)
        by_cases hb2 : text[_skip_whitespace text (e + 1)]? = some lbrace
        · rw [if_pos hb2]
          cases hf2 : find_matching_brace text (_skip_whitespace text (e + 1)) with
          | none => simp only; omega
          | some e2 =>
            simp only
            have h4 := (fmb_facts text _ e2 hf2).1
            omega
        · rw [if_neg hb2]
          omega
      · rw [if_neg hc]
        omega
  · rw [if_neg h]
    exact h0

/-- Command-argument skipping preserves cleanliness. -/
theorem skip_command_args_cleanAt (text : List Char) (index : Nat)
    (command : List Char) (skip_two : List (List Char)) (h : CleanAt text index) :
    CleanAt text (_scan_skip_command_args text index command skip_two) := by
  have h0 : CleanAt text (_skip_whitespace text (_scan_skip_optional text index)) :=
    skipWs_cleanAt text _ (skip_optional_cleanAt text index h)
  rw [_scan_skip_command_args]
  by_cases hb : text[_skip_whitespace text (_scan_skip_optional text index)]? = some lbrace
  · rw [if_pos hb]
    cases hf : find_matching_brace text (_skip_whitespace text (_scan_skip_optional text index)) with
    | none => simp only; exact cleanAt_of_prev text _ lbrace hb (by decide)
    | some e =>
      simp only
      have hcl : CleanAt text (e + 1) :=
        cleanAt_of_prev text e rbrace (fmb_facts text _ e hf).2.2.1 (by decide)
      by_cases hc : command ∈ skip_two
      · rw [if_pos hc]
        by_cases hb2 : text[_skip_whitespace text (e + 1)]? = some lbrace
        · rw [if_pos hb2]
          cases hf2 : find_matching_brace text (_skip_whitespace text (e + 1)) with
          | none => simp only; exact cleanAt_of_prev text _ lbrace hb2 (by decide)
          | some e2 =>
            simp only
            exact cleanAt_of_prev text e2 rbrace (fmb_facts text _ e2 hf2).2.2.1 (by decide)
        · rw [if_neg hb2]
          exact hcl
      · rw [if_neg hc]
        exact hcl
  · rw [if_neg hb]
    exact h0

/-- The comment skip stays inside the text and stops at its end or on a
newline. -/
theorem skipCommentAux_facts (fuel : Nat) :
    ∀ (text : List Char) (i : Nat), i ≤ text.length → text.length ≤ fuel + i →
      i ≤ skipCommentAux fuel text i ∧
      (skipCommentAux fuel text i = text.length ∨
        text[skipCommentAux fuel text i]? = some '\n') := by
  induction fuel with
  | zero =>
    intro text i h1 h2
    refine ⟨le_refl i, Or.inl ?_⟩
    show i = text.length
    omega
  | succ fuel ih =>
    intro text i h1 h2
    rw [skipCommentAux]
    by_cases hc : i < text.length ∧ text[i]? ≠ some '\n'
    · rw [if_pos hc]
      have h3 := ih text (i + 1) (by omega) (by omega)
      exact ⟨by omega, h3.2⟩
    · rw [if_neg hc]
      refine ⟨le_refl i, ?_⟩
      by_cases hn : text[i]? = some '\n'
      · exact Or.inr hn
      · left
        have h4 : ¬ i < text.length := fun hlt => hc ⟨hlt, hn⟩
        omega

/-- The comment skip stays inside the text and stops at its end or on a
newline. -/
theorem skipComment_facts (text : List Char) (i : Nat) (h : i ≤ text.length) :
    i ≤ _scan_skip_comment text i ∧
      (_scan_skip_comment text i = text.length ∨
        text[_scan_skip_comment text i]? = some '\n') :=
  skipCommentAux_facts (text.length + 1) text i h (by omega)

/-- Skipping a math block from a math opener moves strictly forward and
lands clean. -/
theorem skipMath_facts (text : List Char) (index : Nat)
    (h : _scan_is_math_start text index = true) :
    index < _scan_skip_math text index ∧
      (text[_scan_skip_math text index]? = some '\\' →
        is_escaped text (_scan_skip_math text index) = false) := by
  rw [_scan_skip_math]
  by_cases h1 : text[index]? = some '$' ∧ is_escaped text index = false
  · rw [if_pos h1]
    have hin : index < text.length := by
      by_contra hcon
      rw [List.getElem?_eq_none (by omega)] at h1
      exact absurd h1.1 (by simp)
    by_cases h2 : text[index + 1]? = some '$'
    · rw [if_pos h2]
      cases hf : _find_next text ['$', '$'] (index + 2) with
      | none =>
        simp only
        refine ⟨hin, ?_⟩
        intro hc
        rw [List.getElem?_eq_none (le_refl _)] at hc
        exact absurd hc (by simp)
      | some e =>
        simp only
        have he := _find_next_some text ['$', '$'] (index + 2) e hf
        have h3 := (startsWithAt_two text '$' '$' e).1 he.2.2.1
        refine ⟨by have := he.1; omega, ?_⟩
        intro hc
        exact is_escaped_after text (e + 1) '$' h3.2 (by decide)
    · rw [if_neg h2]
      cases hf : _find_next text ['$'] (index + 1) with
      | none =>
        simp only
        refine ⟨hin, ?_⟩
        intro hc
        rw [List.getElem?_eq_none (le_refl _)] at hc
        exact absurd hc (by simp)
      | some e =>
        simp only
        have he := _find_next_some text ['$'] (index + 1) e hf
        have h3 := (startsWithAt_one text '$' e).1 he.2.2.1
        refine ⟨by have := he.1; omega, ?_⟩
        intro hc
        exact is_escaped_after text e '$' h3 (by decide)
  · rw [if_neg h1]
    by_cases hsw1 : startsWithAt text ['\\', '('] index = true
    · rw [if_pos hsw1]
      have hin : index + 2 ≤ text.length :=
        startsWithAt_le_length text ['\\', '('] index hsw1 (by decide)
      cases hf : strFind (text.length + 1) text ['\\', ')'] (index + 2) with
      | none =>
        simp only
        refine ⟨by omega, ?_⟩
        intro hc
        rw [List.getElem?_eq_none (le_refl _)] at hc
        exact absurd hc (by simp)
      | some e =>
        simp only
        have he := strFind_some (text.length + 1) text ['\\', ')'] (index + 2) e hf
        have h3 := (startsWithAt_two text '\\' ')' e).1 he.2.2
        refine ⟨by have := he.1; omega, ?_⟩
        intro hc
        exact is_escaped_after text (e + 1) ')' h3.2 (by decide)
    · rw [if_neg hsw1]
      by_cases hsw2 : startsWithAt text ['\\', '['] index = true
      · rw [if_pos hsw2]
        have hin : index + 2 ≤ text.length :=
          startsWithAt_le_length text ['\\', '['] index hsw2 (by decide)
        cases hf : strFind (text.length + 1) text ['\\', ']'] (index + 2) with
        | none =>
          simp only
          refine ⟨by omega, ?_⟩
          intro hc
          rw [List.getElem?_eq_none (le_refl _)] at hc
          exact absurd hc (by simp)
        | some e =>
          simp only
          have he := strFind_some (text.length + 1) text ['\\', ']'] (index + 2) e hf
          have h3 := (startsWithAt_two text '\\' ']' e).1 he.2.2
          refine ⟨by have := he.1; omega, ?_⟩
          intro hc
          exact is_escaped_after text (e + 1) ']' h3.2 (by decide)
      · rw [if_neg hsw2]
        rw [_scan_is_math_start, if_neg h1] at h
        rcases Bool.or_eq_true_iff.mp h with hcon | hcon
        · exact absurd hcon hsw1
        · exact absurd hcon hsw2

/-- The closing brace read off a matched environment-token tail. -/
theorem envPat_last (env : List Char) :
    (lbrace :: (env ++ [rbrace]))[env.length + 1]? = some rbrace := by
  rw [List.getElem?_cons_succ, List.getElem?_append, if_neg (lt_irrefl env.length),
    Nat.sub_self]
  rfl

/-- A matched environment token ends strictly after its start, inside the
text, and right after a closing brace. -/
theorem matchEnvTok_facts (text env : List Char) (i : Nat) (b : Bool) (e : Nat)
    (h : matchEnvTok text env i = some (b, e)) :
    i < e ∧ e ≤ text.length ∧
      (text[e]? = some '\\' → is_escaped text e = false) := by
  rw [matchEnvTok] at h
  by_cases hb : startsWithAt text beginTok i = true
  · rw [if_pos hb] at h
    by_cases ht : startsWithAt text (lbrace :: (env ++ [rbrace]))
        (_skip_whitespace text (i + 6)) = true
    · rw [if_pos ht] at h
      have h2 := Option.some.inj h
      have he : _skip_whitespace text (i + 6) + env.length + 2 = e :=
        congrArg Prod.snd h2
      have hws := skipWs_ge text (i + 6)
      have hlen := startsWithAt_le_length text (lbrace :: (env ++ [rbrace]))
        (_skip_whitespace text (i + 6)) ht (by simp)
      have hlast := startsWithAt_getElem text (lbrace :: (env ++ [rbrace]))
        (_skip_whitespace text (i + 6)) ht (env.length + 1) (by simp)
      rw [envPat_last] at hlast
      refine ⟨by omega, ?_, ?_⟩
      · simp only [List.length_cons, List.length_append, List.length_singleton] at hlen
        omega
      · intro hc
        rw [← he]
        have h3 := is_escaped_after text (_skip_whitespace text (i + 6) + env.length + 1)
          rbrace (by
            have h4 : _skip_whitespace text (i + 6) + (env.length + 1) =
                _skip_whitespace text (i + 6) + env.length + 1 := by omega
            rw [← h4]
            exact hlast) (by decide)
        exact h3
    · rw [if_neg ht] at h
      exact absurd h (by simp)
  · rw [if_neg hb] at h
    by_cases hb2 : startsWithAt text endTok i = true
    · rw [if_pos hb2] at h
      by_cases ht : startsWithAt text (lbrace :: (env ++ [rbrace]))
          (_skip_whitespace text (i + 4)) = true
      · rw [if_pos ht] at h
        have h2 := Option.some.inj h
        have he : _skip_whitespace text (i + 4) + env.length + 2 = e :=
          congrArg Prod.snd h2
        have hws := skipWs_ge text (i + 4)
        have hlen := startsWithAt_le_length text (lbrace :: (env ++ [rbrace]))
          (_skip_whitespace text (i + 4)) ht (by simp)
        have hlast := startsWithAt_getElem text (lbrace :: (env ++ [rbrace]))
          (_skip_whitespace text (i + 4)) ht (env.length + 1) (by simp)
        rw [envPat_last] at hlast
        refine ⟨by omega, ?_, ?_⟩
        · simp only [List.length_cons, List.length_append, List.length_singleton] at hlen
          omega
        · intro hc
          rw [← he]
          have h3 := is_escaped_after text (_skip_whitespace text (i + 4) + env.length + 1)
            rbrace (by
              have h4 : _skip_whitespace text (i + 4) + (env.length + 1) =
                  _skip_whitespace text (i + 4) + env.length + 1 := by omega
              rw [← h4]
              exact hlast) (by decide)
          exact h3
      · rw [if_neg ht] at h
        exact absurd h (by simp)
    · rw [if_neg hb2] at h
      exact absurd h (by simp)

/-- The environment-skip loop stays inside the text, never moves
backwards and lands clean. -/
theorem envSkipAux_facts (fuel : Nat) :
    ∀ (text env : List Char) (d : Int) (i : Nat), i ≤ text.length →
      i ≤ envSkipAux fuel text env d i ∧
      envSkipAux fuel text env d i ≤ text.length ∧
      (text[envSkipAux fuel text env d i]? = some '\\' →
        is_escaped text (envSkipAux fuel text env d i) = false) := by
  induction fuel with
  | zero =>
    intro text env d i h1
    simp only [envSkipAux]
    refine ⟨h1, le_refl _, ?_⟩
    intro hc
    rw [List.getElem?_eq_none (le_refl _)] at hc
    exact absurd hc (by simp)
  | succ fuel ih =>
    intro text env d i h1
    rw [envSkipAux]
    by_cases hin : i < text.length
    · rw [if_pos hin]
      cases hm : matchEnvTok text env i with
      | none =>
        simp only
        have h2 := ih text env d (i + 1) (by omega)
        exact ⟨by omega, h2.2⟩
      | some be =>
        obtain ⟨b, e⟩ := be
        simp only
        have hmf := matchEnvTok_facts text env i b e hm
        by_cases hbn : b = true
        · rw [if_pos hbn]
          have h2 := ih text env (d + 1) e hmf.2.1
          exact ⟨by omega, h2.2⟩
        · rw [if_neg hbn]
          by_cases hz : d - 1 = 0
          · rw [if_pos hz]
            exact ⟨by omega, hmf.2.1, hmf.2.2⟩
          · rw [if_neg hz]
            have h2 := ih text env (d - 1) e hmf.2.1
            exact ⟨by omega, h2.2⟩
    · rw [if_neg hin]
      refine ⟨by omega, le_refl _, ?_⟩
      intro hc
      rw [List.getElem?_eq_none (le_refl _)] at hc
      exact absurd hc (by simp)

/-- Environment skipping stays inside the text, never moves backwards and
lands clean. -/
theorem skip_environment_facts (text env : List Char) (i : Nat)
    (h : i ≤ text.length) :
    i ≤ _scan_skip_environment text env i ∧
      _scan_skip_environment text env i ≤ text.length ∧
      (text[_scan_skip_environment text env i]? = some '\\' →
        is_escaped text (_scan_skip_environment text env i) = false) :=
  envSkipAux_facts (text.length + 1) text env 1 i h

/-- Handling a `begin` token never moves backwards and lands clean. -/
theorem handleBegin_facts (P : ScanParams) (text : List Char) (index : Nat)
    (h : text[index]? = some '\\') (he : is_escaped text index = false) :
    index ≤ _handle_begin P text index ∧
      (text[_handle_begin P text index]? = some '\\' →
        is_escaped text (_handle_begin P text index) = false) := by
  rw [_handle_begin]
  by_cases hb : (_scan_parse_command text index).1 = beginName
  · rw [if_pos hb]
    have hge : index ≤ _scan_skip_optional text (_scan_parse_command text index).2 :=
      le_trans (parse_ge text index) (skip_optional_ge text _)
    have hclean : CleanAt text (_scan_skip_optional text (_scan_parse_command text index).2) :=
      skip_optional_cleanAt text _ (parse_cleanAt text index h he)
    by_cases hbr : text[_scan_skip_optional text (_scan_parse_command text index).2]? =
        some lbrace
    · rw [if_pos hbr]
      cases hf : find_matching_brace text
          (_scan_skip_optional text (_scan_parse_command text index).2) with
      | none =>
        simp only
        exact ⟨by omega, cleanAt_ev text _ (cleanAt_of_prev text _ lbrace hbr (by decide))⟩
      | some env_end =>
        simp only
        have hff := fmb_facts text _ env_end hf
        by_cases hig : stripChars (slice text
            (_scan_skip_optional text (_scan_parse_command text index).2 + 1)
            env_end) ∈ P.ignore_envs
        · rw [if_pos hig]
          have h2 := skip_environment_facts text
            (stripChars (slice text
              (_scan_skip_optional text (_scan_parse_command text index).2 + 1)
              env_end)) (env_end + 1) (by omega)
          exact ⟨by omega, h2.2.2⟩
        · rw [if_neg hig]
          exact ⟨by omega,
            cleanAt_ev text _ (cleanAt_of_prev text env_end rbrace hff.2.2.1 (by decide))⟩
    · rw [if_neg hbr]
      exact ⟨hge, cleanAt_ev text _ hclean⟩
  · rw [if_neg hb]
    exact ⟨le_refl index, fun _ => he⟩

/-- The special-character search: its result lies between the cursor and
the range end, nothing before it is special, and cleanliness transfers
from the cursor. -/
theorem nextSpecialAux_facts (fuel : Nat) :
    ∀ (text : List Char) (i endp : Nat), endp ≤ fuel + i →
      i ≤ endp →
      i ≤ nextSpecialAux fuel text i endp ∧
      nextSpecialAux fuel text i endp ≤ endp ∧
      (∀ k, i ≤ k → k < nextSpecialAux fuel text i endp →
        ¬(text[k]? = some '\\' ∨ text[k]? = some '%' ∨ text[k]? = some '$')) := by
  induction fuel with
  | zero =>
    intro text i endp h1 h2
    have : i = endp := by omega
    subst this
    exact ⟨le_refl _, le_refl _, fun k hk1 hk2 => absurd (lt_of_le_of_lt hk1 hk2)
      (lt_irrefl _)⟩
  | succ fuel ih =>
    intro text i endp h1 h2
    rw [nextSpecialAux]
    by_cases hin : i < endp
    · rw [if_pos hin]
      by_cases hsp : text[i]? = some '\\' ∨ text[i]? = some '%' ∨ text[i]? = some '$'
      · rw [if_pos hsp]
        exact ⟨le_refl i, by omega, fun k hk1 hk2 => absurd (lt_of_le_of_lt hk1 hk2)
          (lt_irrefl _)⟩
      · rw [if_neg hsp]
        have h3 := ih text (i + 1) endp (by omega) (by omega)
        refine ⟨by omega, h3.2.1, ?_⟩
        intro k hk1 hk2
        by_cases hki : k = i
        · subst hki
          exact hsp
        · exact h3.2.2 k (by omega) hk2
    · rw [if_neg hin]
      exact ⟨by omega, le_refl _, fun k hk1 hk2 => by omega⟩

/-- The special-character search: result bounds and emptiness of the
scanned stretch. -/
theorem nextSpecial_facts (text : List Char) (i endp : Nat) (h : i ≤ endp) :
    i ≤ _scan_next_special text i endp ∧
      _scan_next_special text i endp ≤ endp ∧
      (∀ k, i ≤ k → k < _scan_next_special text i endp →
        ¬(text[k]? = some '\\' ∨ text[k]? = some '%' ∨ text[k]? = some '$')) :=
  nextSpecialAux_facts (endp + 1 - i) text i endp (by omega) h

/-- The character at the landing point of the special-character search,
when inside the range, is special. -/
theorem nextSpecialAux_land (fuel : Nat) :
    ∀ (text : List Char) (i endp : Nat),
      nextSpecialAux fuel text i endp < endp →
      text[nextSpecialAux fuel text i endp]? = some '\\' ∨
        text[nextSpecialAux fuel text i endp]? = some '%' ∨
        text[nextSpecialAux fuel text i endp]? = some '$' := by
  induction fuel with
  | zero =>
    intro text i endp hlt
    rw [nextSpecialAux] at hlt
    exact absurd hlt (lt_irrefl _)
  | succ fuel ih =>
    intro text i endp hlt
    rw [nextSpecialAux] at hlt ⊢
    by_cases hin : i < endp
    · rw [if_pos hin] at hlt ⊢
      by_cases hsp : text[i]? = some '\\' ∨ text[i]? = some '%' ∨ text[i]? = some '$'
      · rw [if_pos hsp] at hlt ⊢
        exact hsp
      · rw [if_neg hsp] at hlt ⊢
        exact ih text (i + 1) endp hlt
    · rw [if_neg hin] at hlt
      exact absurd hlt (lt_irrefl _)

/-- A position that reads back a character is inside the list. -/
theorem getElem?_lt (l : List Char) (i : Nat) (c : Char) (h : l[i]? = some c) :
    i < l.length := by
  by_contra hcon
  rw [List.getElem?_eq_none (by omega)] at h
  exact absurd h (by simp)

/-- Entries of a Python slice. -/
theorem slice_getElem? (text : List Char) (a b k : Nat) :
    (slice text a b)[k]? = if k < b - a then text[a + k]? else none := by
  rw [slice, List.getElem?_take]
  by_cases h : k < b - a
  · rw [if_pos h, if_pos h, List.getElem?_drop]
  · rw [if_neg h, if_neg h]

/-- Length of a Python slice. -/
theorem slice_length (text : List Char) (a b : Nat) :
    (slice text a b).length = min (b - a) (text.length - a) := by
  rw [slice, List.length_take, List.length_drop]

/-- The letter run never moves backwards. -/
theorem letterRun_ge (fuel : Nat) :
    ∀ (seg : List Char) (i : Nat), i ≤ letterRun fuel seg i := by
  induction fuel with
  | zero => intro seg i; exact le_refl i
  | succ fuel ih =>
    intro seg i
    cases hsc : seg[i]? with
    | none => simp only [letterRun, hsc]; exact le_refl i
    | some c =>
      simp only [letterRun, hsc]
      by_cases ha : isWordLetter c = true
      · rw [if_pos ha]
        exact le_trans (Nat.le_succ i) (ih seg (i + 1))
      · rw [if_neg ha]

/-- The letter run stays inside the segment. -/
theorem letterRun_le (fuel : Nat) :
    ∀ (seg : List Char) (i : Nat), i ≤ seg.length → letterRun fuel seg i ≤ seg.length := by
  induction fuel with
  | zero => intro seg i h; exact h
  | succ fuel ih =>
    intro seg i h
    cases hsc : seg[i]? with
    | none => simp only [letterRun, hsc]; exact h
    | some c =>
      simp only [letterRun, hsc]
      by_cases ha : isWordLetter c = true
      · rw [if_pos ha]
        exact ih seg (i + 1) (getElem?_lt seg i c hsc)
      · rw [if_neg ha]
        exact h

/-- Every position passed by the letter run holds a word letter. -/
theorem letterRun_letters (fuel : Nat) :
    ∀ (seg : List Char) (i k : Nat), i ≤ k → k < letterRun fuel seg i →
      ∃ c, seg[k]? = some c ∧ isWordLetter c = true := by
  induction fuel with
  | zero =>
    intro seg i k h1 h2
    rw [letterRun] at h2
    exact absurd h2 (by omega)
  | succ fuel ih =>
    intro seg i k h1 h2
    cases hsc : seg[i]? with
    | none =>
      simp only [letterRun, hsc] at h2
      exact absurd h2 (by omega)
    | some c =>
      simp only [letterRun, hsc] at h2
      by_cases ha : isWordLetter c = true
      · rw [if_pos ha] at h2
        by_cases hk : k = i
        · subst hk; exact ⟨c, hsc, ha⟩
        · exact ih seg (i + 1) k (by omega) h2
      · rw [if_neg ha] at h2
        exact absurd h2 (by omega)

/-- The word-extension scan never moves backwards. -/
theorem wordEnd_ge (fuel : Nat) :
    ∀ (seg : List Char) (i : Nat), i ≤ wordEnd fuel seg i := by
  induction fuel with
  | zero => intro seg i; exact le_refl i
  | succ fuel ih =>
    intro seg i
    cases hsc : seg[i]? with
    | none => simp only [wordEnd, hsc]; exact le_refl i
    | some c =>
      cases hsc2 : seg[i + 1]? with
      | none => simp only [wordEnd, hsc, hsc2]; exact le_refl i
      | some d =>
        simp only [wordEnd, hsc, hsc2]
        by_cases hg : c = '-' ∧ isWordLetter d = true
        · rw [if_pos hg]
          exact le_trans (le_trans (Nat.le_succ i)
            (letterRun_ge (seg.length + 1) seg (i + 1))) (ih seg _)
        · rw [if_neg hg]

/-- The word-extension scan stays inside the segment. -/
theorem wordEnd_le (fuel : Nat) :
    ∀ (seg : List Char) (i : Nat), i ≤ seg.length → wordEnd fuel seg i ≤ seg.length := by
  induction fuel with
  | zero => intro seg i h; exact h
  | succ fuel ih =>
    intro seg i h
    cases hsc : seg[i]? with
    | none => simp only [wordEnd, hsc]; exact h
    | some c =>
      cases hsc2 : seg[i + 1]? with
      | none => simp only [wordEnd, hsc, hsc2]; exact h
      | some d =>
        simp only [wordEnd, hsc, hsc2]
        by_cases hg : c = '-' ∧ isWordLetter d = true
        · rw [if_pos hg]
          exact ih seg _ (letterRun_le (seg.length + 1) seg (i + 1)
            (le_of_lt (getElem?_lt seg (i + 1) d hsc2)))
        · rw [if_neg hg]
          exact h

/-- The shape invariant of a partial word match of `WORD_RE`: the matched
stretch `[st, i)` is non-empty, starts and ends with a letter, holds only
letters and hyphens, and has no two adjacent hyphens. -/
def wordInv (seg : List Char) (st i : Nat) : Prop :=
  st < i ∧
  (∃ c, seg[st]? = some c ∧ isWordLetter c = true) ∧
  (∀ k, st ≤ k → k < i → ∃ c, seg[k]? = some c ∧ (isWordLetter c = true ∨ c = '-')) ∧
  (∃ c, seg[i - 1]? = some c ∧ isWordLetter c = true) ∧
  (∀ k, st ≤ k → k + 1 < i → ¬(seg[k]? = some '-' ∧ seg[k + 1]? = some '-'))

/-- The word-extension scan preserves the word-shape invariant. -/
theorem wordEnd_inv (fuel : Nat) :
    ∀ (seg : List Char) (st i : Nat), wordInv seg st i →
      wordInv seg st (wordEnd fuel seg i) := by
  induction fuel with
  | zero => intro seg st i h; exact h
  | succ fuel ih =>
    intro seg st i h
    cases hsc : seg[i]? with
    | none => simp only [wordEnd, hsc]; exact h
    | some c =>
      cases hsc2 : seg[i + 1]? with
      | none => simp only [wordEnd, hsc, hsc2]; exact h
      | some d =>
        simp only [wordEnd, hsc, hsc2]
        by_cases hg : c = '-' ∧ isWordLetter d = true
        · rw [if_pos hg]
          refine ih seg st _ ?_
          obtain ⟨h1, hfirst, hchars, hlast, hnd⟩ := h
          have hr1 : i + 2 ≤ letterRun (seg.length + 1) seg (i + 1) := by
            have heq : letterRun (seg.length + 1) seg (i + 1) =
                letterRun seg.length seg (i + 2) := by
              simp only [letterRun, hsc2, if_pos hg.2]
            rw [heq]
            exact letterRun_ge seg.length seg (i + 2)
          have hlet : ∀ k, i + 1 ≤ k → k < letterRun (seg.length + 1) seg (i + 1) →
              ∃ e, seg[k]? = some e ∧ isWordLetter e = true :=
            letterRun_letters (seg.length + 1) seg (i + 1)
          have hhyph : seg[i]? = some '-' := by rw [hsc, hg.1]
          refine ⟨by omega, hfirst, ?_, ?_, ?_⟩
          · intro k hk1 hk2
            by_cases hki : k < i
            · exact hchars k hk1 hki
            · by_cases hke : k = i
              · subst hke
                exact ⟨'-', hhyph, Or.inr rfl⟩
              · obtain ⟨e, he1, he2⟩ := hlet k (by omega) hk2
                exact ⟨e, he1, Or.inl he2⟩
          · obtain ⟨e, he1, he2⟩ := hlet (letterRun (seg.length + 1) seg (i + 1) - 1)
              (by omega) (by omega)
            exact ⟨e, he1, he2⟩
          · intro k hk1 hk2
            intro hcon
            by_cases hka : k + 1 < i
            · exact hnd k hk1 hka hcon
            · by_cases hkb : k + 1 = i
              · obtain ⟨e, he1, he2⟩ := hlast
                have hke : k = i - 1 := by omega
                rw [hke] at hcon
                rw [he1] at hcon
                have : e = '-' := Option.some.inj hcon.1
                rw [this] at he2
                exact absurd he2 (by decide)
              · have hkc : i + 1 ≤ k + 1 := by omega
                obtain ⟨e, he1, he2⟩ := hlet (k + 1) hkc hk2
                rw [he1] at hcon
                have : e = '-' := Option.some.inj hcon.2
                rw [this] at he2
                exact absurd he2 (by decide)
        · rw [if_neg hg]
          exact h

/-- The facts about a single greedy word match at a letter position. -/
theorem matchWord_facts (seg : List Char) (i : Nat) (c : Char)
    (hc : seg[i]? = some c) (hl : isWordLetter c = true) :
    i < wordEnd (seg.length + 1) seg (letterRun (seg.length + 1) seg (i + 1)) ∧
    wordEnd (seg.length + 1) seg (letterRun (seg.length + 1) seg (i + 1)) ≤ seg.length ∧
    wordInv seg i (wordEnd (seg.length + 1) seg (letterRun (seg.length + 1) seg (i + 1))) := by
  have hi : i < seg.length := getElem?_lt seg i c hc
  have hr0ge : i + 1 ≤ letterRun (seg.length + 1) seg (i + 1) :=
    letterRun_ge (seg.length + 1) seg (i + 1)
  have hr0le : letterRun (seg.length + 1) seg (i + 1) ≤ seg.length :=
    letterRun_le (seg.length + 1) seg (i + 1) (by omega)
  have hlet : ∀ k, i + 1 ≤ k → k < letterRun (seg.length + 1) seg (i + 1) →
      ∃ e, seg[k]? = some e ∧ isWordLetter e = true :=
    letterRun_letters (seg.length + 1) seg (i + 1)
  have hletters : ∀ k, i ≤ k → k < letterRun (seg.length + 1) seg (i + 1) →
      ∃ e, seg[k]? = some e ∧ isWordLetter e = true := by
    intro k hk1 hk2
    by_cases hki : k = i
    · subst hki; exact ⟨c, hc, hl⟩
    · exact hlet k (by omega) hk2
  have hinv0 : wordInv seg i (letterRun (seg.length + 1) seg (i + 1)) := by
    refine ⟨by omega, ⟨c, hc, hl⟩, ?_, ?_, ?_⟩
    · intro k hk1 hk2
      obtain ⟨e, he1, he2⟩ := hletters k hk1 hk2
      exact ⟨e, he1, Or.inl he2⟩
    · exact hletters (letterRun (seg.length + 1) seg (i + 1) - 1) (by omega) (by omega)
    · intro k hk1 hk2 hcon
      obtain ⟨e, he1, he2⟩ := hletters k hk1 (by omega)
      rw [he1] at hcon
      have : e = '-' := Option.some.inj hcon.1
      rw [this] at he2
      exact absurd he2 (by decide)
  have hinv := wordEnd_inv (seg.length + 1) seg i
    (letterRun (seg.length + 1) seg (i + 1)) hinv0
  have hge := wordEnd_ge (seg.length + 1) seg (letterRun (seg.length + 1) seg (i + 1))
  exact ⟨by have := hinv.1; omega, wordEnd_le (seg.length + 1) seg _ hr0le, hinv⟩

/-- The entrywise reading of the adjacent-hyphen test. -/
theorem noDoubleHyphen_iff (w : List Char) :
    noDoubleHyphen w = true ↔
      ∀ k, k + 1 < w.length → ¬(w[k]? = some '-' ∧ w[k + 1]? = some '-') := by
  induction w with
  | nil => simp [noDoubleHyphen]
  | cons a rest ih =>
    cases rest with
    | nil =>
      simp only [noDoubleHyphen, List.length_cons, List.length_nil]
      constructor
      · intro _ k hk
        omega
      · intro _
        trivial
    | cons b rest2 =>
      rw [noDoubleHyphen, Bool.and_eq_true, ih]
      constructor
      · rintro ⟨h1, h2⟩ k hk
        cases k with
        | zero =>
          intro hcon
          simp only [List.getElem?_cons_zero, List.getElem?_cons_succ] at hcon
          have ha : a = '-' := Option.some.inj hcon.1
          have hb : b = '-' := Option.some.inj hcon.2
          rw [ha, hb] at h1
          exact absurd h1 (by decide)
        | succ k =>
          have hk2 : k + 1 < (b :: rest2).length := by
            simp only [List.length_cons] at hk ⊢
            omega
          have h3 := h2 k hk2
          simp only [List.getElem?_cons_succ] at h3
          intro hcon
          simp only [List.getElem?_cons_succ] at hcon
          exact h3 hcon
      · intro h
        constructor
        · have h0 := h 0 (by simp only [List.length_cons]; omega)
          simp only [List.getElem?_cons_zero, List.getElem?_cons_succ] at h0
          by_cases ha : a = '-'
          · by_cases hb : b = '-'
            · exact absurd ⟨by rw [ha], by rw [hb]⟩ h0
            · simp [hb]
          · simp [ha]
        · intro k hk
          have hk2 : (k + 1) + 1 < (a :: b :: rest2).length := by
            simp only [List.length_cons] at hk ⊢
            omega
          have h3 := h (k + 1) hk2
          simp only [List.getElem?_cons_succ] at h3
          simp only [List.getElem?_cons_succ]
          exact h3

/-- A stretch with the word-shape invariant slices to a `WORD_RE` word. -/
theorem wordPattern_slice (seg : List Char) (st e : Nat) (hinv : wordInv seg st e)
    (hle : e ≤ seg.length) : wordPattern (slice seg st e) = true := by
  obtain ⟨h1, ⟨cf, hcf, hcfl⟩, hchars, ⟨cl, hcl, hcll⟩, hnd⟩ := hinv
  have hlen : (slice seg st e).length = e - st := by
    rw [slice_length]
    omega
  have hget : ∀ k, k < e - st → (slice seg st e)[k]? = seg[st + k]? := by
    intro k hk
    rw [slice_getElem?, if_pos hk]
  rw [wordPattern]
  simp only [Bool.and_eq_true]
  refine ⟨⟨⟨⟨?_, ?_⟩, ?_⟩, ?_⟩, ?_⟩
  · rw [decide_eq_true_eq]
    intro hc
    rw [hc] at hlen
    simp only [List.length_nil] at hlen
    omega
  · rw [List.all_eq_true]
    intro x hx
    obtain ⟨n, hn, hx2⟩ := List.mem_iff_getElem.mp hx
    rw [hlen] at hn
    have h2 : (slice seg st e)[n]? = some x := by
      rw [List.getElem?_eq_getElem (by rw [hlen]; omega), hx2]
    rw [hget n hn] at h2
    obtain ⟨c, hc1, hc2⟩ := hchars (st + n) (by omega) (by omega)
    have hxc : x = c := Option.some.inj (h2.symm.trans hc1)
    subst hxc
    rcases hc2 with h3 | h3
    · rw [h3]
      rfl
    · rw [h3]
      rfl
  · rw [List.head?_eq_getElem?, hget 0 (by omega), Nat.add_zero, hcf]
    exact hcfl
  · rw [List.getLast?_eq_getElem?, hlen, hget (e - st - 1) (by omega)]
    have harith : st + (e - st - 1) = e - 1 := by omega
    rw [harith, hcl]
    exact hcll
  · rw [noDoubleHyphen_iff]
    intro k hk
    rw [hlen] at hk
    rw [hget k (by omega), hget (k + 1) (by omega)]
    have harith : st + (k + 1) = (st + k) + 1 := by omega
    rw [harith]
    exact hnd (st + k) (by omega) (by omega)

/-- The word scan of a segment: every yielded pair carries its own start
offset and a `WORD_RE`-shaped slice of the segment, and matches come in
order, each starting at or after the previous match's end. -/
theorem findWordsAux_spec (fuel : Nat) :
    ∀ (seg : List Char) (i : Nat),
      (∀ p ∈ findWordsAux fuel seg i,
        i ≤ p.2 ∧ p.2 + p.1.length ≤ seg.length ∧
        p.1 = slice seg p.2 (p.2 + p.1.length) ∧ wordPattern p.1 = true) ∧
      (findWordsAux fuel seg i).Pairwise (fun a b => a.2 + a.1.length ≤ b.2) := by
  induction fuel with
  | zero =>
    intro seg i
    rw [findWordsAux]
    exact ⟨fun p hp => absurd hp (List.not_mem_nil p), List.Pairwise.nil⟩
  | succ fuel ih =>
    intro seg i
    cases hsc : seg[i]? with
    | none =>
      simp only [findWordsAux, hsc]
      exact ⟨fun p hp => absurd hp (List.not_mem_nil p), List.Pairwise.nil⟩
    | some c =>
      simp only [findWordsAux, hsc]
      by_cases ha : isWordLetter c = true
      · rw [if_pos ha]
        obtain ⟨hww, hwle, hwinv⟩ := matchWord_facts seg i c hsc ha
        have hlen : (slice seg i
            (wordEnd (seg.length + 1) seg (letterRun (seg.length + 1) seg (i + 1)))).length =
            wordEnd (seg.length + 1) seg (letterRun (seg.length + 1) seg (i + 1)) - i := by
          rw [slice_length]
          omega
        have hends : i + (slice seg i
            (wordEnd (seg.length + 1) seg (letterRun (seg.length + 1) seg (i + 1)))).length =
            wordEnd (seg.length + 1) seg (letterRun (seg.length + 1) seg (i + 1)) := by
          rw [hlen]
          omega
        have hih := ih seg (wordEnd (seg.length + 1) seg (letterRun (seg.length + 1) seg (i + 1)))
        constructor
        · intro p hp
          rcases List.mem_cons.mp hp with hp1 | hp1
          · subst hp1
            dsimp only
            refine ⟨le_refl i, ?_, ?_, ?_⟩
            · rw [hends]
              exact hwle
            · rw [hends]
            · exact wordPattern_slice seg i _ hwinv hwle
          · have h2 := hih.1 p hp1
            exact ⟨by omega, h2.2⟩
        · rw [List.pairwise_cons]
          refine ⟨?_, hih.2⟩
          intro p hp
          have h2 := hih.1 p hp
          rw [hends]
          exact h2.1
      · rw [if_neg ha]
        have hih := ih seg (i + 1)
        refine ⟨?_, hih.2⟩
        intro p hp
        have h2 := hih.1 p hp
        exact ⟨by omega, h2.2⟩

/-- The word scan of a whole segment: offsets, faithfulness, word shape
and ordering. -/
theorem findWords_spec (seg : List Char) :
    (∀ p ∈ findWords seg,
      p.2 + p.1.length ≤ seg.length ∧
      p.1 = slice seg p.2 (p.2 + p.1.length) ∧ wordPattern p.1 = true) ∧
    (findWords seg).Pairwise (fun a b => a.2 + a.1.length ≤ b.2) := by
  have h := findWordsAux_spec (seg.length + 1) seg 0
  exact ⟨fun p hp => (h.1 p hp).2, h.2⟩

/-- The three possible depth contributions of a position. -/
theorem braceDelta_cases (text : List Char) (oc cc : Char) (k : Nat) :
    braceDelta text oc cc k = 1 ∨ braceDelta text oc cc k = 0 ∨
      braceDelta text oc cc k = -1 := by
  rw [braceDelta]
  by_cases h1 : text[k]? = some oc ∧ is_escaped text k = false
  · rw [if_pos h1]
    exact Or.inl rfl
  · rw [if_neg h1]
    by_cases h2 : text[k]? = some cc ∧ is_escaped text k = false
    · rw [if_pos h2]
      exact Or.inr (Or.inr rfl)
    · rw [if_neg h2]
      exact Or.inr (Or.inl rfl)

/-- A negative depth step marks an unescaped closer. -/
theorem braceDelta_neg (text : List Char) (oc cc : Char) (k : Nat)
    (h : braceDelta text oc cc k = -1) :
    text[k]? = some cc ∧ is_escaped text k = false := by
  rw [braceDelta] at h
  by_cases h1 : text[k]? = some oc ∧ is_escaped text k = false
  · rw [if_pos h1] at h
    exact absurd h (by decide)
  · rw [if_neg h1] at h
    by_cases h2 : text[k]? = some cc ∧ is_escaped text k = false
    · exact h2
    · rw [if_neg h2] at h
      exact absurd h (by decide)

/-- Splitting a depth run at an intermediate position. -/
theorem depthRun_split (text : List Char) (oc cc : Char) (p q : Nat) (hpq : p ≤ q) :
    ∀ x, q ≤ x → depthRun text oc cc p (x - p) =
      depthRun text oc cc p (q - p) + depthRun text oc cc q (x - q) := by
  intro x hx
  induction x, hx using Nat.le_induction with
  | base =>
    rw [Nat.sub_self, depthRun, add_zero]
  | succ x hx ih =>
    rw [depthRun_succ text oc cc p x (by omega), ih,
      depthRun_succ text oc cc q x hx]
    exact add_assoc _ _ _

/-- Between an unescaped opener and its first closer the depth count
stays positive. -/
theorem depthRun_pos (text : List Char) (oc cc : Char) (p e : Nat)
    (hd : braceDelta text oc cc p = 1)
    (hfirst : ∀ k, k < e → p ≤ k → ¬ closesAt text oc cc p k) :
    ∀ x, p < x → x ≤ e → 1 ≤ depthRun text oc cc p (x - p) := by
  intro x hx1
  induction x, hx1 using Nat.le_induction with
  | base =>
    intro hx2
    rw [show p + 1 - p = 1 by omega, depthRun, depthRun, Nat.add_zero, hd]
    omega
  | succ x hx ih =>
    intro hx2
    have ihx := ih (by omega)
    rw [depthRun_succ text oc cc p x (by omega)]
    rcases braceDelta_cases text oc cc x with h | h | h
    · rw [h]
      omega
    · rw [h]
      omega
    · rw [h]
      by_contra hcon
      have hz : depthRun text oc cc p (x - p) + (-1) = 0 := by omega
      obtain ⟨hc1, hc2⟩ := braceDelta_neg text oc cc x h
      have hcl : closesAt text oc cc p x := by
        refine ⟨hc1, hc2, ?_⟩
        rw [depthRun_succ text oc cc p x (by omega), h]
        exact hz
      exact hfirst x (by omega) (by omega) hcl

/-- A depth run that goes from positive to non-positive crosses zero at
an unescaped closer. -/
theorem depthRun_cross (text : List Char) (oc cc : Char) (q : Nat) :
    ∀ m n, n < m → 1 ≤ depthRun text oc cc q n → depthRun text oc cc q m ≤ 0 →
      ∃ k, q + n ≤ k ∧ k < q + m ∧ closesAt text oc cc q k := by
  intro m
  induction m with
  | zero =>
    intro n h1
    exact absurd h1 (by omega)
  | succ m ih =>
    intro n h1 h2 h3
    by_cases hm : depthRun text oc cc q m ≤ 0
    · have hnm : n < m := by
        by_contra hcon
        have hnm2 : n = m := by omega
        subst hnm2
        omega
      obtain ⟨k, hk1, hk2, hk3⟩ := ih n hnm h2 hm
      exact ⟨k, hk1, by omega, hk3⟩
    · push_neg at hm
      rw [depthRun] at h3
      rcases braceDelta_cases text oc cc (q + m) with h | h | h
      · rw [h] at h3
        exact absurd h3 (by omega)
      · rw [h] at h3
        exact absurd h3 (by omega)
      · obtain ⟨hc1, hc2⟩ := braceDelta_neg text oc cc (q + m) h
        refine ⟨q + m, by omega, by omega, hc1, hc2, ?_⟩
        rw [show q + m + 1 - q = m + 1 by omega, depthRun, h]
        rw [h] at h3
        omega

/-- Nesting of matched delimiters: an unescaped opener strictly inside a
matched pair closes strictly before the outer closer. -/
theorem brace_nest (text : List Char) (oc cc : Char) (p e q r : Nat)
    (hp : braceDelta text oc cc p = 1)
    (hq : braceDelta text oc cc q = 1)
    (hmatch : IsMatch text oc cc p e)
    (hq1 : p < q) (hq2 : q < e)
    (hr : IsMatch text oc cc q r) : r < e := by
  obtain ⟨hpe, hecl, hefirst⟩ := hmatch
  have hc : 1 ≤ depthRun text oc cc p (q - p) :=
    depthRun_pos text oc cc p e hp hefirst q hq1 (by omega)
  have he0 : depthRun text oc cc p (e + 1 - p) = 0 := hecl.2.2
  have hsplit := depthRun_split text oc cc p q (by omega) (e + 1) (by omega)
  have hq0 : depthRun text oc cc q (e + 1 - q) ≤ -1 := by
    rw [hsplit] at he0
    omega
  have hq1s : 1 ≤ depthRun text oc cc q 1 := by
    rw [depthRun, depthRun, Nat.add_zero, hq]
    omega
  obtain ⟨k, hk1, hk2, hk3⟩ := depthRun_cross text oc cc q (e + 1 - q) 1
    (by omega) hq1s (by omega)
  have hkne : k ≠ e := by
    intro hcon
    have hzz := hk3.2.2
    rw [hcon] at hzz
    omega
  rcases Nat.lt_or_ge k r with hlt | hge
  · exact absurd hk3 (hr.2.2 k hlt (by omega))
  · omega

/-- The characterization of `find_matching_brace` (specification side). -/
theorem fmb_iff (text : List Char) (start j : Nat) :
    find_matching_brace text start = some j ↔
      start < text.length ∧ text[start]? = some lbrace ∧
        IsMatch text lbrace rbrace start j := by
  rw [find_matching_brace]
  by_cases hg : start < text.length ∧ text[start]? = some lbrace
  · rw [if_pos hg]
    have h0 : depthRun text lbrace rbrace start (start - start) = 0 := by
      rw [Nat.sub_self]
      rfl
    have h1 := matchScan_some_iff text lbrace rbrace (by decide)
      (text.length + 1 - start) start start (le_refl start) (by omega)
      (fun k hk2 hk1 => absurd (lt_of_le_of_lt hk1 hk2) (lt_irrefl start)) j
    rw [h0] at h1
    rw [h1]
    constructor
    · intro hm
      exact ⟨hg.1, hg.2, hm⟩
    · intro hm
      exact hm.2.2
  · rw [if_neg hg]
    constructor
    · intro hc
      exact absurd hc (by simp)
    · intro hm
      exact absurd ⟨hm.1, hm.2.1⟩ hg

/-- Braces opened strictly inside a matched braced group close strictly
before the group does. -/
theorem fmb_nest (text : List Char) (index aend : Nat)
    (hesc : is_escaped text index = false)
    (h : find_matching_brace text index = some aend) :
    ∀ q r, index < q → q < aend → text[q]? = some lbrace →
      is_escaped text q = false → find_matching_brace text q = some r → r < aend := by
  intro q r hq1 hq2 hq3 hq4 hq5
  have h1 := (fmb_iff text index aend).mp h
  have h2 := (fmb_iff text q r).mp hq5
  refine brace_nest text lbrace rbrace index aend q r ?_ ?_ h1.2.2 hq1 hq2 h2.2.2
  · rw [braceDelta, if_pos ⟨h1.2.1, hesc⟩]
  · rw [braceDelta, if_pos ⟨hq3, hq4⟩]

/-- The conclusion of the scanner invariant: every yielded pair starts at
or after the cursor, ends inside both the text and the range, reads back
its own slice of the text, has the `WORD_RE` shape; and yields come in
order, each starting at or after the previous word's end. -/
def ScanOut (text : List Char) (index endp : Nat) (L : List (List Char × Nat)) : Prop :=
  (∀ p ∈ L, index ≤ p.2 ∧ p.2 + p.1.length ≤ text.length ∧ p.2 + p.1.length ≤ endp ∧
    p.1 = slice text p.2 (p.2 + p.1.length) ∧ wordPattern p.1 = true) ∧
  L.Pairwise (fun a b => a.2 + a.1.length ≤ b.2)

/-- The range hypothesis of the scanner invariant: unescaped braces inside
the range close inside the range. -/
def RangeNest (text : List Char) (index endp : Nat) : Prop :=
  ∀ q r, index ≤ q → q < endp → text[q]? = some lbrace →
    is_escaped text q = false → find_matching_brace text q = some r → r < endp

/-- Weakening the cursor of a scanner conclusion. -/
theorem ScanOut_mono (text : List Char) (i j endp : Nat) (L : List (List Char × Nat))
    (h : ScanOut text j endp L) (hij : i ≤ j) : ScanOut text i endp L := by
  refine ⟨?_, h.2⟩
  intro p hp
  have h2 := h.1 p hp
  exact ⟨by omega, h2.2⟩

/-- Weakening the cursor of the range hypothesis. -/
theorem RangeNest_mono (text : List Char) (i j endp : Nat)
    (h : RangeNest text i endp) (hij : i ≤ j) : RangeNest text j endp :=
  fun q r h1 h2 => h q r (by omega) h2

/-- The braced-argument step: given the scanner invariant for the plain
scan at this fuel, the shared command tail keeps it. -/
theorem scanBraced_spec (P : ScanParams) (fuel : Nat) (text : List Char)
    (ih : ∀ (index endp : Nat), RangeNest text index endp →
      (index < endp → text[index]? = some '\\' → is_escaped text index = false) →
      ScanOut text index endp (scanRange P fuel text index endp))
    (i1 endp : Nat)
    (hq : RangeNest text i1 endp)
    (hclean : CleanAt text i1) :
    ScanOut text i1 endp (scanBraced P fuel text i1 endp) := by
  rw [scanBraced]
  by_cases hc : i1 < endp ∧ text[i1]? = some lbrace
  · rw [if_pos hc]
    have hesc : is_escaped text i1 = false := by
      rcases hclean with h | h
      · exact h
      · rw [h] at hc
        exact absurd hc.2 (by simp)
    cases hf : find_matching_brace text i1 with
    | none =>
      simp only
      have h1 := ih (i1 + 1) endp (RangeNest_mono text i1 (i1 + 1) endp hq (by omega))
        (fun _ => cleanAt_ev text (i1 + 1) (cleanAt_of_prev text i1 lbrace hc.2 (by decide)))
      exact ScanOut_mono text i1 (i1 + 1) endp _ h1 (by omega)
    | some arg_end =>
      simp only
      have hff := fmb_facts text i1 arg_end hf
      have haend : arg_end < endp := hq i1 arg_end (le_refl i1) hc.1 hc.2 hesc hf
      have hqsub : RangeNest text (i1 + 1) arg_end := by
        intro q r hq1 hq2 hq3 hq4 hq5
        exact fmb_nest text i1 arg_end hesc hf q r (by omega) hq2 hq3 hq4 hq5
      have hsub := ih (i1 + 1) arg_end hqsub
        (fun _ => cleanAt_ev text (i1 + 1) (cleanAt_of_prev text i1 lbrace hc.2 (by decide)))
      have hcont := ih (arg_end + 1) endp
        (RangeNest_mono text i1 (arg_end + 1) endp hq (by omega))
        (fun _ => cleanAt_ev text (arg_end + 1)
          (cleanAt_of_prev text arg_end rbrace hff.2.2.1 (by decide)))
      constructor
      · intro p hp
        rcases List.mem_append.mp hp with hp1 | hp1
        · have h2 := hsub.1 p hp1
          exact ⟨by omega, h2.2.1, by omega, h2.2.2.2⟩
        · have h2 := hcont.1 p hp1
          exact ⟨by omega, h2.2⟩
      · rw [List.pairwise_append]
        refine ⟨hsub.2, hcont.2, ?_⟩
        intro a ha b hb
        have h2 := (hsub.1 a ha).2.2.1
        have h3 := (hcont.1 b hb).1
        omega
  · rw [if_neg hc]
    exact ih i1 endp hq (fun _ hbs => cleanAt_ev text i1 hclean hbs)

/-- A slice of a slice that stays inside the inner window is a slice of
the original text. -/
theorem slice_of_slice (text : List Char) (a b o l : Nat) (h : o + l ≤ b - a) :
    slice (slice text a b) o (o + l) = slice text (a + o) (a + o + l) := by
  apply List.ext_getElem?
  intro k
  rw [slice_getElem? (slice text a b), slice_getElem? text (a + o) (a + o + l) k]
  have h1 : o + l - o = l := by omega
  have h2 : a + o + l - (a + o) = l := by omega
  rw [h1, h2]
  by_cases hk : k < l
  · rw [if_pos hk, if_pos hk, slice_getElem?, if_pos (by omega),
      show a + (o + k) = a + o + k from by omega]
  · rw [if_neg hk, if_neg hk]

/-- A `WORD_RE` word is non-empty. -/
theorem wordPattern_ne_nil (w : List Char) (h : wordPattern w = true) : w ≠ [] := by
  intro hcon
  subst hcon
  exact absurd h (by decide)

/-- The scanner invariant: a scan whose range contains all its brace
matches, started at a clean cursor, yields faithful, `WORD_RE`-shaped,
in-order words inside the range. -/
theorem scanRange_spec (fuel : Nat) :
    ∀ (P : ScanParams) (text : List Char) (index endp : Nat),
      RangeNest text index endp →
      (index < endp → text[index]? = some '\\' → is_escaped text index = false) →
      ScanOut text index endp (scanRange P fuel text index endp) := by
  induction fuel with
  | zero =>
    intro P text index endp hq hev
    simp only [scanRange]
    exact ⟨fun p hp => absurd hp (List.not_mem_nil p), List.Pairwise.nil⟩
  | succ fuel ih =>
    intro P text index endp hq hev
    rw [scanRange]
    by_cases hin : index < endp
    · rw [if_pos hin]
      cases hsc : text[index]? with
      | none =>
        simp only
        exact ⟨fun p hp => absurd hp (List.not_mem_nil p), List.Pairwise.nil⟩
      | some c =>
        simp only
        have hidx : index < text.length := getElem?_lt text index c hsc
        by_cases hcm : c = '%' ∧ is_escaped text index = false
        · rw [if_pos hcm]
          have hcf := skipComment_facts text index (by omega)
          have h1 := ih P text (_scan_skip_comment text index) endp
            (RangeNest_mono text index _ endp hq hcf.1) ?_
          · exact ScanOut_mono text index _ endp _ h1 hcf.1
          · intro _ hbs
            rcases hcf.2 with h2 | h2
            · rw [h2, List.getElem?_eq_none (le_refl _)] at hbs
              exact absurd hbs (by simp)
            · rw [h2] at hbs
              exact absurd (Option.some.inj hbs) (by decide)
        · rw [if_neg hcm]
          by_cases hms : _scan_is_math_start text index = true
          · rw [if_pos hms]
            have hmf := skipMath_facts text index hms
            have h1 := ih P text (_scan_skip_math text index) endp
              (RangeNest_mono text index _ endp hq (by omega)) (fun _ => hmf.2)
            exact ScanOut_mono text index _ endp _ h1 (by omega)
          · rw [if_neg hms]
            by_cases hbg : startsWithAt text beginTok index = true ∧
                _handle_begin P text index ≠ index
            · rw [if_pos hbg]
              have hbs : text[index]? = some '\\' := by
                have h2 := startsWithAt_getElem text beginTok index hbg.1 0 (by decide)
                rw [Nat.add_zero] at h2
                exact h2
              have hesc := hev hin hbs
              have hhf := handleBegin_facts P text index hbs hesc
              have h1 := ih P text (_handle_begin P text index) endp
                (RangeNest_mono text index _ endp hq hhf.1) (fun _ => hhf.2)
              exact ScanOut_mono text index _ endp _ h1 hhf.1
            · rw [if_neg hbg]
              by_cases hbsl : c = '\\'
              · rw [if_pos hbsl]
                have hbs : text[index]? = some '\\' := by rw [hsc, hbsl]
                have hesc := hev hin hbs
                have hpge := parse_ge text index
                have hpclean := parse_cleanAt text index hbs hesc
                by_cases hemp : (_scan_parse_command text index).1 = []
                · rw [if_pos hemp]
                  have h1 := ih P text (_scan_parse_command text index).2 endp
                    (RangeNest_mono text index _ endp hq hpge)
                    (fun _ => cleanAt_ev text _ hpclean)
                  exact ScanOut_mono text index _ endp _ h1 hpge
                · rw [if_neg hemp]
                  by_cases hbe : (_scan_parse_command text index).1 = beginName ∨
                      (_scan_parse_command text index).1 = endName
                  · rw [if_pos hbe]
                    have hage := skip_command_args_ge text (_scan_parse_command text index).2
                      (_scan_parse_command text index).1 P.skip_two_args
                    have haclean := skip_command_args_cleanAt text
                      (_scan_parse_command text index).2 (_scan_parse_command text index).1
                      P.skip_two_args hpclean
                    have h1 := ih P text _ endp
                      (RangeNest_mono text index _ endp hq (by omega))
                      (fun _ => cleanAt_ev text _ haclean)
                    exact ScanOut_mono text index _ endp _ h1 (by omega)
                  · rw [if_neg hbe]
                    by_cases hsk : (_scan_parse_command text index).1 ∈ P.skip_commands ∧
                        (_scan_parse_command text index).1 ∉ P.keep_commands
                    · rw [if_pos hsk]
                      have hage := skip_command_args_ge text (_scan_parse_command text index).2
                        (_scan_parse_command text index).1 P.skip_two_args
                      have haclean := skip_command_args_cleanAt text
                        (_scan_parse_command text index).2 (_scan_parse_command text index).1
                        P.skip_two_args hpclean
                      have h1 := ih P text _ endp
                        (RangeNest_mono text index _ endp hq (by omega))
                        (fun _ => cleanAt_ev text _ haclean)
                      exact ScanOut_mono text index _ endp _ h1 (by omega)
                    · rw [if_neg hsk]
                      by_cases hsa : (_scan_parse_command text index).1 ∈ P.second_arg_commands
                      · rw [if_pos hsa]
                        have hige : index ≤ _scan_skip_first_braced text
                            (_scan_skip_optional text (_scan_parse_command text index).2) := by
                          have h2 := skip_optional_ge text (_scan_parse_command text index).2
                          have h3 := skip_first_braced_ge text
                            (_scan_skip_optional text (_scan_parse_command text index).2)
                          omega
                        have hiclean := skip_first_braced_cleanAt text _
                          (skip_optional_cleanAt text _ hpclean)
                        have h1 := scanBraced_spec P fuel text (fun i e a b => ih P text i e a b)
                          _ endp (RangeNest_mono text index _ endp hq hige) hiclean
                        exact ScanOut_mono text index _ endp _ h1 hige
                      · rw [if_neg hsa]
                        have hige : index ≤
                            _scan_skip_optional text (_scan_parse_command text index).2 := by
                          have h2 := skip_optional_ge text (_scan_parse_command text index).2
                          omega
                        have hiclean := skip_optional_cleanAt text _ hpclean
                        have h1 := scanBraced_spec P fuel text (fun i e a b => ih P text i e a b)
                          _ endp (RangeNest_mono text index _ endp hq hige) hiclean
                        exact ScanOut_mono text index _ endp _ h1 hige
              · rw [if_neg hbsl]
                have hnf := nextSpecial_facts text index endp (by omega)
                have hcont := ih P text (_scan_next_special text index endp) endp
                  (RangeNest_mono text index _ endp hq hnf.1) ?_
                · have hseg := findWords_spec (slice text index (_scan_next_special text index endp))
                  have hslen : (slice text index (_scan_next_special text index endp)).length =
                      min (_scan_next_special text index endp - index) (text.length - index) :=
                    slice_length text index _
                  constructor
                  · intro p hp
                    rcases List.mem_append.mp hp with hp1 | hp1
                    · obtain ⟨a, ha, hap⟩ := List.mem_map.mp hp1
                      have h2 := hseg.1 a ha
                      have hlen2 : a.2 + a.1.length ≤
                          min (_scan_next_special text index endp - index)
                            (text.length - index) := by
                        rw [← hslen]
                        exact h2.1
                      subst hap
                      dsimp only
                      refine ⟨by omega, by omega, by omega, ?_, h2.2.2⟩
                      rw [← slice_of_slice text index (_scan_next_special text index endp)
                        a.2 a.1.length (by omega)]
                      exact h2.2.1
                    · have h2 := hcont.1 p hp1
                      exact ⟨by omega, h2.2⟩
                  · rw [List.pairwise_append]
                    refine ⟨?_, hcont.2, ?_⟩
                    · rw [List.pairwise_map]
                      refine List.Pairwise.imp ?_ hseg.2
                      intro a b hab
                      dsimp only
                      omega
                    · intro a ha b hb
                      obtain ⟨a2, ha2, hap⟩ := List.mem_map.mp ha
                      have h2 := hseg.1 a2 ha2
                      have hlen2 : a2.2 + a2.1.length ≤
                          min (_scan_next_special text index endp - index)
                            (text.length - index) := by
                        rw [← hslen]
                        exact h2.1
                      have h3 := (hcont.1 b hb).1
                      subst hap
                      dsimp only
                      omega
                · intro hlt hbs
                  by_cases hni : _scan_next_special text index endp = index
                  · rw [hni] at hbs
                    rw [hbs] at hsc
                    exact absurd (Option.some.inj hsc).symm hbsl
                  · have hgt : index < _scan_next_special text index endp := by
                      have := hnf.1
                      omega
                    cases hd : text[_scan_next_special text index endp - 1]? with
                    | none =>
                      have hlen3 : text.length ≤ _scan_next_special text index endp - 1 :=
                        List.getElem?_eq_none_iff.mp hd
                      rw [List.getElem?_eq_none (by omega)] at hbs
                      exact absurd hbs (by simp)
                    | some d =>
                      have hnsp := hnf.2.2 (_scan_next_special text index endp - 1)
                        (by omega) (by omega)
                      have hdne : d ≠ '\\' := by
                        intro hcon
                        rw [hcon] at hd
                        exact hnsp (Or.inl hd)
                      have h4 := is_escaped_after text
                        (_scan_next_special text index endp - 1) d hd hdne
                      rw [show _scan_next_special text index endp - 1 + 1 =
                        _scan_next_special text index endp from by omega] at h4
                      exact h4
    · rw [if_neg hin]
      exact ⟨fun p hp => absurd hp (List.not_mem_nil p), List.Pairwise.nil⟩

/-- C10.  Word-offset faithfulness: every `(word, offset)` pair yielded by
`WordScanner.iter_words` over a text has an offset that is a valid index
into the text, the text's slice from `offset` to `offset + len(word)`
equal to the word itself, and a word of the `WORD_RE` shape (a run of
Latin or Cyrillic letters with internal single hyphens); successive
yielded offsets are strictly increasing.  Quantified over the fuel of the
loop embedding, so it covers every terminating run of the scanner. -/
theorem word_offset_faithfulness (P : ScanParams) (fuel : Nat) (text : List Char) :
    (∀ p ∈ iter_words P fuel text,
      p.2 < text.length ∧
      slice text p.2 (p.2 + p.1.length) = p.1 ∧
      wordPattern p.1 = true) ∧
    List.Pairwise (fun a b => a.2 < b.2) (iter_words P fuel text) := by
  have h := scanRange_spec fuel P text 0 text.length
    (fun q r _ _ _ _ h5 => (fmb_facts text q r h5).2.1)
    (fun _ _ => rfl)
  constructor
  · intro p hp
    have h2 := h.1 p hp
    have hne : p.1 ≠ [] := wordPattern_ne_nil p.1 h2.2.2.2.2
    have hpos : 0 < p.1.length := List.length_pos.mpr hne
    exact ⟨by have := h2.2.1; omega, h2.2.2.2.1.symm, h2.2.2.2.2⟩
  · refine List.Pairwise.imp_of_mem ?_ h.2
    intro a b ha _ hab
    have h2 := h.1 a ha
    have hne : a.1 ≠ [] := wordPattern_ne_nil a.1 h2.2.2.2.2
    have hpos : 0 < a.1.length := List.length_pos.mpr hne
    omega

/-- The text backslash, lparen, x, backslash, backslash, rparen: an
inline-paren math block whose only `\)` occurrence is escaped. -/
def cexUntermText : List Char := ['\\', '(', 'x', '\\', '\\', ')']

/-- Counterexample to C6 as frozen: the opener `\(` at position 0 is
unescaped and every occurrence of `\)` in the text is escaped, so the
frozen claim predicts that masking stops at the opener and returns the
text unchanged; the code's plain substring search for `\)` finds the
escaped occurrence and masks the whole text. -/
theorem unterminated_math_degradation_counterexample :
    startsWithAt cexUntermText ['\\', '('] 0 = true ∧
    is_escaped cexUntermText 0 = false ∧
    (∀ j, startsWithAt cexUntermText ['\\', ')'] j = true →
      is_escaped cexUntermText j = true) ∧
    mask_math_keep_length cexUntermText ≠ cexUntermText := by
  refine ⟨by decide, by decide, ?_, by decide⟩
  have hb : ∀ j, j < cexUntermText.length →
      startsWithAt cexUntermText ['\\', ')'] j = true →
      is_escaped cexUntermText j = true := by decide
  intro j h
  by_cases hj : j < cexUntermText.length
  · exact hb j hj h
  · exfalso
    have h2 := startsWithAt_le_length cexUntermText ['\\', ')'] j h (by decide)
    have h3 : cexUntermText.length = 6 := rfl
    have h4 : (['\\', ')'] : List Char).length = 2 := rfl
    omega

end LintGost
